import Mathlib

/-!
Grid fluid solver (`second_attemp_backend.h`): embedding and verified properties

The solver keeps four flat row-major grids (`u`, `v`, `p`, `obstacle`) of
`nx * ny` cells and advances them by `advect → diffuse → project`.

Modelling conventions.

* `std::vector<double>` is a `List`, `std::vector<bool>` is `List Bool`.  A read
  `a[k]` is `a.getD k 0` (`false` for the mask), a write `a[k] = x` is
  `a.set k x`.  On grids of length `nx * ny` every index the code touches is in
  range, so neither default is ever observed there.
* A `for (size_t i = lo; i < hi; ++i)` loop is `forRange lo hi body`, a left fold
  of the loop body over `lo, lo+1, …, hi-1`; `continue` is the `then` branch that
  returns the loop state untouched.
* The source is embedded twice.  In the rational embedding (`FluidSimulator`,
  `advect`, `diffuse`, `project`, `step`, …) a `double` is a rational number and
  the operations are exact.  It carries the properties that do not depend on
  rounding: which cells are written and in which order, sizes, indices, the
  clamp of the time step for `nu > 0`.  Its one quotient whose divisor can vanish
  there, `dx * dx / (4.0 * nu)`, is evaluated by `ddiv`.
* In the binary64 embedding (namespace `F64`, values of type `Dbl`) a `double` is
  a finite number with its sign (so `+0.0` and `-0.0` differ), an infinity or
  NaN; every arithmetic operation of the source is the IEEE-754 operation: the
  exact result rounded to nearest, ties to even, overflowing to an infinity, with
  the special cases of division by zero and of NaN; each operation is rounded on
  its own (no fused multiply-add).  `std::min`, `std::max`, `std::floor` and the
  conversions between `size_t` and `double` follow the C++ library.  The
  properties that depend on what `double` arithmetic does are stated on this
  embedding.
* `size_t` values are natural numbers; for `nx, ny ≥ 1` the differences `nx - 1`
  and `ny - 1` of the source do not wrap and agree with truncated subtraction.
  `idxSizeT` is the indexer with the 64-bit wrap-around of the source.
* `std::sqrt` belongs to the C++ library; the two velocity queries take it as a
  parameter `sqrt : ℚ → ℚ`.
* Index safety is stated on the subscripts themselves: `stepAccesses` lists every
  subscript `a[k]` that `step` evaluates as the pair (size of `a`, `k`), loop by
  loop in the order of the source.
-/

namespace FluidSim

/-! ## Source embedding -/

/-- Flat offset of cell `(i, j)` in a row-major grid of width `nx`
(`idx`, lines 9–11), without the wrap-around of `size_t`; on a grid of at most
`2^64` cells it is the value the source computes (`idxSizeT_eq`). -/
def idx (i j nx : Nat) : Nat := i * nx + j

/-- Counted loop `for (size_t i = lo; i < hi; ++i) body(i)` threading the
variables the body mutates. -/
def forRange {σ : Type} (lo hi : Nat) (body : Nat → σ → σ) (init : σ) : σ :=
  (List.range' lo (hi - lo)).foldl (fun s i => body i s) init

/-- Five-point Laplacian on the interior cells, zero on the boundary ring
(`laplacian`, lines 13–27). -/
def laplacian (field : List ℚ) (nx ny : Nat) (dx : ℚ) : List ℚ :=
  forRange 1 (ny - 1) (fun i lap =>
    forRange 1 (nx - 1) (fun j lap =>
      lap.set (idx i j nx)
        ((field.getD (idx (i - 1) j nx) 0 + field.getD (idx (i + 1) j nx) 0 +
          field.getD (idx i (j - 1) nx) 0 + field.getD (idx i (j + 1) nx) 0 -
          4 * field.getD (idx i j nx) 0) / (dx * dx))) lap)
    (List.replicate (nx * ny) 0)

/-- Data members of `class FluidSimulator` (lines 31–39). -/
structure FluidSimulator where
  nx : Nat
  ny : Nat
  dx : ℚ
  dt : ℚ
  nu : ℚ
  u_in : ℚ
  u : List ℚ
  v : List ℚ
  p : List ℚ
  obstacle : List Bool
deriving DecidableEq

/-- The value `advect` stores in a non-obstacle cell `(i, j)`: back-trace,
clamp into the grid, bilinear interpolation (loop body, lines 53–77, with
`dt_dx` of line 46). -/
def advectCell (s : FluidSimulator) (field u0 v0 : List ℚ) (i j : Nat) : ℚ :=
  let dt_dx := s.dt / s.dx
  let x_back := (j : ℚ) - u0.getD (idx i j s.nx) 0 * dt_dx
  let y_back := (i : ℚ) - v0.getD (idx i j s.nx) 0 * dt_dx
  let x_back := max 0 (min (((s.nx - 1 : Nat) : ℚ)) x_back)
  let y_back := max 0 (min (((s.ny - 1 : Nat) : ℚ)) y_back)
  let x0 := (Int.floor x_back).toNat
  let y0 := (Int.floor y_back).toNat
  let x1 := min (x0 + 1) (s.nx - 1)
  let y1 := min (y0 + 1) (s.ny - 1)
  let sx := x_back - (x0 : ℚ)
  let sy := y_back - (y0 : ℚ)
  let f00 := field.getD (idx y0 x0 s.nx) 0
  let f10 := field.getD (idx y0 x1 s.nx) 0
  let f01 := field.getD (idx y1 x0 s.nx) 0
  let f11 := field.getD (idx y1 x1 s.nx) 0
  (1 - sx) * (1 - sy) * f00 + sx * (1 - sy) * f10 + (1 - sx) * sy * f01 + sx * sy * f11

/-- Semi-Lagrangian advection of `field` along `(u0, v0)`
(`FluidSimulator::advect`, lines 42–82). -/
def advect (s : FluidSimulator) (field u0 v0 : List ℚ) : List ℚ :=
  forRange 0 s.ny (fun i advected =>
    forRange 0 s.nx (fun j advected =>
      if s.obstacle.getD (idx i j s.nx) false then advected
      else advected.set (idx i j s.nx) (advectCell s field u0 v0 i j)) advected)
    (List.replicate (s.nx * s.ny) 0)

/-- Explicit viscous diffusion `field + nu * dt * laplacian field`
(`FluidSimulator::diffuse`, lines 85–96). -/
def diffuse (s : FluidSimulator) (field : List ℚ) : List ℚ :=
  let lap := laplacian field s.nx s.ny s.dx
  forRange 0 s.ny (fun i result =>
    forRange 0 s.nx (fun j result =>
      result.set (idx i j s.nx)
        (result.getD (idx i j s.nx) 0 + s.nu * s.dt * lap.getD (idx i j s.nx) 0)) result)
    field

/-- Central-difference divergence of `(u, v)` on the interior cells, the first
loop of `project` (lines 100, 104–111). -/
def divergence (s : FluidSimulator) : List ℚ :=
  forRange 1 (s.ny - 1) (fun i div =>
    forRange 1 (s.nx - 1) (fun j div =>
      div.set (idx i j s.nx)
        (((s.u.getD (idx i (j + 1) s.nx) 0 - s.u.getD (idx i (j - 1) s.nx) 0) +
          (s.v.getD (idx (i + 1) j s.nx) 0 - s.v.getD (idx (i - 1) j s.nx) 0)) /
          (2 * s.dx))) div)
    (List.replicate (s.nx * s.ny) 0)

/-- One Jacobi sweep: the body of the `iter` loop before the swap
(lines 115–128).  Reads `p`, writes the interior cells of `p_new`. -/
def jacobiSweep (s : FluidSimulator) (div p p_new : List ℚ) : List ℚ :=
  forRange 1 (s.ny - 1) (fun i p_new =>
    forRange 1 (s.nx - 1) (fun j p_new =>
      if s.obstacle.getD (idx i j s.nx) false then p_new.set (idx i j s.nx) 0
      else
        p_new.set (idx i j s.nx)
          ((p.getD (idx i (j + 1) s.nx) 0 + p.getD (idx i (j - 1) s.nx) 0 +
            p.getD (idx (i + 1) j s.nx) 0 + p.getD (idx (i - 1) j s.nx) 0 -
            div.getD (idx i j s.nx) 0 * s.dx * s.dx) * (1 / 4))) p_new)
    p_new

/-- The pair `(p, p_new)` after `iters` rounds of sweep-then-`std::swap`
(lines 114–132), started from `pp`. -/
def relax (s : FluidSimulator) (div : List ℚ) : Nat → List ℚ × List ℚ → List ℚ × List ℚ
  | 0, pp => pp
  | iters + 1, pp =>
    let q := relax s div iters pp
    (jacobiSweep s div q.1 q.2, q.1)

/-- Pressure-gradient correction of the interior velocity (lines 134–139). -/
def correctVelocity (s : FluidSimulator) (p : List ℚ) (uv : List ℚ × List ℚ) :
    List ℚ × List ℚ :=
  forRange 1 (s.ny - 1) (fun i uv =>
    forRange 1 (s.nx - 1) (fun j uv =>
      (uv.1.set (idx i j s.nx)
          (uv.1.getD (idx i j s.nx) 0 -
            (p.getD (idx i (j + 1) s.nx) 0 - p.getD (idx i (j - 1) s.nx) 0) / (2 * s.dx)),
        uv.2.set (idx i j s.nx)
          (uv.2.getD (idx i j s.nx) 0 -
            (p.getD (idx (i + 1) j s.nx) 0 - p.getD (idx (i - 1) j s.nx) 0) / (2 * s.dx))))
      uv)
    uv

/-- Inlet and outlet columns, written in the source order (lines 142–147). -/
def applyBoundary (s : FluidSimulator) (uv : List ℚ × List ℚ) : List ℚ × List ℚ :=
  forRange 0 s.ny (fun i uv =>
    let u := uv.1.set (idx i 0 s.nx) s.u_in
    let u := u.set (idx i (s.nx - 1) s.nx) 0
    let v := uv.2.set (idx i 0 s.nx) 0
    let v := v.set (idx i (s.nx - 1) s.nx) 0
    (u, v))
    uv

/-- Zero velocity on every obstacle cell (lines 150–157). -/
def applyObstacle (s : FluidSimulator) (uv : List ℚ × List ℚ) : List ℚ × List ℚ :=
  forRange 0 s.ny (fun i uv =>
    forRange 0 s.nx (fun j uv =>
      if s.obstacle.getD (idx i j s.nx) false then
        (uv.1.set (idx i j s.nx) 0, uv.2.set (idx i j s.nx) 0)
      else uv) uv)
    uv

/-- Number of Jacobi iterations of `project` (line 114). -/
def jacobiIters : Nat := 100

/-- Pressure projection (`FluidSimulator::project`, lines 99–158). -/
def project (s : FluidSimulator) : FluidSimulator :=
  let div := divergence s
  let pp := relax s div jacobiIters (s.p, List.replicate (s.nx * s.ny) 0)
  let uv := correctVelocity s pp.1 (s.u, s.v)
  let uv := applyBoundary s uv
  let uv := applyObstacle s uv
  { s with u := uv.1, v := uv.2, p := pp.1 }

/-- Constructor (`FluidSimulator::FluidSimulator`, lines 161–170). -/
def construct (nx ny : Nat) (dx dt viscosity u_in : ℚ) : FluidSimulator :=
  { nx := nx, ny := ny, dx := dx, dt := dt, nu := viscosity, u_in := u_in,
    u := List.replicate (nx * ny) 0,
    v := List.replicate (nx * ny) 0,
    p := List.replicate (nx * ny) 0,
    obstacle := List.replicate (nx * ny) false }

/-- The three grids zeroed on the cells of the stored mask, the loop of
`setObstacle` (lines 180–188). -/
def zeroMasked (s : FluidSimulator) (uvp : List ℚ × List ℚ × List ℚ) :
    List ℚ × List ℚ × List ℚ :=
  forRange 0 s.ny (fun i uvp =>
    forRange 0 s.nx (fun j uvp =>
      if s.obstacle.getD (idx i j s.nx) false then
        (uvp.1.set (idx i j s.nx) 0, uvp.2.1.set (idx i j s.nx) 0,
          uvp.2.2.set (idx i j s.nx) 0)
      else uvp) uvp)
    uvp

/-- Mask replacement (`FluidSimulator::setObstacle`, lines 172–189).  The
diagnostic written to `std::cerr` on a size mismatch is not part of the state. -/
def setObstacle (s : FluidSimulator) (mask : List Bool) : FluidSimulator :=
  if mask.length ≠ s.obstacle.length then s
  else
    let s1 := { s with obstacle := mask }
    let uvp := zeroMasked s1 (s1.u, s1.v, s1.p)
    { s1 with u := uvp.1, v := uvp.2.1, p := uvp.2.2 }

/-- Result of a `double` division of two finite values in the rational
embedding: the exact quotient when the divisor is non-zero, otherwise the
IEEE-754 special value for the divisor `+0.0` (`+inf`, `-inf` by the sign of the
dividend, `NaN` for `0/0`).  A rational has no sign of zero; the divisor `-0.0`
is covered by `Dbl.div`. -/
inductive DQuot where
  | finite (q : ℚ)
  | posInf
  | negInf
  | nan
deriving DecidableEq

/-- The `double` quotient `a / b`, a zero divisor being `+0.0`. -/
def ddiv (a b : ℚ) : DQuot :=
  if b = 0 then
    if 0 < a then DQuot.posInf else if a < 0 then DQuot.negInf else DQuot.nan
  else DQuot.finite (a / b)

/-- The comparison `x > y` of a finite `x` with a quotient `y`: false against
`+inf` and against `NaN`, true against `-inf`. -/
def gtQuot (x : ℚ) : DQuot → Bool
  | DQuot.finite q => decide (q < x)
  | DQuot.posInf => false
  | DQuot.negInf => true
  | DQuot.nan => false

/-- The time step stored by the first three lines of `step` (lines 192–195):
`max_dt = dx * dx / (4.0 * nu); if (dt > max_dt) dt = max_dt;`, in the rational
embedding.  The assignment stores a finite `max_dt`; with the divisor `+0.0` the
quotient `-inf` would need `dx * dx < 0`.  The same lines with signed zeros and
rounding are `F64.clampedDt`. -/
def clampedDt (s : FluidSimulator) : ℚ :=
  let max_dt := ddiv (s.dx * s.dx) (4 * s.nu)
  if gtQuot s.dt max_dt then
    match max_dt with
    | DQuot.finite m => m
    | _ => s.dt
  else s.dt

/-- The velocity handed to `project`: `step` after the clamp, both advections
and both diffusions (lines 192–205). -/
def preProject (s : FluidSimulator) : FluidSimulator :=
  let s := { s with dt := clampedDt s }
  let u0 := s.u
  let v0 := s.v
  let s := { s with u := advect s s.u u0 v0 }
  let s := { s with v := advect s s.v u0 v0 }
  let s := { s with u := diffuse s s.u }
  let s := { s with v := diffuse s s.v }
  s

/-- One time step (`FluidSimulator::step`, lines 191–208). -/
def step (s : FluidSimulator) : FluidSimulator :=
  project (preProject s)

/-- A call on the public mutating interface. -/
inductive Call where
  | setObstacle (mask : List Bool)
  | step
deriving DecidableEq

/-- Effect of one call. -/
def applyCall (s : FluidSimulator) : Call → FluidSimulator
  | Call.setObstacle mask => setObstacle s mask
  | Call.step => step s

/-- State after a finite sequence of calls, executed left to right. -/
def run (s : FluidSimulator) (calls : List Call) : FluidSimulator :=
  calls.foldl applyCall s

/-- Class invariant on the storage: the four grids have `nx * ny` cells. -/
def WellFormed (s : FluidSimulator) : Prop :=
  s.u.length = s.nx * s.ny ∧ s.v.length = s.nx * s.ny ∧ s.p.length = s.nx * s.ny ∧
    s.obstacle.length = s.nx * s.ny

/-- The mask value `obstacle[idx(i, j, nx)]`. -/
def solid (s : FluidSimulator) (i j : Nat) : Bool :=
  s.obstacle.getD (idx i j s.nx) false

/-- The grid `g` is zero on every cell of the stored mask. -/
def ZeroOnSolid (s : FluidSimulator) (g : List ℚ) : Prop :=
  ∀ i j, i < s.ny → j < s.nx → solid s i j = true → g.getD (idx i j s.nx) 0 = 0

/-- Invariant of the reachable states: grids of `nx * ny` cells and a pressure
that vanishes on the obstacle cells. -/
def Invariant (s : FluidSimulator) : Prop :=
  WellFormed s ∧ ZeroOnSolid s s.p

/-- The buffer `p` after `k` iterations of the relaxation loop of `project`
run on the state `s`. -/
def pressureAfterSweeps (s : FluidSimulator) (k : Nat) : List ℚ :=
  (relax s (divergence s) k (s.p, List.replicate (s.nx * s.ny) 0)).1

/-- State reached from the constructor by a finite sequence of calls. -/
def reached (nx ny : Nat) (dx dt viscosity u_in : ℚ) (calls : List Call) : FluidSimulator :=
  run (construct nx ny dx dt viscosity u_in) calls

/-- Largest absolute value of the central-difference divergence of the stored
velocity over the interior cells, the divergence being the one `project`
computes (`divergence`). -/
def maxInteriorDivergence (s : FluidSimulator) : ℚ :=
  forRange 1 (s.ny - 1) (fun i m =>
    forRange 1 (s.nx - 1) (fun j m =>
      max m |(divergence s).getD (idx i j s.nx) 0|) m) 0

/-- The simulator of the end-to-end scenario: 4 × 4 cells, `dx = 1`, `dt = 0.1`,
`nu = 0.02`, `u_in = 1`, no obstacle, zero velocity. -/
def scenario : FluidSimulator :=
  construct 4 4 1 (1 / 10) (1 / 50) 1

/-- A 2 × 1 simulator whose inlet cell `(0, 0)` has been made solid. -/
def inletMasked : FluidSimulator :=
  setObstacle (construct 2 1 1 (1 / 10) (1 / 50) 1) [true, false]

/-- A simulator with a single column, which is both inlet and outlet. -/
def singleColumn : FluidSimulator :=
  construct 1 1 1 (1 / 10) (1 / 50) 1

/-- Cell `(i, j)` lies on the boundary ring of the grid of `s`. -/
def onRing (s : FluidSimulator) (i j : Nat) : Prop :=
  i = 0 ∨ i = s.ny - 1 ∨ j = 0 ∨ j = s.nx - 1

/-- The grid `g` is zero on every cell of the boundary ring. -/
def ZeroOnRing (s : FluidSimulator) (g : List ℚ) : Prop :=
  ∀ i j, i < s.ny → j < s.nx → onRing s i j → g.getD (idx i j s.nx) 0 = 0

/-- Both buffers `(p, p_new)` after `k` iterations of the relaxation loop of
`project` run on the state `s`. -/
def pressureBuffers (s : FluidSimulator) (k : Nat) : List ℚ × List ℚ :=
  relax s (divergence s) k (s.p, List.replicate (s.nx * s.ny) 0)

/-- The clamped back-traced column `x_back` of cell `(i, j)` in `advect`
(lines 53 and 57). -/
def backX (s : FluidSimulator) (u0 : List ℚ) (i j : Nat) : ℚ :=
  max 0 (min (((s.nx - 1 : Nat) : ℚ)) ((j : ℚ) - u0.getD (idx i j s.nx) 0 * (s.dt / s.dx)))

/-- The clamped back-traced row `y_back` of cell `(i, j)` in `advect`
(lines 54 and 58). -/
def backY (s : FluidSimulator) (v0 : List ℚ) (i j : Nat) : ℚ :=
  max 0 (min (((s.ny - 1 : Nat) : ℚ)) ((i : ℚ) - v0.getD (idx i j s.nx) 0 * (s.dt / s.dx)))

/-- Corner column `x0` (line 61). -/
def cornerX0 (s : FluidSimulator) (u0 : List ℚ) (i j : Nat) : Nat :=
  (Int.floor (backX s u0 i j)).toNat

/-- Corner row `y0` (line 62). -/
def cornerY0 (s : FluidSimulator) (v0 : List ℚ) (i j : Nat) : Nat :=
  (Int.floor (backY s v0 i j)).toNat

/-- Corner column `x1` (line 63). -/
def cornerX1 (s : FluidSimulator) (u0 : List ℚ) (i j : Nat) : Nat :=
  min (cornerX0 s u0 i j + 1) (s.nx - 1)

/-- Corner row `y1` (line 64). -/
def cornerY1 (s : FluidSimulator) (v0 : List ℚ) (i j : Nat) : Nat :=
  min (cornerY0 s v0 i j + 1) (s.ny - 1)

/-- Interpolation weight `sx` (line 67). -/
def weightX (s : FluidSimulator) (u0 : List ℚ) (i j : Nat) : ℚ :=
  backX s u0 i j - (cornerX0 s u0 i j : ℚ)

/-- Interpolation weight `sy` (line 68). -/
def weightY (s : FluidSimulator) (v0 : List ℚ) (i j : Nat) : ℚ :=
  backY s v0 i j - (cornerY0 s v0 i j : ℚ)

/-- Per-cell speed (`FluidSimulator::getVelocityMagnitude`, lines 227–232).
`sqrt` stands for `std::sqrt` of the C++ library, which the repository does not
define. -/
def getVelocityMagnitude (sqrt : ℚ → ℚ) (s : FluidSimulator) (i j : Nat) : ℚ :=
  if i ≥ s.ny ∨ j ≥ s.nx then 0
  else
    let u_val := s.u.getD (idx i j s.nx) 0
    let v_val := s.v.getD (idx i j s.nx) 0
    sqrt (u_val * u_val + v_val * v_val)

/-- A subscript evaluation `a[k]`, recorded as the pair (size of `a`, `k`). -/
abbrev Access := Nat × Nat

/-- The subscripts evaluated by `getVelocityMagnitude(i, j)`: none when the
guard of line 228 returns, otherwise `u[idx(i, j)]` and `v[idx(i, j)]`. -/
def magnitudeAccesses (s : FluidSimulator) (i j : Nat) : List Access :=
  if i ≥ s.ny ∨ j ≥ s.nx then []
  else [(s.u.length, idx i j s.nx), (s.v.length, idx i j s.nx)]

/-- Integer square root on the rationals, a stand-in for `std::sqrt` that is
exact on perfect squares; used in concrete instances only. -/
def isqrt (x : ℚ) : ℚ :=
  ((Nat.sqrt (Int.floor x).toNat : Nat) : ℚ)

/-- A 2 × 2 simulator with velocities `(3, 4)`, `(0, 0)`, `(6, 8)`, `(0, 3)`. -/
def speedSample : FluidSimulator :=
  { construct 2 2 1 (1 / 10) (1 / 50) 1 with u := [3, 0, 6, 0], v := [4, 0, 8, 3] }

/-- The subscripts evaluated by a counted loop, in program order: those of
iteration `lo`, then `lo + 1`, …, `hi - 1`. -/
def touchRange (lo hi : Nat) (touch : Nat → List Access) : List Access :=
  forRange lo hi (fun i acc => acc ++ touch i) []

/-- The subscripts evaluated by `laplacian` (lines 16–24): per interior cell the
four neighbours and the centre of `field`, then the cell of `lap`. -/
def laplacianAccesses (field : List ℚ) (nx ny : Nat) : List Access :=
  touchRange 1 (ny - 1) (fun i => touchRange 1 (nx - 1) (fun j =>
    [(field.length, idx (i - 1) j nx), (field.length, idx (i + 1) j nx),
      (field.length, idx i (j - 1) nx), (field.length, idx i (j + 1) nx),
      (field.length, idx i j nx), (nx * ny, idx i j nx)]))

/-- The subscripts evaluated by `advect` (lines 48–78): per cell the mask, and
unless the cell is solid the reference velocity, the four corners of `field`
and the cell of `advected`. -/
def advectAccesses (s : FluidSimulator) (field u0 v0 : List ℚ) : List Access :=
  touchRange 0 s.ny (fun i => touchRange 0 s.nx (fun j =>
    (s.obstacle.length, idx i j s.nx) ::
      if s.obstacle.getD (idx i j s.nx) false then []
      else
        [(u0.length, idx i j s.nx), (v0.length, idx i j s.nx),
          (field.length, idx (cornerY0 s v0 i j) (cornerX0 s u0 i j) s.nx),
          (field.length, idx (cornerY0 s v0 i j) (cornerX1 s u0 i j) s.nx),
          (field.length, idx (cornerY1 s v0 i j) (cornerX0 s u0 i j) s.nx),
          (field.length, idx (cornerY1 s v0 i j) (cornerX1 s u0 i j) s.nx),
          (s.nx * s.ny, idx i j s.nx)]))

/-- The subscripts evaluated by `diffuse` (lines 86–93): those of `laplacian`,
then per cell the entries of `result` and of `lap`. -/
def diffuseAccesses (s : FluidSimulator) (field : List ℚ) : List Access :=
  laplacianAccesses field s.nx s.ny ++
    touchRange 0 s.ny (fun i => touchRange 0 s.nx (fun j =>
      [(field.length, idx i j s.nx),
        ((laplacian field s.nx s.ny s.dx).length, idx i j s.nx)]))

/-- The subscripts evaluated by one Jacobi sweep (lines 115–128) on buffers of
sizes `plen` (`p`) and `pnewlen` (`p_new`). -/
def sweepAccesses (s : FluidSimulator) (plen pnewlen : Nat) : List Access :=
  touchRange 1 (s.ny - 1) (fun i => touchRange 1 (s.nx - 1) (fun j =>
    (s.obstacle.length, idx i j s.nx) ::
      if s.obstacle.getD (idx i j s.nx) false then [(pnewlen, idx i j s.nx)]
      else
        [(plen, idx i (j + 1) s.nx), (plen, idx i (j - 1) s.nx),
          (plen, idx (i + 1) j s.nx), (plen, idx (i - 1) j s.nx),
          (s.nx * s.ny, idx i j s.nx), (pnewlen, idx i j s.nx)]))

/-- The subscripts evaluated by `iters` rounds of sweep-then-swap
(lines 114–132), the buffers having sizes `plen` and `pnewlen` at the start. -/
def relaxAccesses (s : FluidSimulator) : Nat → Nat → Nat → List Access
  | 0, _, _ => []
  | iters + 1, plen, pnewlen =>
    sweepAccesses s plen pnewlen ++ relaxAccesses s iters pnewlen plen

/-- The subscripts evaluated by `project` (lines 104–157), loop after loop:
divergence, relaxation, gradient correction, boundary columns, obstacles. -/
def projectAccesses (s : FluidSimulator) : List Access :=
  touchRange 1 (s.ny - 1) (fun i => touchRange 1 (s.nx - 1) (fun j =>
      [(s.u.length, idx i (j + 1) s.nx), (s.u.length, idx i (j - 1) s.nx),
        (s.v.length, idx (i + 1) j s.nx), (s.v.length, idx (i - 1) j s.nx),
        (s.nx * s.ny, idx i j s.nx)])) ++
    relaxAccesses s jacobiIters s.p.length (s.nx * s.ny) ++
    touchRange 1 (s.ny - 1) (fun i => touchRange 1 (s.nx - 1) (fun j =>
      [(s.u.length, idx i j s.nx),
        ((pressureBuffers s jacobiIters).1.length, idx i (j + 1) s.nx),
        ((pressureBuffers s jacobiIters).1.length, idx i (j - 1) s.nx),
        (s.v.length, idx i j s.nx),
        ((pressureBuffers s jacobiIters).1.length, idx (i + 1) j s.nx),
        ((pressureBuffers s jacobiIters).1.length, idx (i - 1) j s.nx)])) ++
    touchRange 0 s.ny (fun i =>
      [(s.u.length, idx i 0 s.nx), (s.u.length, idx i (s.nx - 1) s.nx),
        (s.v.length, idx i 0 s.nx), (s.v.length, idx i (s.nx - 1) s.nx)]) ++
    touchRange 0 s.ny (fun i => touchRange 0 s.nx (fun j =>
      (s.obstacle.length, idx i j s.nx) ::
        if s.obstacle.getD (idx i j s.nx) false then
          [(s.u.length, idx i j s.nx), (s.v.length, idx i j s.nx)]
        else []))

/-- The subscripts evaluated by `step` (lines 197–207): the two advections on
the velocity snapshot, the two diffusions, the projection. -/
def stepAccesses (s : FluidSimulator) : List Access :=
  let s1 := { s with dt := clampedDt s }
  advectAccesses s1 s.u s.u s.v ++ advectAccesses s1 s.v s.u s.v ++
    diffuseAccesses s1 (advect s1 s.u s.u s.v) ++
    diffuseAccesses s1 (advect s1 s.v s.u s.v) ++
    projectAccesses (preProject s)

/-- An access inside a vector of `nx * ny` entries. -/
def Access.Safe (nx ny : Nat) (a : Access) : Prop :=
  a.1 = nx * ny ∧ a.2 < nx * ny

/-! ## Binary64 arithmetic

The claims that depend on what `double` arithmetic does (division by zero,
overflow, rounding) are stated on a second embedding in which every operation is
the IEEE-754 binary64 operation: the exact result rounded to nearest, ties to
even, with signed zeros, infinities and NaN.  Each source operation is rounded
once (no fused multiply-add). -/

/-- The power `2^z` as a rational number. -/
def pow2 (z : ℤ) : ℚ :=
  if 0 ≤ z then ((2 ^ z.toNat : ℕ) : ℚ) else 1 / ((2 ^ (-z).toNat : ℕ) : ℚ)

/-- Binary logarithm of a natural number by repeated halving, `fuel` bounding the
number of halvings. -/
def log2Aux : ℕ → ℕ → ℕ
  | 0, _ => 0
  | fuel + 1, n => if 2 ≤ n then log2Aux fuel (n / 2) + 1 else 0

/-- The largest `k` with `2^k ≤ n`, for `n ≥ 1`. -/
def natLog2 (n : ℕ) : ℕ := log2Aux n n

/-- The binary exponent of a positive rational: the `e` with `2^e ≤ a < 2^(e+1)`. -/
def expo (a : ℚ) : ℤ :=
  let k := (natLog2 a.num.natAbs : ℤ) - (natLog2 a.den : ℤ)
  if pow2 k ≤ a then k else k - 1

/-- The nearest integer, ties to the even one. -/
def rhe (x : ℚ) : ℤ :=
  let f := Int.floor x
  let d := x - f
  if d < 1 / 2 then f else if 1 / 2 < d then f + 1 else if f % 2 = 0 then f else f + 1

/-- A non-negative rational rounded to the binary64 grid: 53 significant bits,
exponents from `-1022` (below it the spacing stays `2^-1074`), no upper limit. -/
def rndMag (a : ℚ) : ℚ :=
  if a = 0 then 0
  else
    let e := max (expo a) (-1022)
    let u := pow2 (e - 52)
    (rhe (a / u) : ℚ) * u

/-- A binary64 value: sign and magnitude of a finite number (both zeros
included), an infinity, or NaN. -/
inductive Dbl where
  | fin (neg : Bool) (mag : ℚ)
  | inf (neg : Bool)
  | nan
deriving DecidableEq

/-- The magnitude `a` is one a finite binary64 number can have. -/
def IsMag (a : ℚ) : Prop :=
  0 ≤ a ∧ rndMag a = a ∧ a < pow2 1024

instance (a : ℚ) : Decidable (IsMag a) := by
  unfold IsMag
  exact inferInstance

/-- The value is one a `double` variable can hold. -/
def Dbl.IsDouble : Dbl → Prop
  | Dbl.fin _ a => IsMag a
  | _ => True

instance (x : Dbl) : Decidable x.IsDouble := by
  cases x <;> unfold Dbl.IsDouble <;> exact inferInstance

/-- The value is a finite number. -/
def Dbl.isFinite : Dbl → Bool
  | Dbl.fin _ _ => true
  | _ => false

/-- The value is `+0.0` or `-0.0`. -/
def Dbl.isZero : Dbl → Bool
  | Dbl.fin _ a => decide (a = 0)
  | _ => false

/-- The value is NaN. -/
def Dbl.isNaN : Dbl → Bool
  | Dbl.nan => true
  | _ => false

/-- The rational value of a finite number (`0` for both zeros). -/
def Dbl.val : Dbl → ℚ
  | Dbl.fin neg a => if neg then -a else a
  | _ => 0

/-- The exact result with sign `neg` and magnitude `a`, rounded to nearest;
a rounded magnitude of `2^1024` or more overflows to the infinity. -/
def Dbl.round (neg : Bool) (a : ℚ) : Dbl :=
  if pow2 1024 ≤ rndMag a then Dbl.inf neg else Dbl.fin neg (rndMag a)

/-- The double nearest to a rational: a decimal literal of the source, or an
input value. -/
def Dbl.ofRat (q : ℚ) : Dbl := Dbl.round (decide (q < 0)) |q|

/-- The conversion `static_cast<double>(n)` of a `size_t`. -/
def Dbl.ofNat (n : ℕ) : Dbl := Dbl.round false (n : ℚ)

/-- The literal `0.0`. -/
def Dbl.zero : Dbl := Dbl.fin false 0

/-- The literal `1` converted to `double`. -/
def Dbl.one : Dbl := Dbl.fin false 1

/-- Unary minus. -/
def Dbl.negate : Dbl → Dbl
  | Dbl.fin neg a => Dbl.fin (!neg) a
  | Dbl.inf neg => Dbl.inf (!neg)
  | Dbl.nan => Dbl.nan

/-- The sum `x + y`.  An exact zero sum is `-0.0` only when both operands are
negative zeros. -/
def Dbl.add : Dbl → Dbl → Dbl
  | Dbl.nan, _ => Dbl.nan
  | _, Dbl.nan => Dbl.nan
  | Dbl.inf n1, Dbl.inf n2 => if n1 = n2 then Dbl.inf n1 else Dbl.nan
  | Dbl.inf n1, Dbl.fin _ _ => Dbl.inf n1
  | Dbl.fin _ _, Dbl.inf n2 => Dbl.inf n2
  | Dbl.fin n1 a1, Dbl.fin n2 a2 =>
    let s := (Dbl.fin n1 a1).val + (Dbl.fin n2 a2).val
    if s = 0 then Dbl.fin (n1 && n2) 0 else Dbl.round (decide (s < 0)) |s|

/-- The difference `x - y`. -/
def Dbl.sub (x y : Dbl) : Dbl := Dbl.add x (Dbl.negate y)

/-- The product `x * y`. -/
def Dbl.mul : Dbl → Dbl → Dbl
  | Dbl.nan, _ => Dbl.nan
  | _, Dbl.nan => Dbl.nan
  | Dbl.inf n1, Dbl.inf n2 => Dbl.inf (xor n1 n2)
  | Dbl.inf n1, Dbl.fin n2 a2 => if a2 = 0 then Dbl.nan else Dbl.inf (xor n1 n2)
  | Dbl.fin n1 a1, Dbl.inf n2 => if a1 = 0 then Dbl.nan else Dbl.inf (xor n1 n2)
  | Dbl.fin n1 a1, Dbl.fin n2 a2 => Dbl.round (xor n1 n2) (a1 * a2)

/-- The quotient `x / y`; a finite non-zero value over a zero is an infinity,
`0 / 0` and `inf / inf` are NaN. -/
def Dbl.div : Dbl → Dbl → Dbl
  | Dbl.nan, _ => Dbl.nan
  | _, Dbl.nan => Dbl.nan
  | Dbl.inf _, Dbl.inf _ => Dbl.nan
  | Dbl.inf n1, Dbl.fin n2 _ => Dbl.inf (xor n1 n2)
  | Dbl.fin n1 _, Dbl.inf n2 => Dbl.fin (xor n1 n2) 0
  | Dbl.fin n1 a1, Dbl.fin n2 a2 =>
    if a2 = 0 then (if a1 = 0 then Dbl.nan else Dbl.inf (xor n1 n2))
    else Dbl.round (xor n1 n2) (a1 / a2)

/-- The comparison `x < y`: false when an operand is NaN; the zeros are equal. -/
def Dbl.lt : Dbl → Dbl → Bool
  | Dbl.nan, _ => false
  | _, Dbl.nan => false
  | Dbl.inf n1, Dbl.inf n2 => n1 && !n2
  | Dbl.inf n1, Dbl.fin _ _ => n1
  | Dbl.fin _ _, Dbl.inf n2 => !n2
  | Dbl.fin n1 a1, Dbl.fin n2 a2 => decide ((Dbl.fin n1 a1).val < (Dbl.fin n2 a2).val)

/-- The comparison `x == y`: false when an operand is NaN; the zeros are equal. -/
def Dbl.eq : Dbl → Dbl → Bool
  | Dbl.nan, _ => false
  | _, Dbl.nan => false
  | Dbl.inf n1, Dbl.inf n2 => decide (n1 = n2)
  | Dbl.inf _, Dbl.fin _ _ => false
  | Dbl.fin _ _, Dbl.inf _ => false
  | Dbl.fin n1 a1, Dbl.fin n2 a2 => decide ((Dbl.fin n1 a1).val = (Dbl.fin n2 a2).val)

/-- The library function `std::min(a, b)`, which is `(b < a) ? b : a`. -/
def Dbl.stdMin (a b : Dbl) : Dbl := if Dbl.lt b a then b else a

/-- The library function `std::max(a, b)`, which is `(a < b) ? b : a`. -/
def Dbl.stdMax (a b : Dbl) : Dbl := if Dbl.lt a b then b else a

/-- The library function `std::floor`. -/
def Dbl.floor : Dbl → Dbl
  | Dbl.fin neg a =>
    let f := Int.floor (Dbl.fin neg a).val
    Dbl.fin (decide (f < 0) || (neg && decide (f = 0))) |(f : ℚ)|
  | x => x

/-- The conversion `static_cast<size_t>(x)` of a finite non-negative value below
`2^64`, which truncates.  Other arguments are undefined behaviour in C++; they
do not occur after the clamp of `advect`. -/
def Dbl.toSizeT : Dbl → ℕ
  | Dbl.fin neg a => if neg then 0 else (Int.floor a).toNat
  | _ => 0

namespace F64

/-- Five-point Laplacian in `double` arithmetic (`laplacian`, lines 13–27); the
literal `4.0` is `Dbl.fin false 4`. -/
def laplacian (field : List Dbl) (nx ny : Nat) (dx : Dbl) : List Dbl :=
  forRange 1 (ny - 1) (fun i lap =>
    forRange 1 (nx - 1) (fun j lap =>
      lap.set (idx i j nx)
        (Dbl.div
          (Dbl.sub
            (Dbl.add
              (Dbl.add
                (Dbl.add (field.getD (idx (i - 1) j nx) Dbl.zero)
                  (field.getD (idx (i + 1) j nx) Dbl.zero))
                (field.getD (idx i (j - 1) nx) Dbl.zero))
              (field.getD (idx i (j + 1) nx) Dbl.zero))
            (Dbl.mul (Dbl.fin false 4) (field.getD (idx i j nx) Dbl.zero)))
          (Dbl.mul dx dx))) lap)
    (List.replicate (nx * ny) Dbl.zero)

/-- Data members of `class FluidSimulator` (lines 31–39), the reals being
`double`s. -/
structure FluidSimulator where
  nx : Nat
  ny : Nat
  dx : Dbl
  dt : Dbl
  nu : Dbl
  u_in : Dbl
  u : List Dbl
  v : List Dbl
  p : List Dbl
  obstacle : List Bool
deriving DecidableEq

/-- The clamped back-traced column `x_back` of cell `(i, j)` (lines 46, 53, 57). -/
def backX (s : FluidSimulator) (u0 : List Dbl) (i j : Nat) : Dbl :=
  Dbl.stdMax Dbl.zero
    (Dbl.stdMin (Dbl.ofNat (s.nx - 1))
      (Dbl.sub (Dbl.ofNat j) (Dbl.mul (u0.getD (idx i j s.nx) Dbl.zero) (Dbl.div s.dt s.dx))))

/-- The clamped back-traced row `y_back` of cell `(i, j)` (lines 46, 54, 58). -/
def backY (s : FluidSimulator) (v0 : List Dbl) (i j : Nat) : Dbl :=
  Dbl.stdMax Dbl.zero
    (Dbl.stdMin (Dbl.ofNat (s.ny - 1))
      (Dbl.sub (Dbl.ofNat i) (Dbl.mul (v0.getD (idx i j s.nx) Dbl.zero) (Dbl.div s.dt s.dx))))

/-- Corner column `x0` (line 61). -/
def cornerX0 (s : FluidSimulator) (u0 : List Dbl) (i j : Nat) : Nat :=
  Dbl.toSizeT (Dbl.floor (backX s u0 i j))

/-- Corner row `y0` (line 62). -/
def cornerY0 (s : FluidSimulator) (v0 : List Dbl) (i j : Nat) : Nat :=
  Dbl.toSizeT (Dbl.floor (backY s v0 i j))

/-- Corner column `x1` (line 63). -/
def cornerX1 (s : FluidSimulator) (u0 : List Dbl) (i j : Nat) : Nat :=
  min (cornerX0 s u0 i j + 1) (s.nx - 1)

/-- Corner row `y1` (line 64). -/
def cornerY1 (s : FluidSimulator) (v0 : List Dbl) (i j : Nat) : Nat :=
  min (cornerY0 s v0 i j + 1) (s.ny - 1)

/-- Interpolation weight `sx` (line 67). -/
def weightX (s : FluidSimulator) (u0 : List Dbl) (i j : Nat) : Dbl :=
  Dbl.sub (backX s u0 i j) (Dbl.ofNat (cornerX0 s u0 i j))

/-- Interpolation weight `sy` (line 68). -/
def weightY (s : FluidSimulator) (v0 : List Dbl) (i j : Nat) : Dbl :=
  Dbl.sub (backY s v0 i j) (Dbl.ofNat (cornerY0 s v0 i j))

/-- The value `advect` stores in a non-obstacle cell `(i, j)` (lines 71–77), the
four products being summed from left to right. -/
def advectCell (s : FluidSimulator) (field u0 v0 : List Dbl) (i j : Nat) : Dbl :=
  let sx := weightX s u0 i j
  let sy := weightY s v0 i j
  let f00 := field.getD (idx (cornerY0 s v0 i j) (cornerX0 s u0 i j) s.nx) Dbl.zero
  let f10 := field.getD (idx (cornerY0 s v0 i j) (cornerX1 s u0 i j) s.nx) Dbl.zero
  let f01 := field.getD (idx (cornerY1 s v0 i j) (cornerX0 s u0 i j) s.nx) Dbl.zero
  let f11 := field.getD (idx (cornerY1 s v0 i j) (cornerX1 s u0 i j) s.nx) Dbl.zero
  Dbl.add
    (Dbl.add
      (Dbl.add
        (Dbl.mul (Dbl.mul (Dbl.sub Dbl.one sx) (Dbl.sub Dbl.one sy)) f00)
        (Dbl.mul (Dbl.mul sx (Dbl.sub Dbl.one sy)) f10))
      (Dbl.mul (Dbl.mul (Dbl.sub Dbl.one sx) sy) f01))
    (Dbl.mul (Dbl.mul sx sy) f11)

/-- Semi-Lagrangian advection in `double` arithmetic
(`FluidSimulator::advect`, lines 42–82). -/
def advect (s : FluidSimulator) (field u0 v0 : List Dbl) : List Dbl :=
  forRange 0 s.ny (fun i advected =>
    forRange 0 s.nx (fun j advected =>
      if s.obstacle.getD (idx i j s.nx) false then advected
      else advected.set (idx i j s.nx) (advectCell s field u0 v0 i j)) advected)
    (List.replicate (s.nx * s.ny) Dbl.zero)

/-- Explicit diffusion in `double` arithmetic (`FluidSimulator::diffuse`,
lines 85–96); `nu * dt * lap[k]` is `(nu * dt) * lap[k]`. -/
def diffuse (s : FluidSimulator) (field : List Dbl) : List Dbl :=
  let lap := laplacian field s.nx s.ny s.dx
  forRange 0 s.ny (fun i result =>
    forRange 0 s.nx (fun j result =>
      result.set (idx i j s.nx)
        (Dbl.add (result.getD (idx i j s.nx) Dbl.zero)
          (Dbl.mul (Dbl.mul s.nu s.dt) (lap.getD (idx i j s.nx) Dbl.zero)))) result)
    field

/-- The member `dt` after the first statements of `step` (lines 192–195):
`max_dt = dx * dx / (4.0 * nu); if (dt > max_dt) dt = max_dt;`. -/
def clampedDt (s : FluidSimulator) : Dbl :=
  let max_dt := Dbl.div (Dbl.mul s.dx s.dx) (Dbl.mul (Dbl.fin false 4) s.nu)
  if Dbl.lt max_dt s.dt then max_dt else s.dt

/-- Divergence of `(u, v)` in `double` arithmetic, the first loop of `project`
(lines 100, 104–111). -/
def divergence (s : FluidSimulator) : List Dbl :=
  forRange 1 (s.ny - 1) (fun i div =>
    forRange 1 (s.nx - 1) (fun j div =>
      div.set (idx i j s.nx)
        (Dbl.div
          (Dbl.add
            (Dbl.sub (s.u.getD (idx i (j + 1) s.nx) Dbl.zero)
              (s.u.getD (idx i (j - 1) s.nx) Dbl.zero))
            (Dbl.sub (s.v.getD (idx (i + 1) j s.nx) Dbl.zero)
              (s.v.getD (idx (i - 1) j s.nx) Dbl.zero)))
          (Dbl.mul (Dbl.fin false 2) s.dx))) div)
    (List.replicate (s.nx * s.ny) Dbl.zero)

/-- One Jacobi sweep in `double` arithmetic (lines 115–128). -/
def jacobiSweep (s : FluidSimulator) (div p p_new : List Dbl) : List Dbl :=
  forRange 1 (s.ny - 1) (fun i p_new =>
    forRange 1 (s.nx - 1) (fun j p_new =>
      if s.obstacle.getD (idx i j s.nx) false then p_new.set (idx i j s.nx) Dbl.zero
      else
        p_new.set (idx i j s.nx)
          (Dbl.mul
            (Dbl.sub
              (Dbl.add
                (Dbl.add
                  (Dbl.add (p.getD (idx i (j + 1) s.nx) Dbl.zero)
                    (p.getD (idx i (j - 1) s.nx) Dbl.zero))
                  (p.getD (idx (i + 1) j s.nx) Dbl.zero))
                (p.getD (idx (i - 1) j s.nx) Dbl.zero))
              (Dbl.mul (Dbl.mul (div.getD (idx i j s.nx) Dbl.zero) s.dx) s.dx))
            (Dbl.fin false (1 / 4)))) p_new)
    p_new

/-- The pair `(p, p_new)` after `iters` rounds of sweep-then-`std::swap`
(lines 114–132). -/
def relax (s : FluidSimulator) (div : List Dbl) :
    Nat → List Dbl × List Dbl → List Dbl × List Dbl
  | 0, pp => pp
  | iters + 1, pp =>
    let q := relax s div iters pp
    (jacobiSweep s div q.1 q.2, q.1)

/-- Pressure-gradient correction of the interior velocity (lines 134–139). -/
def correctVelocity (s : FluidSimulator) (p : List Dbl) (uv : List Dbl × List Dbl) :
    List Dbl × List Dbl :=
  forRange 1 (s.ny - 1) (fun i uv =>
    forRange 1 (s.nx - 1) (fun j uv =>
      (uv.1.set (idx i j s.nx)
          (Dbl.sub (uv.1.getD (idx i j s.nx) Dbl.zero)
            (Dbl.div
              (Dbl.sub (p.getD (idx i (j + 1) s.nx) Dbl.zero)
                (p.getD (idx i (j - 1) s.nx) Dbl.zero))
              (Dbl.mul (Dbl.fin false 2) s.dx))),
        uv.2.set (idx i j s.nx)
          (Dbl.sub (uv.2.getD (idx i j s.nx) Dbl.zero)
            (Dbl.div
              (Dbl.sub (p.getD (idx (i + 1) j s.nx) Dbl.zero)
                (p.getD (idx (i - 1) j s.nx) Dbl.zero))
              (Dbl.mul (Dbl.fin false 2) s.dx)))))
      uv)
    uv

/-- Inlet and outlet columns (lines 142–147). -/
def applyBoundary (s : FluidSimulator) (uv : List Dbl × List Dbl) : List Dbl × List Dbl :=
  forRange 0 s.ny (fun i uv =>
    let u := uv.1.set (idx i 0 s.nx) s.u_in
    let u := u.set (idx i (s.nx - 1) s.nx) Dbl.zero
    let v := uv.2.set (idx i 0 s.nx) Dbl.zero
    let v := v.set (idx i (s.nx - 1) s.nx) Dbl.zero
    (u, v))
    uv

/-- Zero velocity on every obstacle cell (lines 150–157). -/
def applyObstacle (s : FluidSimulator) (uv : List Dbl × List Dbl) : List Dbl × List Dbl :=
  forRange 0 s.ny (fun i uv =>
    forRange 0 s.nx (fun j uv =>
      if s.obstacle.getD (idx i j s.nx) false then
        (uv.1.set (idx i j s.nx) Dbl.zero, uv.2.set (idx i j s.nx) Dbl.zero)
      else uv) uv)
    uv

/-- Pressure projection in `double` arithmetic (`FluidSimulator::project`,
lines 99–158). -/
def project (s : FluidSimulator) : FluidSimulator :=
  let div := divergence s
  let pp := relax s div jacobiIters (s.p, List.replicate (s.nx * s.ny) Dbl.zero)
  let uv := correctVelocity s pp.1 (s.u, s.v)
  let uv := applyBoundary s uv
  let uv := applyObstacle s uv
  { s with u := uv.1, v := uv.2, p := pp.1 }

/-- One time step in `double` arithmetic (`FluidSimulator::step`,
lines 191–208). -/
def step (s : FluidSimulator) : FluidSimulator :=
  let s := { s with dt := clampedDt s }
  let u0 := s.u
  let v0 := s.v
  let s := { s with u := advect s s.u u0 v0 }
  let s := { s with v := advect s s.v u0 v0 }
  let s := { s with u := diffuse s s.u }
  let s := { s with v := diffuse s s.v }
  project s

/-- Constructor in `double` arithmetic (`FluidSimulator::FluidSimulator`,
lines 161–170). -/
def construct (nx ny : Nat) (dx dt viscosity u_in : Dbl) : FluidSimulator :=
  { nx := nx, ny := ny, dx := dx, dt := dt, nu := viscosity, u_in := u_in,
    u := List.replicate (nx * ny) Dbl.zero,
    v := List.replicate (nx * ny) Dbl.zero,
    p := List.replicate (nx * ny) Dbl.zero,
    obstacle := List.replicate (nx * ny) false }

end F64

/-- The indexer as the source computes it, in 64-bit `size_t` arithmetic
(`idx`, lines 9–11): the product and the sum wrap modulo `2^64`. -/
def idxSizeT (i j nx : Nat) : Nat := ((i * nx) % 2 ^ 64 + j) % 2 ^ 64


/-- The quotient `n / d` of two naturals rounded to the nearest natural, ties to
the even one. -/
def nearestEven (n d : ℕ) : ℕ :=
  let q := n / d
  let r := n % d
  if 2 * r < d then q else if d < 2 * r then q + 1 else if q % 2 = 0 then q else q + 1

/-- A natural number below `2^55` rounded to 53 significant bits. -/
def roundNat (n : ℕ) : ℕ :=
  if n < 2 ^ 53 then n else if n < 2 ^ 54 then 2 * nearestEven n 2 else 4 * nearestEven n 4

/-! ## Lists as vectors, loops as folds -/

theorem getD_set_eq {α : Type} (l : List α) (k : Nat) (x d : α) (h : k < l.length) :
    (l.set k x).getD k d = x := by
  simp [List.getD_eq_getElem?_getD, List.getElem?_set, h]

theorem getD_set_ne {α : Type} (l : List α) (k m : Nat) (x d : α) (h : m ≠ k) :
    (l.set k x).getD m d = l.getD m d := by
  have h2 : k ≠ m := fun e => h e.symm
  simp [List.getD_eq_getElem?_getD, List.getElem?_set, h2]

theorem getD_replicate {α : Type} (n k : Nat) (x : α) : (List.replicate n x).getD k x = x := by
  by_cases h : k < n
  · simp [List.getD_eq_getElem?_getD, List.getElem?_replicate, h]
  · simp [List.getD_eq_getElem?_getD, List.getElem?_replicate, h]

theorem forRange_of_le {σ : Type} (lo hi : Nat) (body : Nat → σ → σ) (init : σ) (h : hi ≤ lo) :
    forRange lo hi body init = init := by
  simp [forRange, Nat.sub_eq_zero_of_le h]

theorem forRange_succ {σ : Type} (lo hi : Nat) (body : Nat → σ → σ) (init : σ) (h : lo ≤ hi) :
    forRange lo (hi + 1) body init = body hi (forRange lo hi body init) := by
  unfold forRange
  have e : hi + 1 - lo = (hi - lo) + 1 := by omega
  rw [e, List.range'_concat, List.foldl_append]
  have e2 : lo + (hi - lo) = hi := by omega
  simp [e2]

/-- Loop rule: an invariant indexed by the loop counter. -/
theorem forRange_induct {σ : Type} (P : Nat → σ → Prop) (lo hi : Nat) (body : Nat → σ → σ)
    (init : σ) (hle : lo ≤ hi) (h0 : P lo init)
    (hstep : ∀ i s, lo ≤ i → i < hi → P i s → P (i + 1) (body i s)) :
    P hi (forRange lo hi body init) := by
  induction hi, hle using Nat.le_induction with
  | base => rw [forRange_of_le _ _ _ _ (le_refl _)]; exact h0
  | succ n hn ih =>
    rw [forRange_succ _ _ _ _ hn]
    exact hstep n _ hn (Nat.lt_succ_self n)
      (ih (fun i s h1 h2 h3 => hstep i s h1 (Nat.lt_succ_of_lt h2) h3))

/-- Loop rule: a property every iteration preserves. -/
theorem forRange_preserve {σ : Type} (P : σ → Prop) (lo hi : Nat) (body : Nat → σ → σ)
    (init : σ) (h0 : P init) (hstep : ∀ i s, lo ≤ i → i < hi → P s → P (body i s)) :
    P (forRange lo hi body init) := by
  by_cases hle : lo ≤ hi
  · exact forRange_induct (fun _ s => P s) lo hi body init hle h0 hstep
  · rw [forRange_of_le _ _ _ _ (by omega)]; exact h0

/-- A loop on a tuple of variables, seen through one component. -/
theorem forRange_map {σ τ : Type} (π : σ → τ) (lo hi : Nat) (body : Nat → σ → σ)
    (body2 : Nat → τ → τ) (init : σ) (h : ∀ i s, π (body i s) = body2 i (π s)) :
    π (forRange lo hi body init) = forRange lo hi body2 (π init) := by
  unfold forRange
  generalize List.range' lo (hi - lo) = l
  induction l generalizing init with
  | nil => rfl
  | cons a t ih => simp only [List.foldl_cons]; rw [ih, h]

/-- A nested loop on a tuple of variables, seen through one component. -/
theorem forRange2_map {σ τ : Type} (π : σ → τ) (ilo ihi jlo jhi : Nat)
    (body : Nat → Nat → σ → σ) (body2 : Nat → Nat → τ → τ) (init : σ)
    (h : ∀ i j s, π (body i j s) = body2 i j (π s)) :
    π (forRange ilo ihi (fun i s => forRange jlo jhi (fun j s => body i j s) s) init) =
      forRange ilo ihi (fun i t => forRange jlo jhi (fun j t => body2 i j t) t) (π init) :=
  forRange_map π ilo ihi _ _ init
    (fun i s => forRange_map π jlo jhi _ _ s (fun j s => h i j s))

theorem idx_lt {i j nx ny : Nat} (hi : i < ny) (hj : j < nx) : idx i j nx < nx * ny := by
  unfold idx
  calc i * nx + j < i * nx + nx := by omega
    _ = (i + 1) * nx := by ring
    _ ≤ ny * nx := Nat.mul_le_mul_right nx hi
    _ = nx * ny := Nat.mul_comm _ _

theorem idx_inj {i j i2 j2 nx : Nat} (hj : j < nx) (hj2 : j2 < nx)
    (h : idx i j nx = idx i2 j2 nx) : i = i2 ∧ j = j2 := by
  unfold idx at h
  have hpos : 0 < nx := by omega
  have h1 : (i * nx + j) / nx = i := by
    rw [Nat.mul_comm, Nat.mul_add_div hpos, Nat.div_eq_of_lt hj]; rfl
  have h2 : (i2 * nx + j2) / nx = i2 := by
    rw [Nat.mul_comm, Nat.mul_add_div hpos, Nat.div_eq_of_lt hj2]; rfl
  have hi : i = i2 := by rw [← h1, ← h2, h]
  subst hi
  exact ⟨rfl, by omega⟩

theorem idx_ne {i j i2 j2 nx : Nat} (hj : j < nx) (hj2 : j2 < nx)
    (h : ¬ (i = i2 ∧ j = j2)) : idx i j nx ≠ idx i2 j2 nx :=
  fun e => h (idx_inj hj hj2 e)

/-- One row of a cell-wise sweep: the inner `j` loop rewrites exactly the cells
`(i, j)`, `jlo ≤ j < jhi`, each from its own old value. -/
theorem forRange_row_cells {α : Type} (d : α) (nx ny i jlo jhi : Nat)
    (body : Nat → Nat → List α → List α) (f : Nat → Nat → α → α) (g : List α)
    (hi : i < ny) (hj : jhi ≤ nx) (hlen0 : g.length = nx * ny)
    (hlen : ∀ i j g, (body i j g).length = g.length)
    (hsame : ∀ i j g, i < ny → j < nx → g.length = nx * ny →
      (body i j g).getD (idx i j nx) d = f i j (g.getD (idx i j nx) d))
    (hother : ∀ i j g m, m ≠ idx i j nx → (body i j g).getD m d = g.getD m d) :
    (forRange jlo jhi (fun j g => body i j g) g).length = nx * ny ∧
      ∀ i2 j2, j2 < nx →
        (forRange jlo jhi (fun j g => body i j g) g).getD (idx i2 j2 nx) d =
          if i2 = i ∧ jlo ≤ j2 ∧ j2 < jhi then f i j2 (g.getD (idx i2 j2 nx) d)
          else g.getD (idx i2 j2 nx) d := by
  by_cases hle : jlo ≤ jhi
  · refine forRange_induct (fun j r => r.length = nx * ny ∧ ∀ i2 j2, j2 < nx →
        r.getD (idx i2 j2 nx) d =
          if i2 = i ∧ jlo ≤ j2 ∧ j2 < j then f i j2 (g.getD (idx i2 j2 nx) d)
          else g.getD (idx i2 j2 nx) d) jlo jhi _ g hle ?_ ?_
    · refine ⟨hlen0, fun i2 j2 _ => ?_⟩
      rw [if_neg]; omega
    · rintro j r hj1 hj2 ⟨hr, hcell⟩
      refine ⟨by rw [hlen]; exact hr, fun i2 j2 hj2n => ?_⟩
      by_cases hc : i2 = i ∧ j2 = j
      · obtain ⟨rfl, rfl⟩ := hc
        rw [hsame i2 j2 r hi hj2n hr, hcell i2 j2 hj2n, if_neg (by omega), if_pos (by omega)]
      · rw [hother i j r _ (idx_ne hj2n (by omega) hc), hcell i2 j2 hj2n]
        by_cases hc2 : i2 = i ∧ jlo ≤ j2 ∧ j2 < j
        · rw [if_pos hc2, if_pos ⟨hc2.1, hc2.2.1, by omega⟩]
        · rw [if_neg hc2, if_neg]
          rintro ⟨h1, h2, h3⟩
          exact hc2 ⟨h1, h2, by
            rcases Nat.lt_or_ge j2 j with h | h
            · exact h
            · exact absurd ⟨h1, by omega⟩ hc⟩
  · rw [forRange_of_le _ _ _ _ (by omega)]
    refine ⟨hlen0, fun i2 j2 _ => ?_⟩
    rw [if_neg]; omega

/-- A cell-wise sweep `for i in [ilo, ihi) for j in [jlo, jhi)`: afterwards every
cell of the rectangle holds `f i j` of its old value and every other cell is
unchanged. -/
theorem forRange2_cells {α : Type} (d : α) (nx ny ilo ihi jlo jhi : Nat)
    (body : Nat → Nat → List α → List α) (f : Nat → Nat → α → α) (g0 : List α)
    (hi : ihi ≤ ny) (hj : jhi ≤ nx) (hlen0 : g0.length = nx * ny)
    (hlen : ∀ i j g, (body i j g).length = g.length)
    (hsame : ∀ i j g, i < ny → j < nx → g.length = nx * ny →
      (body i j g).getD (idx i j nx) d = f i j (g.getD (idx i j nx) d))
    (hother : ∀ i j g m, m ≠ idx i j nx → (body i j g).getD m d = g.getD m d) :
    (forRange ilo ihi (fun i g => forRange jlo jhi (fun j g => body i j g) g) g0).length
        = nx * ny ∧
      ∀ i j, j < nx →
        (forRange ilo ihi (fun i g => forRange jlo jhi (fun j g => body i j g) g) g0).getD
            (idx i j nx) d =
          if ilo ≤ i ∧ i < ihi ∧ jlo ≤ j ∧ j < jhi then f i j (g0.getD (idx i j nx) d)
          else g0.getD (idx i j nx) d := by
  by_cases hle : ilo ≤ ihi
  · refine forRange_induct (fun i r => r.length = nx * ny ∧ ∀ i2 j2, j2 < nx →
        r.getD (idx i2 j2 nx) d =
          if ilo ≤ i2 ∧ i2 < i ∧ jlo ≤ j2 ∧ j2 < jhi then f i2 j2 (g0.getD (idx i2 j2 nx) d)
          else g0.getD (idx i2 j2 nx) d) ilo ihi _ g0 hle ?_ ?_
    · refine ⟨hlen0, fun i2 j2 _ => ?_⟩
      rw [if_neg]; omega
    · rintro i r hi1 hi2 ⟨hr, hcell⟩
      have hrow := forRange_row_cells d nx ny i jlo jhi body f r (by omega) hj hr hlen hsame hother
      refine ⟨hrow.1, fun i2 j2 hj2n => ?_⟩
      rw [hrow.2 i2 j2 hj2n, hcell i2 j2 hj2n]
      by_cases hc : i2 = i ∧ jlo ≤ j2 ∧ j2 < jhi
      · rw [if_pos hc, if_neg (by omega), if_pos (by omega), hc.1]
      · rw [if_neg hc]
        by_cases hc2 : ilo ≤ i2 ∧ i2 < i ∧ jlo ≤ j2 ∧ j2 < jhi
        · rw [if_pos hc2, if_pos (by omega)]
        · rw [if_neg hc2, if_neg]
          rintro ⟨h1, h2, h3, h4⟩
          rcases Nat.lt_or_ge i2 i with h | h
          · exact hc2 ⟨h1, h, h3, h4⟩
          · exact hc ⟨by omega, h3, h4⟩
  · rw [forRange_of_le _ _ _ _ (by omega)]
    refine ⟨hlen0, fun i2 j2 _ => ?_⟩
    rw [if_neg]; omega

/-- A loop that writes the first and then the last cell of every row. -/
theorem forRange_columns {α : Type} (d a b : α) (nx ny : Nat) (g0 : List α)
    (hnx : 1 ≤ nx) (hlen0 : g0.length = nx * ny) :
    (forRange 0 ny (fun i g => (g.set (idx i 0 nx) a).set (idx i (nx - 1) nx) b) g0).length
        = nx * ny ∧
      ∀ i j, j < nx →
        (forRange 0 ny (fun i g => (g.set (idx i 0 nx) a).set (idx i (nx - 1) nx) b) g0).getD
            (idx i j nx) d =
          if i < ny ∧ j = nx - 1 then b
          else if i < ny ∧ j = 0 then a else g0.getD (idx i j nx) d := by
  refine forRange_induct (fun i r => r.length = nx * ny ∧ ∀ i2 j2, j2 < nx →
      r.getD (idx i2 j2 nx) d =
        if i2 < i ∧ j2 = nx - 1 then b
        else if i2 < i ∧ j2 = 0 then a else g0.getD (idx i2 j2 nx) d) 0 ny _ g0
      (Nat.zero_le _) ?_ ?_
  · refine ⟨hlen0, fun i2 j2 _ => ?_⟩
    rw [if_neg (by omega), if_neg (by omega)]
  · rintro i r - hi ⟨hr, hcell⟩
    refine ⟨by simp [hr], fun i2 j2 hj2 => ?_⟩
    have hl0 : idx i 0 nx < r.length := by rw [hr]; exact idx_lt hi (by omega)
    have hl1 : idx i (nx - 1) nx < (r.set (idx i 0 nx) a).length := by
      rw [List.length_set, hr]; exact idx_lt hi (by omega)
    by_cases h1 : i2 = i ∧ j2 = nx - 1
    · obtain ⟨rfl, rfl⟩ := h1
      rw [getD_set_eq _ _ _ _ hl1, if_pos (by omega)]
    · rw [getD_set_ne _ _ _ _ _ (idx_ne hj2 (by omega) h1)]
      by_cases h0 : i2 = i ∧ j2 = 0
      · obtain ⟨rfl, rfl⟩ := h0
        rw [getD_set_eq _ _ _ _ hl0, if_neg (by omega), if_pos (by omega)]
      · rw [getD_set_ne _ _ _ _ _ (idx_ne hj2 (by omega) h0), hcell i2 j2 hj2]
        have e1 : (i2 < i + 1 ∧ j2 = nx - 1) ↔ (i2 < i ∧ j2 = nx - 1) := by
          constructor
          · rintro ⟨h, h2⟩
            exact ⟨by
              rcases Nat.lt_or_ge i2 i with h3 | h3
              · exact h3
              · exact absurd ⟨by omega, h2⟩ h1, h2⟩
          · rintro ⟨h, h2⟩; exact ⟨by omega, h2⟩
        have e0 : (i2 < i + 1 ∧ j2 = 0) ↔ (i2 < i ∧ j2 = 0) := by
          constructor
          · rintro ⟨h, h2⟩
            exact ⟨by
              rcases Nat.lt_or_ge i2 i with h3 | h3
              · exact h3
              · exact absurd ⟨by omega, h2⟩ h0, h2⟩
          · rintro ⟨h, h2⟩; exact ⟨by omega, h2⟩
        simp only [e1, e0]

/-- A masked sweep over the whole grid that stores `c` on the masked cells. -/
theorem forRange2_masked {α : Type} (d c : α) (nx ny : Nat) (mask : Nat → Nat → Bool)
    (g0 : List α) (hlen0 : g0.length = nx * ny) :
    (forRange 0 ny (fun i g => forRange 0 nx (fun j g =>
        if mask i j then g.set (idx i j nx) c else g) g) g0).length = nx * ny ∧
      ∀ i j, i < ny → j < nx →
        (forRange 0 ny (fun i g => forRange 0 nx (fun j g =>
            if mask i j then g.set (idx i j nx) c else g) g) g0).getD (idx i j nx) d =
          if mask i j then c else g0.getD (idx i j nx) d := by
  have h := forRange2_cells d nx ny 0 ny 0 nx
    (fun i j g => if mask i j then g.set (idx i j nx) c else g)
    (fun i j x => if mask i j then c else x) g0 (le_refl _) (le_refl _) hlen0
    (fun i j g => by dsimp only; split <;> simp)
    (fun i j g hi hj hg => by
      dsimp only; split
      · rw [getD_set_eq _ _ _ _ (by rw [hg]; exact idx_lt hi hj)]
      · rfl)
    (fun i j g m hm => by
      dsimp only; split
      · rw [getD_set_ne _ _ _ _ _ hm]
      · rfl)
  refine ⟨h.1, fun i j hi hj => ?_⟩
  rw [h.2 i j hj, if_pos ⟨Nat.zero_le _, hi, Nat.zero_le _, hj⟩]

/-- A nested loop whose body keeps the length of the vector keeps it. -/
theorem forRange2_length {α : Type} (ilo ihi jlo jhi : Nat)
    (body : Nat → Nat → List α → List α) (g0 : List α)
    (hlen : ∀ i j g, (body i j g).length = g.length) :
    (forRange ilo ihi (fun i g => forRange jlo jhi (fun j g => body i j g) g) g0).length
      = g0.length :=
  forRange_preserve (fun g => g.length = g0.length) ilo ihi _ g0 rfl
    (fun i g _ _ hg =>
      forRange_preserve (fun r => r.length = g0.length) jlo jhi _ g hg
        (fun j r _ _ hr => (hlen i j r).trans hr))

/-! ## The solver's operations, cell by cell -/

theorem laplacian_length (field : List ℚ) (nx ny : Nat) (dx : ℚ) :
    (laplacian field nx ny dx).length = nx * ny := by
  unfold laplacian
  rw [forRange2_length 1 (ny - 1) 1 (nx - 1) (fun i j lap => lap.set (idx i j nx) _)
    _ (fun i j g => List.length_set _ _ _)]
  simp

theorem advect_length (s : FluidSimulator) (field u0 v0 : List ℚ) :
    (advect s field u0 v0).length = s.nx * s.ny := by
  unfold advect
  rw [forRange2_length 0 s.ny 0 s.nx
    (fun i j advected => if s.obstacle.getD (idx i j s.nx) false = true then advected
      else advected.set (idx i j s.nx) _)
    _ (fun i j g => by dsimp only; split <;> simp)]
  simp

theorem diffuse_length (s : FluidSimulator) (field : List ℚ) :
    (diffuse s field).length = field.length := by
  unfold diffuse
  dsimp only
  exact forRange2_length 0 s.ny 0 s.nx
    (fun i j result => result.set (idx i j s.nx) _) _ (fun i j g => List.length_set _ _ _)

theorem divergence_length (s : FluidSimulator) : (divergence s).length = s.nx * s.ny := by
  unfold divergence
  rw [forRange2_length 1 (s.ny - 1) 1 (s.nx - 1) (fun i j div => div.set (idx i j s.nx) _)
    _ (fun i j g => List.length_set _ _ _)]
  simp

theorem jacobiSweep_length (s : FluidSimulator) (div p p_new : List ℚ) :
    (jacobiSweep s div p p_new).length = p_new.length := by
  unfold jacobiSweep
  exact forRange2_length 1 (s.ny - 1) 1 (s.nx - 1)
    (fun i j p_new => if s.obstacle.getD (idx i j s.nx) false = true
      then p_new.set (idx i j s.nx) 0 else p_new.set (idx i j s.nx) _)
    _ (fun i j g => by dsimp only; split <;> simp)

theorem relax_length (s : FluidSimulator) (div : List ℚ) (n k : Nat) (pp : List ℚ × List ℚ)
    (h1 : pp.1.length = n) (h2 : pp.2.length = n) :
    (relax s div k pp).1.length = n ∧ (relax s div k pp).2.length = n := by
  induction k with
  | zero => exact ⟨h1, h2⟩
  | succ k ih =>
    simp only [relax]
    exact ⟨by rw [jacobiSweep_length]; exact ih.2, ih.1⟩

theorem correctVelocity_length (s : FluidSimulator) (p : List ℚ) (uv : List ℚ × List ℚ) :
    (correctVelocity s p uv).1.length = uv.1.length ∧
      (correctVelocity s p uv).2.length = uv.2.length := by
  unfold correctVelocity
  constructor
  · rw [forRange2_map Prod.fst 1 (s.ny - 1) 1 (s.nx - 1) _
      (fun i j u => u.set (idx i j s.nx) (u.getD (idx i j s.nx) 0 -
        (p.getD (idx i (j + 1) s.nx) 0 - p.getD (idx i (j - 1) s.nx) 0) / (2 * s.dx)))
      uv (fun i j t => rfl)]
    exact forRange2_length _ _ _ _ _ _ (fun i j g => List.length_set _ _ _)
  · rw [forRange2_map Prod.snd 1 (s.ny - 1) 1 (s.nx - 1) _
      (fun i j v => v.set (idx i j s.nx) (v.getD (idx i j s.nx) 0 -
        (p.getD (idx (i + 1) j s.nx) 0 - p.getD (idx (i - 1) j s.nx) 0) / (2 * s.dx)))
      uv (fun i j t => rfl)]
    exact forRange2_length _ _ _ _ _ _ (fun i j g => List.length_set _ _ _)

theorem applyBoundary_fst (s : FluidSimulator) (uv : List ℚ × List ℚ) :
    (applyBoundary s uv).1 =
      forRange 0 s.ny (fun i g => (g.set (idx i 0 s.nx) s.u_in).set (idx i (s.nx - 1) s.nx) 0)
        uv.1 :=
  forRange_map Prod.fst 0 s.ny _ _ uv (fun _ _ => rfl)

theorem applyBoundary_snd (s : FluidSimulator) (uv : List ℚ × List ℚ) :
    (applyBoundary s uv).2 =
      forRange 0 s.ny (fun i g => (g.set (idx i 0 s.nx) 0).set (idx i (s.nx - 1) s.nx) 0)
        uv.2 :=
  forRange_map Prod.snd 0 s.ny _ _ uv (fun _ _ => rfl)

theorem applyObstacle_fst (s : FluidSimulator) (uv : List ℚ × List ℚ) :
    (applyObstacle s uv).1 =
      forRange 0 s.ny (fun i g => forRange 0 s.nx (fun j g =>
        if solid s i j then g.set (idx i j s.nx) 0 else g) g) uv.1 :=
  forRange2_map Prod.fst 0 s.ny 0 s.nx _ _ uv
    (fun i j t => by unfold solid; split <;> rfl)

theorem applyObstacle_snd (s : FluidSimulator) (uv : List ℚ × List ℚ) :
    (applyObstacle s uv).2 =
      forRange 0 s.ny (fun i g => forRange 0 s.nx (fun j g =>
        if solid s i j then g.set (idx i j s.nx) 0 else g) g) uv.2 :=
  forRange2_map Prod.snd 0 s.ny 0 s.nx _ _ uv
    (fun i j t => by unfold solid; split <;> rfl)

/-- Velocity left by the last two loops of `project`, cell by cell: obstacle
cells hold zero, then the outlet column holds zero, then the inlet column holds
`(u_in, 0)`, and every other cell keeps what the gradient correction produced. -/
theorem boundary_obstacle_cells (s : FluidSimulator) (uv : List ℚ × List ℚ)
    (hnx : 1 ≤ s.nx) (hu : uv.1.length = s.nx * s.ny) (hv : uv.2.length = s.nx * s.ny) :
    ((applyObstacle s (applyBoundary s uv)).1.length = s.nx * s.ny ∧
      (applyObstacle s (applyBoundary s uv)).2.length = s.nx * s.ny) ∧
    ∀ i j, i < s.ny → j < s.nx →
      (applyObstacle s (applyBoundary s uv)).1.getD (idx i j s.nx) 0 =
          (if solid s i j then 0 else if j = s.nx - 1 then 0
            else if j = 0 then s.u_in else uv.1.getD (idx i j s.nx) 0) ∧
      (applyObstacle s (applyBoundary s uv)).2.getD (idx i j s.nx) 0 =
          (if solid s i j then 0 else if j = s.nx - 1 then 0
            else if j = 0 then 0 else uv.2.getD (idx i j s.nx) 0) := by
  have bu := forRange_columns (0 : ℚ) s.u_in 0 s.nx s.ny uv.1 hnx hu
  have bv := forRange_columns (0 : ℚ) 0 0 s.nx s.ny uv.2 hnx hv
  rw [← applyBoundary_fst] at bu
  rw [← applyBoundary_snd] at bv
  have ou := forRange2_masked (0 : ℚ) 0 s.nx s.ny (solid s) _ bu.1
  have ov := forRange2_masked (0 : ℚ) 0 s.nx s.ny (solid s) _ bv.1
  rw [← applyObstacle_fst] at ou
  rw [← applyObstacle_snd] at ov
  refine ⟨⟨ou.1, ov.1⟩, fun i j hi hj => ⟨?_, ?_⟩⟩
  · rw [ou.2 i j hi hj, bu.2 i j hj]
    simp only [hi, true_and]
  · rw [ov.2 i j hi hj, bv.2 i j hj]
    simp only [hi, true_and]

theorem preProject_fields (s : FluidSimulator) :
    (preProject s).nx = s.nx ∧ (preProject s).ny = s.ny ∧ (preProject s).dx = s.dx ∧
      (preProject s).nu = s.nu ∧ (preProject s).u_in = s.u_in ∧
      (preProject s).obstacle = s.obstacle ∧ (preProject s).p = s.p ∧
      (preProject s).dt = clampedDt s :=
  ⟨rfl, rfl, rfl, rfl, rfl, rfl, rfl, rfl⟩

theorem preProject_wellFormed (s : FluidSimulator) (h : WellFormed s) :
    WellFormed (preProject s) := by
  obtain ⟨hu, hv, hp, ho⟩ := h
  refine ⟨?_, ?_, hp, ho⟩
  · show (diffuse _ (advect _ _ _ _)).length = _
    rw [diffuse_length, advect_length]; rfl
  · show (diffuse _ (advect _ _ _ _)).length = _
    rw [diffuse_length, advect_length]; rfl

theorem project_fields (s : FluidSimulator) :
    (project s).nx = s.nx ∧ (project s).ny = s.ny ∧ (project s).dx = s.dx ∧
      (project s).nu = s.nu ∧ (project s).u_in = s.u_in ∧
      (project s).obstacle = s.obstacle ∧ (project s).dt = s.dt :=
  ⟨rfl, rfl, rfl, rfl, rfl, rfl, rfl⟩

/-- Velocity after `project`, cell by cell. -/
theorem project_velocity_cells (s : FluidSimulator) (h : WellFormed s) (hnx : 1 ≤ s.nx) :
    ((project s).u.length = s.nx * s.ny ∧ (project s).v.length = s.nx * s.ny) ∧
    ∀ i j, i < s.ny → j < s.nx →
      (project s).u.getD (idx i j s.nx) 0 =
          (if solid s i j then 0 else if j = s.nx - 1 then 0
            else if j = 0 then s.u_in
            else (correctVelocity s
              (relax s (divergence s) jacobiIters (s.p, List.replicate (s.nx * s.ny) 0)).1
              (s.u, s.v)).1.getD (idx i j s.nx) 0) ∧
      (project s).v.getD (idx i j s.nx) 0 =
          (if solid s i j then 0 else if j = s.nx - 1 then 0
            else if j = 0 then 0
            else (correctVelocity s
              (relax s (divergence s) jacobiIters (s.p, List.replicate (s.nx * s.ny) 0)).1
              (s.u, s.v)).2.getD (idx i j s.nx) 0) := by
  obtain ⟨hu, hv, hp, ho⟩ := h
  have hc := correctVelocity_length s
    (relax s (divergence s) jacobiIters (s.p, List.replicate (s.nx * s.ny) 0)).1 (s.u, s.v)
  exact boundary_obstacle_cells s _ hnx (hc.1.trans hu) (hc.2.trans hv)

theorem step_fields (s : FluidSimulator) :
    (step s).nx = s.nx ∧ (step s).ny = s.ny ∧ (step s).dx = s.dx ∧
      (step s).nu = s.nu ∧ (step s).u_in = s.u_in ∧
      (step s).obstacle = s.obstacle ∧ (step s).dt = clampedDt s :=
  ⟨rfl, rfl, rfl, rfl, rfl, rfl, rfl⟩

/-- Velocity after `step` on the cells that the last two loops of `project`
decide on their own: obstacle cells and the two boundary columns. -/
theorem step_velocity_fixed_cells (s : FluidSimulator) (h : WellFormed s) (i j : Nat)
    (hi : i < s.ny) (hj : j < s.nx) (hfix : solid s i j = true ∨ j = s.nx - 1 ∨ j = 0) :
    (step s).u.getD (idx i j s.nx) 0 =
        (if solid s i j then 0 else if j = s.nx - 1 then 0 else s.u_in) ∧
      (step s).v.getD (idx i j s.nx) 0 = 0 := by
  have hc := (project_velocity_cells (preProject s) (preProject_wellFormed s h)
    (show 1 ≤ s.nx by omega)).2 i j hi hj
  have hs : solid (preProject s) i j = solid s i j := rfl
  rw [hs] at hc
  show (project (preProject s)).u.getD (idx i j (preProject s).nx) 0 = _ ∧
    (project (preProject s)).v.getD (idx i j (preProject s).nx) 0 = _
  rw [hc.1, hc.2]
  have e : (preProject s).nx = s.nx := rfl
  have e2 : (preProject s).u_in = s.u_in := rfl
  rw [e, e2]
  rcases hfix with h1 | h1 | h1
  · simp [h1]
  · simp [h1]
  · simp [h1]

/-- One Jacobi sweep, cell by cell: interior cells receive `0` (obstacle) or the
four-neighbour average of `p` corrected by the divergence; the boundary ring of
`p_new` is not written. -/
theorem jacobiSweep_cells (s : FluidSimulator) (div p p_new : List ℚ)
    (hlen : p_new.length = s.nx * s.ny) (i j : Nat) (hj : j < s.nx) :
    (jacobiSweep s div p p_new).getD (idx i j s.nx) 0 =
      if 1 ≤ i ∧ i < s.ny - 1 ∧ 1 ≤ j ∧ j < s.nx - 1 then
        (if solid s i j then 0
          else (p.getD (idx i (j + 1) s.nx) 0 + p.getD (idx i (j - 1) s.nx) 0 +
            p.getD (idx (i + 1) j s.nx) 0 + p.getD (idx (i - 1) j s.nx) 0 -
            div.getD (idx i j s.nx) 0 * s.dx * s.dx) * (1 / 4))
      else p_new.getD (idx i j s.nx) 0 := by
  have h := forRange2_cells (0 : ℚ) s.nx s.ny 1 (s.ny - 1) 1 (s.nx - 1)
    (fun i j p_new => if s.obstacle.getD (idx i j s.nx) false = true
      then p_new.set (idx i j s.nx) 0
      else p_new.set (idx i j s.nx)
        ((p.getD (idx i (j + 1) s.nx) 0 + p.getD (idx i (j - 1) s.nx) 0 +
          p.getD (idx (i + 1) j s.nx) 0 + p.getD (idx (i - 1) j s.nx) 0 -
          div.getD (idx i j s.nx) 0 * s.dx * s.dx) * (1 / 4)))
    (fun i j _ => if solid s i j then 0
      else (p.getD (idx i (j + 1) s.nx) 0 + p.getD (idx i (j - 1) s.nx) 0 +
        p.getD (idx (i + 1) j s.nx) 0 + p.getD (idx (i - 1) j s.nx) 0 -
        div.getD (idx i j s.nx) 0 * s.dx * s.dx) * (1 / 4))
    p_new (Nat.sub_le _ _) (Nat.sub_le _ _) hlen
    (fun i j g => by dsimp only; split <;> simp)
    (fun i j g hi hj hg => by
      have hk : idx i j s.nx < g.length := by rw [hg]; exact idx_lt hi hj
      unfold solid
      dsimp only
      split
      · rw [getD_set_eq _ _ _ _ hk]
      · rw [getD_set_eq _ _ _ _ hk])
    (fun i j g m hm => by
      dsimp only
      split
      · rw [getD_set_ne _ _ _ _ _ hm]
      · rw [getD_set_ne _ _ _ _ _ hm])
  exact h.2 i j hj

theorem zeroOnSolid_replicate (s : FluidSimulator) (n : Nat) :
    ZeroOnSolid s (List.replicate n 0) :=
  fun _ _ _ _ _ => getD_replicate _ _ _

theorem jacobiSweep_zeroOnSolid (s : FluidSimulator) (div p p_new : List ℚ)
    (hlen : p_new.length = s.nx * s.ny) (hz : ZeroOnSolid s p_new) :
    ZeroOnSolid s (jacobiSweep s div p p_new) := by
  intro i j hi hj hs
  rw [jacobiSweep_cells s div p p_new hlen i j hj]
  by_cases hc : 1 ≤ i ∧ i < s.ny - 1 ∧ 1 ≤ j ∧ j < s.nx - 1
  · rw [if_pos hc, if_pos hs]
  · rw [if_neg hc]
    exact hz i j hi hj hs

/-- Both buffers of the relaxation loop stay zero on the obstacle cells. -/
theorem relax_zeroOnSolid (s : FluidSimulator) (div : List ℚ) (k : Nat)
    (pp : List ℚ × List ℚ) (h1 : pp.1.length = s.nx * s.ny) (h2 : pp.2.length = s.nx * s.ny)
    (z1 : ZeroOnSolid s pp.1) (z2 : ZeroOnSolid s pp.2) :
    ZeroOnSolid s (relax s div k pp).1 ∧ ZeroOnSolid s (relax s div k pp).2 := by
  induction k with
  | zero => exact ⟨z1, z2⟩
  | succ k ih =>
    simp only [relax]
    exact ⟨jacobiSweep_zeroOnSolid s div _ _ (relax_length s div _ k pp h1 h2).2 ih.2, ih.1⟩

theorem zeroMasked_u (s : FluidSimulator) (uvp : List ℚ × List ℚ × List ℚ) :
    (zeroMasked s uvp).1 =
      forRange 0 s.ny (fun i g => forRange 0 s.nx (fun j g =>
        if solid s i j then g.set (idx i j s.nx) 0 else g) g) uvp.1 :=
  forRange2_map (fun t => t.1) 0 s.ny 0 s.nx _ _ uvp
    (fun i j t => by unfold solid; split <;> rfl)

theorem zeroMasked_v (s : FluidSimulator) (uvp : List ℚ × List ℚ × List ℚ) :
    (zeroMasked s uvp).2.1 =
      forRange 0 s.ny (fun i g => forRange 0 s.nx (fun j g =>
        if solid s i j then g.set (idx i j s.nx) 0 else g) g) uvp.2.1 :=
  forRange2_map (fun t => t.2.1) 0 s.ny 0 s.nx _ _ uvp
    (fun i j t => by unfold solid; split <;> rfl)

theorem zeroMasked_p (s : FluidSimulator) (uvp : List ℚ × List ℚ × List ℚ) :
    (zeroMasked s uvp).2.2 =
      forRange 0 s.ny (fun i g => forRange 0 s.nx (fun j g =>
        if solid s i j then g.set (idx i j s.nx) 0 else g) g) uvp.2.2 :=
  forRange2_map (fun t => t.2.2) 0 s.ny 0 s.nx _ _ uvp
    (fun i j t => by unfold solid; split <;> rfl)

theorem setObstacle_reject (s : FluidSimulator) (mask : List Bool)
    (h : mask.length ≠ s.obstacle.length) : setObstacle s mask = s := by
  unfold setObstacle
  rw [if_pos h]

/-- An accepted `setObstacle`, field by field and cell by cell. -/
theorem setObstacle_accept (s : FluidSimulator) (mask : List Bool) (hwf : WellFormed s)
    (hm : mask.length = s.nx * s.ny) :
    ((setObstacle s mask).obstacle = mask ∧ (setObstacle s mask).nx = s.nx ∧
      (setObstacle s mask).ny = s.ny ∧ (setObstacle s mask).dx = s.dx ∧
      (setObstacle s mask).dt = s.dt ∧ (setObstacle s mask).nu = s.nu ∧
      (setObstacle s mask).u_in = s.u_in) ∧
    WellFormed (setObstacle s mask) ∧
    ∀ i j, i < s.ny → j < s.nx →
      (setObstacle s mask).u.getD (idx i j s.nx) 0 =
          (if mask.getD (idx i j s.nx) false then 0 else s.u.getD (idx i j s.nx) 0) ∧
        (setObstacle s mask).v.getD (idx i j s.nx) 0 =
          (if mask.getD (idx i j s.nx) false then 0 else s.v.getD (idx i j s.nx) 0) ∧
        (setObstacle s mask).p.getD (idx i j s.nx) 0 =
          (if mask.getD (idx i j s.nx) false then 0 else s.p.getD (idx i j s.nx) 0) := by
  obtain ⟨hu, hv, hp, ho⟩ := hwf
  have hne : ¬ mask.length ≠ s.obstacle.length := by rw [ho, hm]; exact fun h => h rfl
  have e : setObstacle s mask =
      { s with obstacle := mask,
               u := (zeroMasked { s with obstacle := mask } (s.u, s.v, s.p)).1,
               v := (zeroMasked { s with obstacle := mask } (s.u, s.v, s.p)).2.1,
               p := (zeroMasked { s with obstacle := mask } (s.u, s.v, s.p)).2.2 } := by
    unfold setObstacle
    rw [if_neg hne]
  rw [e]
  have mu := forRange2_masked (0 : ℚ) 0 s.nx s.ny (solid { s with obstacle := mask }) s.u hu
  have mv := forRange2_masked (0 : ℚ) 0 s.nx s.ny (solid { s with obstacle := mask }) s.v hv
  have mp := forRange2_masked (0 : ℚ) 0 s.nx s.ny (solid { s with obstacle := mask }) s.p hp
  have eu := zeroMasked_u { s with obstacle := mask } (s.u, s.v, s.p)
  have ev := zeroMasked_v { s with obstacle := mask } (s.u, s.v, s.p)
  have ep := zeroMasked_p { s with obstacle := mask } (s.u, s.v, s.p)
  dsimp only at eu ev ep mu mv mp ⊢
  rw [← eu] at mu
  rw [← ev] at mv
  rw [← ep] at mp
  refine ⟨⟨rfl, rfl, rfl, rfl, rfl, rfl, rfl⟩, ⟨mu.1, mv.1, mp.1, hm⟩, fun i j hi hj => ?_⟩
  exact ⟨mu.2 i j hi hj, mv.2 i j hi hj, mp.2 i j hi hj⟩

theorem project_lengths (s : FluidSimulator) :
    (project s).u.length = s.u.length ∧ (project s).v.length = s.v.length := by
  have hc := correctVelocity_length s
    (relax s (divergence s) jacobiIters (s.p, List.replicate (s.nx * s.ny) 0)).1 (s.u, s.v)
  constructor
  · show (applyObstacle s (applyBoundary s _)).1.length = _
    rw [applyObstacle_fst, forRange2_length 0 s.ny 0 s.nx
      (fun i j g => if solid s i j = true then g.set (idx i j s.nx) 0 else g) _
      (fun i j g => by dsimp only; split <;> simp), applyBoundary_fst]
    rw [forRange_preserve (fun g : List ℚ => g.length = s.u.length) 0 s.ny _ _ hc.1
      (fun i g _ _ hg => by simpa using hg)]
  · show (applyObstacle s (applyBoundary s _)).2.length = _
    rw [applyObstacle_snd, forRange2_length 0 s.ny 0 s.nx
      (fun i j g => if solid s i j = true then g.set (idx i j s.nx) 0 else g) _
      (fun i j g => by dsimp only; split <;> simp), applyBoundary_snd]
    rw [forRange_preserve (fun g : List ℚ => g.length = s.v.length) 0 s.ny _ _ hc.2
      (fun i g _ _ hg => by simpa using hg)]

/-- Pressure buffer `p` after `k` sweeps of the relaxation loop of `project`. -/
theorem project_relax_zeroOnSolid (s : FluidSimulator) (h : Invariant s) (k : Nat) :
    ((relax s (divergence s) k (s.p, List.replicate (s.nx * s.ny) 0)).1.length
        = s.nx * s.ny) ∧
      ZeroOnSolid s (relax s (divergence s) k (s.p, List.replicate (s.nx * s.ny) 0)).1 :=
  ⟨(relax_length s _ _ k (s.p, List.replicate (s.nx * s.ny) 0) h.1.2.2.1 (by simp)).1,
    (relax_zeroOnSolid s _ k (s.p, List.replicate (s.nx * s.ny) 0) h.1.2.2.1 (by simp)
      h.2 (zeroOnSolid_replicate s _)).1⟩

theorem construct_invariant (nx ny : Nat) (dx dt nu u_in : ℚ) :
    Invariant (construct nx ny dx dt nu u_in) := by
  refine ⟨⟨?_, ?_, ?_, ?_⟩, fun i j _ _ _ => ?_⟩
  · simp [construct]
  · simp [construct]
  · simp [construct]
  · simp [construct]
  · exact getD_replicate _ _ _

theorem setObstacle_invariant (s : FluidSimulator) (mask : List Bool) (h : Invariant s) :
    Invariant (setObstacle s mask) := by
  by_cases hm : mask.length = s.nx * s.ny
  · obtain ⟨hf, hwf, hcell⟩ := setObstacle_accept s mask h.1 hm
    refine ⟨hwf, fun i j hi hj hs => ?_⟩
    rw [hf.2.1] at hj
    rw [hf.2.2.1] at hi
    unfold solid at hs
    rw [hf.1, hf.2.1] at hs
    rw [hf.2.1, (hcell i j hi hj).2.2, if_pos hs]
  · rw [setObstacle_reject s mask (by rw [h.1.2.2.2]; exact hm)]
    exact h

theorem preProject_invariant (s : FluidSimulator) (h : Invariant s) :
    Invariant (preProject s) :=
  ⟨preProject_wellFormed s h.1, h.2⟩

theorem project_invariant (s : FluidSimulator) (h : Invariant s) : Invariant (project s) := by
  have hr := project_relax_zeroOnSolid s h jacobiIters
  have hl := project_lengths s
  exact ⟨⟨hl.1.trans h.1.1, hl.2.trans h.1.2.1, hr.1, h.1.2.2.2⟩, hr.2⟩

theorem step_invariant (s : FluidSimulator) (h : Invariant s) : Invariant (step s) :=
  project_invariant _ (preProject_invariant s h)

theorem setObstacle_fields (s : FluidSimulator) (mask : List Bool) :
    (setObstacle s mask).nx = s.nx ∧ (setObstacle s mask).ny = s.ny ∧
      (setObstacle s mask).dx = s.dx ∧ (setObstacle s mask).dt = s.dt ∧
      (setObstacle s mask).nu = s.nu ∧ (setObstacle s mask).u_in = s.u_in := by
  unfold setObstacle
  split
  · exact ⟨rfl, rfl, rfl, rfl, rfl, rfl⟩
  · exact ⟨rfl, rfl, rfl, rfl, rfl, rfl⟩

theorem run_nil (s : FluidSimulator) : run s [] = s := rfl

theorem run_cons (s : FluidSimulator) (c : Call) (calls : List Call) :
    run s (c :: calls) = run (applyCall s c) calls := rfl

/-- Every call keeps the invariant and the construction parameters other than
the time step. -/
theorem applyCall_invariant (s : FluidSimulator) (c : Call) (h : Invariant s) :
    Invariant (applyCall s c) ∧ (applyCall s c).nx = s.nx ∧ (applyCall s c).ny = s.ny ∧
      (applyCall s c).dx = s.dx ∧ (applyCall s c).nu = s.nu ∧
      (applyCall s c).u_in = s.u_in := by
  cases c with
  | setObstacle mask =>
    have hf := setObstacle_fields s mask
    exact ⟨setObstacle_invariant s mask h, hf.1, hf.2.1, hf.2.2.1, hf.2.2.2.2.1, hf.2.2.2.2.2⟩
  | step => exact ⟨step_invariant s h, rfl, rfl, rfl, rfl, rfl⟩

/-- Reachable states: the invariant holds and the construction parameters other
than the time step are those given to the constructor. -/
theorem run_invariant (s : FluidSimulator) (calls : List Call) (h : Invariant s) :
    Invariant (run s calls) ∧ (run s calls).nx = s.nx ∧ (run s calls).ny = s.ny ∧
      (run s calls).dx = s.dx ∧ (run s calls).nu = s.nu ∧ (run s calls).u_in = s.u_in := by
  induction calls generalizing s with
  | nil => exact ⟨h, rfl, rfl, rfl, rfl, rfl⟩
  | cons c t ih =>
    rw [run_cons]
    obtain ⟨hi, h1, h2, h3, h4, h5⟩ := applyCall_invariant s c h
    obtain ⟨ki, k1, k2, k3, k4, k5⟩ := ih (applyCall s c) hi
    exact ⟨ki, k1.trans h1, k2.trans h2, k3.trans h3, k4.trans h4, k5.trans h5⟩

/-- The Laplacian, cell by cell. -/
theorem laplacian_cells (field : List ℚ) (nx ny : Nat) (dx : ℚ) (i j : Nat) (hj : j < nx) :
    (laplacian field nx ny dx).getD (idx i j nx) 0 =
      if 1 ≤ i ∧ i < ny - 1 ∧ 1 ≤ j ∧ j < nx - 1 then
        (field.getD (idx (i - 1) j nx) 0 + field.getD (idx (i + 1) j nx) 0 +
          field.getD (idx i (j - 1) nx) 0 + field.getD (idx i (j + 1) nx) 0 -
          4 * field.getD (idx i j nx) 0) / (dx * dx)
      else 0 := by
  have h := forRange2_cells (0 : ℚ) nx ny 1 (ny - 1) 1 (nx - 1)
    (fun i j lap => lap.set (idx i j nx)
      ((field.getD (idx (i - 1) j nx) 0 + field.getD (idx (i + 1) j nx) 0 +
        field.getD (idx i (j - 1) nx) 0 + field.getD (idx i (j + 1) nx) 0 -
        4 * field.getD (idx i j nx) 0) / (dx * dx)))
    (fun i j _ => (field.getD (idx (i - 1) j nx) 0 + field.getD (idx (i + 1) j nx) 0 +
      field.getD (idx i (j - 1) nx) 0 + field.getD (idx i (j + 1) nx) 0 -
      4 * field.getD (idx i j nx) 0) / (dx * dx))
    (List.replicate (nx * ny) 0) (Nat.sub_le _ _) (Nat.sub_le _ _) (by simp)
    (fun i j g => List.length_set _ _ _)
    (fun i j g hi hj hg => getD_set_eq _ _ _ _ (by rw [hg]; exact idx_lt hi hj))
    (fun i j g m hm => getD_set_ne _ _ _ _ _ hm)
  have h2 := h.2 i j hj
  rw [getD_replicate] at h2
  exact h2

/-- C1, as stated, fails.  On the 2 × 1 grid whose inlet cell `(0, 0)` is solid
the inlet velocity after `step()` is `(0, 0)`, not `(u_in, 0) = (1, 0)`; on the
1 × 1 grid without obstacle, column 0 is also the outlet column and holds
`(0, 0)`, not `(1, 0)`. -/
theorem inlet_column_counterexample :
    (WellFormed inletMasked ∧ 1 ≤ inletMasked.nx ∧ 1 ≤ inletMasked.ny ∧
        (step inletMasked).u.getD (idx 0 0 inletMasked.nx) 0 = 0 ∧
        ¬ ((step inletMasked).u.getD (idx 0 0 inletMasked.nx) 0 = inletMasked.u_in ∧
          (step inletMasked).v.getD (idx 0 0 inletMasked.nx) 0 = 0)) ∧
      (WellFormed singleColumn ∧ 1 ≤ singleColumn.nx ∧ 1 ≤ singleColumn.ny ∧
        (step singleColumn).u.getD (idx 0 0 singleColumn.nx) 0 = 0 ∧
        ¬ ((step singleColumn).u.getD (idx 0 0 singleColumn.nx) 0 = singleColumn.u_in ∧
          (step singleColumn).v.getD (idx 0 0 singleColumn.nx) 0 = 0)) := by
  unfold WellFormed
  decide!

/-- C1, amended (inlet boundary invariant): after `step()` on a simulator whose
grids have `nx * ny` cells, every row `i < ny` has `v = 0` in column 0, and `u`
in column 0 equals `u_in` unless the cell is an obstacle or the grid has a
single column, in which cases it is `0`. -/
theorem inlet_column_after_step (s : FluidSimulator) (hwf : WellFormed s) (hnx : 1 ≤ s.nx)
    (i : Nat) (hi : i < s.ny) :
    (step s).u.getD (idx i 0 s.nx) 0 = (if solid s i 0 ∨ s.nx = 1 then 0 else s.u_in) ∧
      (step s).v.getD (idx i 0 s.nx) 0 = 0 := by
  have h := step_velocity_fixed_cells s hwf i 0 hi (by omega) (Or.inr (Or.inr rfl))
  refine ⟨?_, h.2⟩
  rw [h.1]
  by_cases hs : solid s i 0 = true
  · simp [hs]
  · by_cases h1 : s.nx = 1
    · simp [h1]
    · have h2 : ¬ (0 = s.nx - 1) := by omega
      simp [hs, h1, h2]

/-- Instance of the amended C1 on the 2 × 1 grid with a solid inlet cell. -/
theorem inlet_column_after_step_witness :
    WellFormed inletMasked ∧ 1 ≤ inletMasked.nx ∧ 0 < inletMasked.ny ∧
      ((step inletMasked).u.getD (idx 0 0 inletMasked.nx) 0 =
          (if solid inletMasked 0 0 ∨ inletMasked.nx = 1 then 0 else inletMasked.u_in) ∧
        (step inletMasked).v.getD (idx 0 0 inletMasked.nx) 0 = 0) :=
  ⟨by unfold WellFormed; decide!, by decide!, by decide!,
    inlet_column_after_step inletMasked (by unfold WellFormed; decide!) (by decide!) 0
      (by decide!)⟩

/-- C7 (outlet boundary invariant): after `step()` on a simulator with `nx ≥ 1`
whose grids have `nx * ny` cells, whatever the mask and the prior fields, every
row `i < ny` has `u = 0` and `v = 0` in column `nx - 1`. -/
theorem outlet_column_after_step (s : FluidSimulator) (hwf : WellFormed s) (hnx : 1 ≤ s.nx)
    (i : Nat) (hi : i < s.ny) :
    (step s).u.getD (idx i (s.nx - 1) s.nx) 0 = 0 ∧
      (step s).v.getD (idx i (s.nx - 1) s.nx) 0 = 0 := by
  have h := step_velocity_fixed_cells s hwf i (s.nx - 1) hi (by omega) (Or.inr (Or.inl rfl))
  refine ⟨?_, h.2⟩
  rw [h.1]
  simp

/-- Instance of C7 on the 2 × 1 grid with a solid inlet cell, row 0. -/
theorem outlet_column_after_step_witness :
    WellFormed inletMasked ∧ 1 ≤ inletMasked.nx ∧ 0 < inletMasked.ny ∧
      ((step inletMasked).u.getD (idx 0 (inletMasked.nx - 1) inletMasked.nx) 0 = 0 ∧
        (step inletMasked).v.getD (idx 0 (inletMasked.nx - 1) inletMasked.nx) 0 = 0) :=
  ⟨by unfold WellFormed; decide!, by decide!, by decide!,
    outlet_column_after_step inletMasked (by unfold WellFormed; decide!) (by decide!) 0
      (by decide!)⟩

/-! ## Obstacles (C2, C5, C9) -/

theorem reached_invariant (nx ny : Nat) (dx dt nu u_in : ℚ) (calls : List Call) :
    Invariant (reached nx ny dx dt nu u_in calls) ∧
      (reached nx ny dx dt nu u_in calls).nx = nx ∧
      (reached nx ny dx dt nu u_in calls).ny = ny ∧
      (reached nx ny dx dt nu u_in calls).dx = dx ∧
      (reached nx ny dx dt nu u_in calls).nu = nu ∧
      (reached nx ny dx dt nu u_in calls).u_in = u_in :=
  run_invariant (construct nx ny dx dt nu u_in) calls (construct_invariant nx ny dx dt nu u_in)

/-- C2 (obstacle invariant): in every state `s` reached from the constructor by
`setObstacle` and `step` calls, a cell `(i, j)` of the grid on which the mask is
true has `u = 0` and `v = 0` when the next `step()` returns, has `p = 0` in the
buffer `p` after each number `k` of relaxation sweeps of that step, and so has
`p = 0` when the step returns (the stored `p` is the buffer after the last
sweep).  Cells of the boundary ring are included. -/
theorem obstacle_cells_zero (nx ny : Nat) (dx dt nu u_in : ℚ) (calls : List Call)
    (i j : Nat) (hi : i < ny) (hj : j < nx)
    (hs : solid (reached nx ny dx dt nu u_in calls) i j = true) :
    (step (reached nx ny dx dt nu u_in calls)).u.getD (idx i j nx) 0 = 0 ∧
      (step (reached nx ny dx dt nu u_in calls)).v.getD (idx i j nx) 0 = 0 ∧
      (∀ k, (pressureAfterSweeps (preProject (reached nx ny dx dt nu u_in calls)) k).getD
        (idx i j nx) 0 = 0) ∧
      (step (reached nx ny dx dt nu u_in calls)).p =
        pressureAfterSweeps (preProject (reached nx ny dx dt nu u_in calls)) jacobiIters ∧
      (step (reached nx ny dx dt nu u_in calls)).p.getD (idx i j nx) 0 = 0 := by
  obtain ⟨hinv, e1, e2, -, -, -⟩ := reached_invariant nx ny dx dt nu u_in calls
  generalize reached nx ny dx dt nu u_in calls = s at hinv e1 e2 hs ⊢
  subst e1 e2
  have hv := step_velocity_fixed_cells s hinv.1 i j hi hj (Or.inl hs)
  have hp : ∀ k, (pressureAfterSweeps (preProject s) k).getD (idx i j s.nx) 0 = 0 :=
    fun k => (project_relax_zeroOnSolid (preProject s) (preProject_invariant s hinv) k).2
      i j hi hj hs
  refine ⟨?_, hv.2, hp, rfl, hp jacobiIters⟩
  rw [hv.1, if_pos hs]

/-- Instance of C2 on a 3 × 3 grid with a solid corner and a solid centre, after
one earlier step: the centre cell. -/
theorem obstacle_cells_zero_witness :
    solid (reached 3 3 1 (1 / 10) (1 / 50) 1
        [Call.setObstacle [true, false, false, false, true, false, false, false, false],
          Call.step]) 1 1 = true ∧
      (step (reached 3 3 1 (1 / 10) (1 / 50) 1
        [Call.setObstacle [true, false, false, false, true, false, false, false, false],
          Call.step])).p.getD (idx 1 1 3) 0 = 0 :=
  ⟨by decide!,
    (obstacle_cells_zero 3 3 1 (1 / 10) (1 / 50) 1
      [Call.setObstacle [true, false, false, false, true, false, false, false, false],
        Call.step] 1 1 (by decide) (by decide) (by decide!)).2.2.2.2⟩

/-- C5 (mask-size rejection): in a state reached from the constructor,
`setObstacle` with a mask whose length is not `nx * ny` returns the state
unchanged: mask, `u`, `v`, `p`, `dt` and every parameter. -/
theorem setObstacle_wrong_size (nx ny : Nat) (dx dt nu u_in : ℚ) (calls : List Call)
    (mask : List Bool) (hm : mask.length ≠ nx * ny) :
    setObstacle (reached nx ny dx dt nu u_in calls) mask =
      reached nx ny dx dt nu u_in calls := by
  obtain ⟨hinv, e1, e2, -, -, -⟩ := reached_invariant nx ny dx dt nu u_in calls
  apply setObstacle_reject
  rw [hinv.1.2.2.2, e1, e2]
  exact hm

/-- Instance of C5: a mask of 3 entries on a 2 × 2 grid after one step. -/
theorem setObstacle_wrong_size_witness :
    [true, false, true].length ≠ 2 * 2 ∧
      setObstacle (reached 2 2 1 (1 / 10) (1 / 50) 1 [Call.step]) [true, false, true] =
        reached 2 2 1 (1 / 10) (1 / 50) 1 [Call.step] :=
  ⟨by decide,
    setObstacle_wrong_size 2 2 1 (1 / 10) (1 / 50) 1 [Call.step] [true, false, true]
      (by decide)⟩

/-- C9 (effect of an accepted `setObstacle`): on a state whose grids have
`nx * ny` cells and a mask of length `nx * ny`, afterwards the stored mask is
`mask`; on every cell where `mask` is true `u`, `v`, `p` are `0`; on every cell
where it is false they are what they were; `dt`, `nx`, `ny`, `dx`, `nu`, `u_in`
are unchanged. -/
theorem setObstacle_right_size (s : FluidSimulator) (hwf : WellFormed s) (mask : List Bool)
    (hm : mask.length = s.nx * s.ny) :
    (setObstacle s mask).obstacle = mask ∧
      (∀ i j, i < s.ny → j < s.nx → mask.getD (idx i j s.nx) false = true →
        (setObstacle s mask).u.getD (idx i j s.nx) 0 = 0 ∧
        (setObstacle s mask).v.getD (idx i j s.nx) 0 = 0 ∧
        (setObstacle s mask).p.getD (idx i j s.nx) 0 = 0) ∧
      (∀ i j, i < s.ny → j < s.nx → mask.getD (idx i j s.nx) false = false →
        (setObstacle s mask).u.getD (idx i j s.nx) 0 = s.u.getD (idx i j s.nx) 0 ∧
        (setObstacle s mask).v.getD (idx i j s.nx) 0 = s.v.getD (idx i j s.nx) 0 ∧
        (setObstacle s mask).p.getD (idx i j s.nx) 0 = s.p.getD (idx i j s.nx) 0) ∧
      (setObstacle s mask).dt = s.dt ∧ (setObstacle s mask).nx = s.nx ∧
      (setObstacle s mask).ny = s.ny ∧ (setObstacle s mask).dx = s.dx ∧
      (setObstacle s mask).nu = s.nu ∧ (setObstacle s mask).u_in = s.u_in := by
  obtain ⟨hf, -, hcell⟩ := setObstacle_accept s mask hwf hm
  refine ⟨hf.1, fun i j hi hj hmask => ?_, fun i j hi hj hmask => ?_,
    hf.2.2.2.2.1, hf.2.1, hf.2.2.1, hf.2.2.2.1, hf.2.2.2.2.2.1, hf.2.2.2.2.2.2⟩
  · obtain ⟨h1, h2, h3⟩ := hcell i j hi hj
    rw [h1, h2, h3]
    simp only [if_pos hmask, and_self]
  · obtain ⟨h1, h2, h3⟩ := hcell i j hi hj
    have hne : ¬ mask.getD (idx i j s.nx) false = true := by rw [hmask]; exact Bool.false_ne_true
    rw [h1, h2, h3]
    simp only [if_neg hne, and_self]

/-- Instance of C9 on the 4 × 4 scenario after one step: the inlet cell `(0, 0)`,
where `u = 1` before the call, is made solid. -/
theorem setObstacle_right_size_witness :
    WellFormed (step scenario) ∧
      (setObstacle (step scenario)
        [true, false, false, false, false, true, false, false,
          false, false, false, false, false, false, false, false]).u.getD (idx 0 0 4) 0 = 0 :=
  ⟨by unfold WellFormed; decide!,
    ((setObstacle_right_size (step scenario) (by unfold WellFormed; decide!)
      [true, false, false, false, false, true, false, false,
        false, false, false, false, false, false, false, false] (by decide!)).2.1
      0 0 (by decide!) (by decide!) (by decide!)).1⟩

/-! ## Time step (C4) -/

/-- C3, as stated, fails: in the 4 × 4 scenario the largest interior divergence
when `step()` returns is not smaller than the one of the velocity that entered
`project()`. -/
theorem scenario_divergence_counterexample :
    ¬ (maxInteriorDivergence (step scenario) < maxInteriorDivergence (preProject scenario)) := by
  decide!

/-- C3, amended: in the 4 × 4 scenario the velocity entering `project()` is
zero, so its largest interior divergence is `0`; when `step()` returns, `u` is
`1` in column 0 and `0` elsewhere, `v` is zero, and the largest interior
divergence is `1/2`. -/
theorem scenario_divergence :
    maxInteriorDivergence (preProject scenario) = 0 ∧
      maxInteriorDivergence (step scenario) = 1 / 2 ∧
      (step scenario).u = [1, 0, 0, 0, 1, 0, 0, 0, 1, 0, 0, 0, 1, 0, 0, 0] ∧
      (step scenario).v = List.replicate 16 0 ∧
      (preProject scenario).u = List.replicate 16 0 ∧
      (preProject scenario).v = List.replicate 16 0 := by
  decide!

/-! ## Laplacian and dimensions (C11, C16) -/

/-- Every flat offset below `nx * ny` is the offset of a cell of the grid. -/
theorem idx_surj {nx ny k : Nat} (hk : k < nx * ny) :
    k / nx < ny ∧ k % nx < nx ∧ idx (k / nx) (k % nx) nx = k := by
  have hpos : 0 < nx := by
    rcases Nat.eq_zero_or_pos nx with h | h
    · rw [h, Nat.zero_mul] at hk; exact absurd hk (Nat.not_lt_zero _)
    · exact h
  refine ⟨?_, Nat.mod_lt _ hpos, ?_⟩
  · exact Nat.div_lt_of_lt_mul hk
  · unfold idx
    rw [Nat.mul_comm]
    exact Nat.div_add_mod k nx

/-- C11 (Laplacian definition): `laplacian` returns a grid of `nx * ny` entries
whose value on an interior cell `(i, j)` is the five-point stencil divided by
`dx²` and whose value on every cell of the boundary ring is `0`. -/
theorem laplacian_spec (field : List ℚ) (nx ny : Nat) (dx : ℚ) :
    (laplacian field nx ny dx).length = nx * ny ∧
      (∀ i j, 1 ≤ i → i + 2 ≤ ny → 1 ≤ j → j + 2 ≤ nx →
        (laplacian field nx ny dx).getD (idx i j nx) 0 =
          (field.getD (idx (i - 1) j nx) 0 + field.getD (idx (i + 1) j nx) 0 +
            field.getD (idx i (j - 1) nx) 0 + field.getD (idx i (j + 1) nx) 0 -
            4 * field.getD (idx i j nx) 0) / dx ^ 2) ∧
      (∀ i j, i < ny → j < nx → (i = 0 ∨ i = ny - 1 ∨ j = 0 ∨ j = nx - 1) →
        (laplacian field nx ny dx).getD (idx i j nx) 0 = 0) := by
  refine ⟨laplacian_length field nx ny dx, fun i j hi1 hi2 hj1 hj2 => ?_,
    fun i j hi hj hring => ?_⟩
  · rw [laplacian_cells field nx ny dx i j (by omega), if_pos (by omega), pow_two]
  · rw [laplacian_cells field nx ny dx i j hj, if_neg (by omega)]

theorem zeroOnRing_replicate (s : FluidSimulator) (n : Nat) :
    ZeroOnRing s (List.replicate n 0) :=
  fun _ _ _ _ _ => getD_replicate _ _ _

/-- A sweep writes interior cells only. -/
theorem jacobiSweep_zeroOnRing (s : FluidSimulator) (div p p_new : List ℚ)
    (hlen : p_new.length = s.nx * s.ny) (hz : ZeroOnRing s p_new) :
    ZeroOnRing s (jacobiSweep s div p p_new) := by
  intro i j hi hj hr
  rw [jacobiSweep_cells s div p p_new hlen i j hj, if_neg]
  · exact hz i j hi hj hr
  · unfold onRing at hr
    omega

theorem relax_zeroOnRing (s : FluidSimulator) (div : List ℚ) (k : Nat)
    (pp : List ℚ × List ℚ) (h1 : pp.1.length = s.nx * s.ny) (h2 : pp.2.length = s.nx * s.ny)
    (z1 : ZeroOnRing s pp.1) (z2 : ZeroOnRing s pp.2) :
    ZeroOnRing s (relax s div k pp).1 ∧ ZeroOnRing s (relax s div k pp).2 := by
  induction k with
  | zero => exact ⟨z1, z2⟩
  | succ k ih =>
    simp only [relax]
    exact ⟨jacobiSweep_zeroOnRing s div _ _ (relax_length s div _ k pp h1 h2).2 ih.2, ih.1⟩

theorem pressureBuffers_zeroOnRing (s : FluidSimulator) (hwf : WellFormed s)
    (hz : ZeroOnRing s s.p) (k : Nat) :
    ZeroOnRing s (pressureBuffers s k).1 ∧ ZeroOnRing s (pressureBuffers s k).2 :=
  relax_zeroOnRing s _ k (s.p, List.replicate (s.nx * s.ny) 0) hwf.2.2.1 (by simp) hz
    (zeroOnRing_replicate s _)

theorem setObstacle_zeroOnRing (s : FluidSimulator) (mask : List Bool) (hwf : WellFormed s)
    (hz : ZeroOnRing s s.p) : ZeroOnRing (setObstacle s mask) (setObstacle s mask).p := by
  by_cases hm : mask.length = s.nx * s.ny
  · obtain ⟨hf, -, hcell⟩ := setObstacle_accept s mask hwf hm
    intro i j hi hj hr
    rw [hf.2.1] at hj
    rw [hf.2.2.1] at hi
    have hr2 : onRing s i j := by
      unfold onRing at hr ⊢
      rw [hf.2.1, hf.2.2.1] at hr
      exact hr
    rw [hf.2.1, (hcell i j hi hj).2.2]
    split
    · rfl
    · exact hz i j hi hj hr2
  · rw [setObstacle_reject s mask (by rw [hwf.2.2.2]; exact hm)]
    exact hz

theorem step_zeroOnRing (s : FluidSimulator) (hwf : WellFormed s) (hz : ZeroOnRing s s.p) :
    ZeroOnRing (step s) (step s).p :=
  (pressureBuffers_zeroOnRing (preProject s) (preProject_wellFormed s hwf) hz jacobiIters).1

/-- Reachable states carry a pressure that vanishes on the boundary ring. -/
theorem run_zeroOnRing (s : FluidSimulator) (calls : List Call) (h : Invariant s)
    (hz : ZeroOnRing s s.p) : ZeroOnRing (run s calls) (run s calls).p := by
  induction calls generalizing s with
  | nil => exact hz
  | cons c t ih =>
    rw [run_cons]
    refine ih (applyCall s c) (applyCall_invariant s c h).1 ?_
    cases c with
    | setObstacle mask => exact setObstacle_zeroOnRing s mask h.1 hz
    | step => exact step_zeroOnRing s h.1 hz

theorem reached_zeroOnRing (nx ny : Nat) (dx dt nu u_in : ℚ) (calls : List Call) :
    ZeroOnRing (reached nx ny dx dt nu u_in calls) (reached nx ny dx dt nu u_in calls).p :=
  run_zeroOnRing _ calls (construct_invariant nx ny dx dt nu u_in)
    (fun _ _ _ _ _ => getD_replicate _ _ _)

/-- C20 (pressure on the boundary ring): in every state reached from the
constructor by `setObstacle` and `step` calls, `p` is `0` on every cell of row
`0`, row `ny - 1`, column `0` and column `nx - 1`; and during the next `step()`
both buffers `p` and `p_new` are `0` on the ring after any number `k` of
relaxation iterations. -/
theorem pressure_zero_on_ring (nx ny : Nat) (dx dt nu u_in : ℚ) (calls : List Call)
    (i j : Nat) (hi : i < ny) (hj : j < nx)
    (hring : i = 0 ∨ i = ny - 1 ∨ j = 0 ∨ j = nx - 1) :
    (reached nx ny dx dt nu u_in calls).p.getD (idx i j nx) 0 = 0 ∧
      ∀ k, (pressureBuffers (preProject (reached nx ny dx dt nu u_in calls)) k).1.getD
            (idx i j nx) 0 = 0 ∧
          (pressureBuffers (preProject (reached nx ny dx dt nu u_in calls)) k).2.getD
            (idx i j nx) 0 = 0 := by
  obtain ⟨hinv, e1, e2, -, -, -⟩ := reached_invariant nx ny dx dt nu u_in calls
  have hz := reached_zeroOnRing nx ny dx dt nu u_in calls
  generalize reached nx ny dx dt nu u_in calls = s at hinv e1 e2 hz ⊢
  subst e1 e2
  have hr : onRing s i j := hring
  refine ⟨hz i j hi hj hr, fun k => ?_⟩
  have hb := pressureBuffers_zeroOnRing (preProject s) (preProject_wellFormed s hinv.1) hz k
  exact ⟨hb.1 i j hi hj hr, hb.2 i j hi hj hr⟩

/-- Instance of C20: cell `(2, 3)` of the 4 × 4 scenario after two steps, where
the interior pressure is not zero. -/
theorem pressure_zero_on_ring_witness :
    (reached 4 4 1 (1 / 10) (1 / 50) 1 [Call.step, Call.step]).p.getD (idx 1 1 4) 0 ≠ 0 ∧
      (reached 4 4 1 (1 / 10) (1 / 50) 1 [Call.step, Call.step]).p.getD (idx 2 3 4) 0 = 0 :=
  ⟨by decide!,
    (pressure_zero_on_ring 4 4 1 (1 / 10) (1 / 50) 1 [Call.step, Call.step] 2 3
      (by decide) (by decide) (by decide)).1⟩

/-! ## Corners and weights of the back-trace -/

theorem getD_mem {α : Type} (l : List α) (k : Nat) (d : α) (h : k < l.length) :
    l.getD k d ∈ l := by
  rw [List.getD_eq_getElem?_getD, List.getElem?_eq_getElem h]
  exact List.getElem_mem h

/-- Floor of a value clamped into `[0, n]`. -/
theorem floor_toNat_clamped (n : Nat) (x : ℚ) :
    ((Int.floor (max 0 (min (n : ℚ) x))).toNat : ℚ) ≤ max 0 (min (n : ℚ) x) ∧
      max 0 (min (n : ℚ) x) < ((Int.floor (max 0 (min (n : ℚ) x))).toNat : ℚ) + 1 ∧
      (Int.floor (max 0 (min (n : ℚ) x))).toNat ≤ n := by
  have h0 : (0 : ℚ) ≤ max 0 (min (n : ℚ) x) := le_max_left _ _
  have hn : max 0 (min (n : ℚ) x) ≤ (n : ℚ) := max_le (Nat.cast_nonneg n) (min_le_left _ _)
  generalize max 0 (min (n : ℚ) x) = y at h0 hn
  have hf : 0 ≤ Int.floor y := Int.floor_nonneg.mpr h0
  have hc : ((Int.floor y).toNat : ℚ) = ((Int.floor y : ℤ) : ℚ) := by
    have h1 : (((Int.floor y).toNat : ℤ) : ℚ) = ((Int.floor y : ℤ) : ℚ) := by
      rw [Int.toNat_of_nonneg hf]
    rw [← h1, Int.cast_natCast]
  refine ⟨?_, ?_, ?_⟩
  · rw [hc]; exact Int.floor_le y
  · rw [hc]; exact Int.lt_floor_add_one y
  · have h2 : ((Int.floor y).toNat : ℚ) ≤ (n : ℚ) := by
      rw [hc]; exact le_trans (Int.floor_le y) hn
    exact_mod_cast h2

/-- The corners and weights of the back-traced sample: the corner indices stay
inside the grid and the weights lie in `[0, 1)`. -/
theorem advect_corners (s : FluidSimulator) (u0 v0 : List ℚ) (i j : Nat) :
    (cornerX0 s u0 i j ≤ cornerX1 s u0 i j ∧ cornerX1 s u0 i j ≤ s.nx - 1) ∧
      (cornerY0 s v0 i j ≤ cornerY1 s v0 i j ∧ cornerY1 s v0 i j ≤ s.ny - 1) ∧
      (0 ≤ weightX s u0 i j ∧ weightX s u0 i j < 1) ∧
      (0 ≤ weightY s v0 i j ∧ weightY s v0 i j < 1) := by
  have hx := floor_toNat_clamped (s.nx - 1)
    ((j : ℚ) - u0.getD (idx i j s.nx) 0 * (s.dt / s.dx))
  have hy := floor_toNat_clamped (s.ny - 1)
    ((i : ℚ) - v0.getD (idx i j s.nx) 0 * (s.dt / s.dx))
  have hx3 : cornerX0 s u0 i j ≤ s.nx - 1 := hx.2.2
  have hy3 : cornerY0 s v0 i j ≤ s.ny - 1 := hy.2.2
  have hx1 : (cornerX0 s u0 i j : ℚ) ≤ backX s u0 i j := hx.1
  have hx2 : backX s u0 i j < (cornerX0 s u0 i j : ℚ) + 1 := hx.2.1
  have hy1 : (cornerY0 s v0 i j : ℚ) ≤ backY s v0 i j := hy.1
  have hy2 : backY s v0 i j < (cornerY0 s v0 i j : ℚ) + 1 := hy.2.1
  refine ⟨⟨?_, ?_⟩, ⟨?_, ?_⟩, ⟨?_, ?_⟩, ⟨?_, ?_⟩⟩
  · unfold cornerX1; omega
  · unfold cornerX1; omega
  · unfold cornerY1; omega
  · unfold cornerY1; omega
  · unfold weightX; linarith
  · unfold weightX; linarith
  · unfold weightY; linarith
  · unfold weightY; linarith

/-- A combination of four values with non-negative weights of sum one stays
between any two bounds of the values. -/
theorem convex4_bounds (w1 w2 w3 w4 f1 f2 f3 f4 lo hi : ℚ)
    (h1 : 0 ≤ w1) (h2 : 0 ≤ w2) (h3 : 0 ≤ w3) (h4 : 0 ≤ w4) (hs : w1 + w2 + w3 + w4 = 1)
    (b1 : lo ≤ f1 ∧ f1 ≤ hi) (b2 : lo ≤ f2 ∧ f2 ≤ hi) (b3 : lo ≤ f3 ∧ f3 ≤ hi)
    (b4 : lo ≤ f4 ∧ f4 ≤ hi) :
    lo ≤ w1 * f1 + w2 * f2 + w3 * f3 + w4 * f4 ∧ w1 * f1 + w2 * f2 + w3 * f3 + w4 * f4 ≤ hi := by
  have e1 := mul_nonneg h1 (sub_nonneg.mpr b1.1)
  have e2 := mul_nonneg h2 (sub_nonneg.mpr b2.1)
  have e3 := mul_nonneg h3 (sub_nonneg.mpr b3.1)
  have e4 := mul_nonneg h4 (sub_nonneg.mpr b4.1)
  have g1 := mul_nonneg h1 (sub_nonneg.mpr b1.2)
  have g2 := mul_nonneg h2 (sub_nonneg.mpr b2.2)
  have g3 := mul_nonneg h3 (sub_nonneg.mpr b3.2)
  have g4 := mul_nonneg h4 (sub_nonneg.mpr b4.2)
  have el : (w1 + w2 + w3 + w4) * lo = lo := by rw [hs, one_mul]
  have eh : (w1 + w2 + w3 + w4) * hi = hi := by rw [hs, one_mul]
  constructor
  · nlinarith
  · nlinarith

/-- The five-point update with `r` in `[0, 1/4]` stays between any two bounds of
the values. -/
theorem convex5_bounds (r f a b c d lo hi : ℚ) (hr0 : 0 ≤ r) (hr4 : r ≤ 1 / 4)
    (bf : lo ≤ f ∧ f ≤ hi) (ba : lo ≤ a ∧ a ≤ hi) (bb : lo ≤ b ∧ b ≤ hi)
    (bc : lo ≤ c ∧ c ≤ hi) (bd : lo ≤ d ∧ d ≤ hi) :
    lo ≤ (1 - 4 * r) * f + r * (a + b + c + d) ∧
      (1 - 4 * r) * f + r * (a + b + c + d) ≤ hi := by
  have h0 : 0 ≤ 1 - 4 * r := by linarith
  have e0 := mul_nonneg h0 (sub_nonneg.mpr bf.1)
  have e1 := mul_nonneg hr0 (sub_nonneg.mpr ba.1)
  have e2 := mul_nonneg hr0 (sub_nonneg.mpr bb.1)
  have e3 := mul_nonneg hr0 (sub_nonneg.mpr bc.1)
  have e4 := mul_nonneg hr0 (sub_nonneg.mpr bd.1)
  have g0 := mul_nonneg h0 (sub_nonneg.mpr bf.2)
  have g1 := mul_nonneg hr0 (sub_nonneg.mpr ba.2)
  have g2 := mul_nonneg hr0 (sub_nonneg.mpr bb.2)
  have g3 := mul_nonneg hr0 (sub_nonneg.mpr bc.2)
  have g4 := mul_nonneg hr0 (sub_nonneg.mpr bd.2)
  constructor
  · nlinarith
  · nlinarith

/-! ## Velocity queries (C13, C14) -/

/-- C13 (bounds-checked magnitude query): on a simulator whose grids have
`nx * ny` cells, `getVelocityMagnitude i j` is `0` when `i ≥ ny` or `j ≥ nx`,
is `sqrt (u[idx(i,j)]² + v[idx(i,j)]²)` otherwise, and every subscript it
evaluates lies inside the vector it indexes; the function is total. -/
theorem getVelocityMagnitude_spec (sqrt : ℚ → ℚ) (s : FluidSimulator) (hwf : WellFormed s)
    (i j : Nat) :
    ((s.ny ≤ i ∨ s.nx ≤ j) → getVelocityMagnitude sqrt s i j = 0) ∧
      (i < s.ny → j < s.nx →
        getVelocityMagnitude sqrt s i j =
          sqrt ((s.u.getD (idx i j s.nx) 0) ^ 2 + (s.v.getD (idx i j s.nx) 0) ^ 2)) ∧
      (∀ a ∈ magnitudeAccesses s i j, a.2 < a.1) := by
  refine ⟨fun h => ?_, fun hi hj => ?_, fun a ha => ?_⟩
  · unfold getVelocityMagnitude
    rw [if_pos h]
  · unfold getVelocityMagnitude
    rw [if_neg (by omega), pow_two, pow_two]
  · unfold magnitudeAccesses at ha
    split at ha
    · exact absurd ha (List.not_mem_nil a)
    · rename_i hc
      have hk : idx i j s.nx < s.nx * s.ny := idx_lt (by omega) (by omega)
      simp only [List.mem_cons, List.mem_singleton, List.not_mem_nil, or_false] at ha
      rcases ha with rfl | rfl
      · show idx i j s.nx < s.u.length
        rw [hwf.1]; exact hk
      · show idx i j s.nx < s.v.length
        rw [hwf.2.1]; exact hk

/-- Instance of C13 on the 2 × 2 sample: row 5 is out of range. -/
theorem getVelocityMagnitude_spec_witness :
    WellFormed speedSample ∧ getVelocityMagnitude isqrt speedSample 5 0 = 0 ∧
      getVelocityMagnitude isqrt speedSample 1 0 = 10 :=
  ⟨by unfold WellFormed; decide!,
    (getVelocityMagnitude_spec isqrt speedSample (by unfold WellFormed; decide!) 5 0).1
      (Or.inl (by decide!)),
    by decide!⟩

/-- The subscripts of a counted loop are those of its iterations. -/
theorem mem_touchRange (lo hi : Nat) (touch : Nat → List Access) (a : Access) :
    a ∈ touchRange lo hi touch ↔ ∃ i, lo ≤ i ∧ i < hi ∧ a ∈ touch i := by
  unfold touchRange
  by_cases hle : lo ≤ hi
  · refine forRange_induct (fun k acc => a ∈ acc ↔ ∃ i, lo ≤ i ∧ i < k ∧ a ∈ touch i)
      lo hi _ [] hle ?_ ?_
    · constructor
      · intro h; exact absurd h (List.not_mem_nil a)
      · rintro ⟨i, h1, h2, -⟩; omega
    · intro k acc hk1 hk2 ih
      rw [List.mem_append, ih]
      constructor
      · rintro (⟨i, h1, h2, h3⟩ | h)
        · exact ⟨i, h1, Nat.lt_succ_of_lt h2, h3⟩
        · exact ⟨k, hk1, Nat.lt_succ_self k, h⟩
      · rintro ⟨i, h1, h2, h3⟩
        rcases Nat.lt_succ_iff_lt_or_eq.mp h2 with h | h
        · exact Or.inl ⟨i, h1, h, h3⟩
        · rw [h] at h3; exact Or.inr h3
  · rw [forRange_of_le _ _ _ _ (by omega)]
    constructor
    · intro h; exact absurd h (List.not_mem_nil a)
    · rintro ⟨i, h1, h2, -⟩; omega

/-- The subscripts of a nested loop are those of its cells. -/
theorem mem_touchRange2 (ilo ihi jlo jhi : Nat) (touch : Nat → Nat → List Access) (a : Access) :
    a ∈ touchRange ilo ihi (fun i => touchRange jlo jhi (fun j => touch i j)) ↔
      ∃ i j, ilo ≤ i ∧ i < ihi ∧ jlo ≤ j ∧ j < jhi ∧ a ∈ touch i j := by
  rw [mem_touchRange]
  constructor
  · rintro ⟨i, h1, h2, h3⟩
    obtain ⟨j, h4, h5, h6⟩ := (mem_touchRange _ _ _ _).mp h3
    exact ⟨i, j, h1, h2, h4, h5, h6⟩
  · rintro ⟨i, j, h1, h2, h4, h5, h6⟩
    exact ⟨i, h1, h2, (mem_touchRange _ _ _ _).mpr ⟨j, h4, h5, h6⟩⟩

/-- A cell of the grid, in a vector of `nx * ny` entries. -/
theorem safe_cell {nx ny len i j : Nat} (hlen : len = nx * ny) (hi : i < ny) (hj : j < nx) :
    Access.Safe nx ny (len, idx i j nx) :=
  ⟨hlen, idx_lt hi hj⟩

/-- The interior stencil stays inside the grid. -/
theorem laplacianAccesses_safe (field : List ℚ) (nx ny : Nat) (hlen : field.length = nx * ny)
    (a : Access) (ha : a ∈ laplacianAccesses field nx ny) : Access.Safe nx ny a := by
  obtain ⟨i, j, h1, h2, h3, h4, h⟩ := (mem_touchRange2 _ _ _ _ _ a).mp ha
  simp only [List.mem_cons, List.mem_singleton, List.not_mem_nil, or_false] at h
  rcases h with rfl | rfl | rfl | rfl | rfl | rfl
  · exact safe_cell hlen (by omega) (by omega)
  · exact safe_cell hlen (by omega) (by omega)
  · exact safe_cell hlen (by omega) (by omega)
  · exact safe_cell hlen (by omega) (by omega)
  · exact safe_cell hlen (by omega) (by omega)
  · exact safe_cell rfl (by omega) (by omega)

/-- The clamped corners of `advect` stay inside the grid. -/
theorem advectAccesses_safe (s : FluidSimulator) (field u0 v0 : List ℚ)
    (ho : s.obstacle.length = s.nx * s.ny) (hf : field.length = s.nx * s.ny)
    (hu : u0.length = s.nx * s.ny) (hv : v0.length = s.nx * s.ny)
    (a : Access) (ha : a ∈ advectAccesses s field u0 v0) : Access.Safe s.nx s.ny a := by
  obtain ⟨i, j, -, h2, -, h4, h⟩ := (mem_touchRange2 _ _ _ _ _ a).mp ha
  obtain ⟨⟨-, hx1⟩, ⟨-, hy1⟩, -, -⟩ := advect_corners s u0 v0 i j
  have hx0 : cornerX0 s u0 i j ≤ s.nx - 1 := by
    have := (advect_corners s u0 v0 i j).1.1; omega
  have hy0 : cornerY0 s v0 i j ≤ s.ny - 1 := by
    have := (advect_corners s u0 v0 i j).2.1.1; omega
  rw [List.mem_cons] at h
  rcases h with rfl | h
  · exact safe_cell ho h2 h4
  · split at h
    · exact absurd h (List.not_mem_nil a)
    · simp only [List.mem_cons, List.mem_singleton, List.not_mem_nil, or_false] at h
      rcases h with rfl | rfl | rfl | rfl | rfl | rfl | rfl
      · exact safe_cell hu h2 h4
      · exact safe_cell hv h2 h4
      · exact safe_cell hf (by omega) (by omega)
      · exact safe_cell hf (by omega) (by omega)
      · exact safe_cell hf (by omega) (by omega)
      · exact safe_cell hf (by omega) (by omega)
      · exact safe_cell rfl h2 h4

/-- The subscripts of `diffuse` stay inside the grid. -/
theorem diffuseAccesses_safe (s : FluidSimulator) (field : List ℚ)
    (hf : field.length = s.nx * s.ny) (a : Access) (ha : a ∈ diffuseAccesses s field) :
    Access.Safe s.nx s.ny a := by
  unfold diffuseAccesses at ha
  rcases List.mem_append.mp ha with h | h
  · exact laplacianAccesses_safe field s.nx s.ny hf a h
  · obtain ⟨i, j, -, h2, -, h4, h⟩ := (mem_touchRange2 _ _ _ _ _ a).mp h
    simp only [List.mem_cons, List.mem_singleton, List.not_mem_nil, or_false] at h
    rcases h with rfl | rfl
    · exact safe_cell hf h2 h4
    · exact safe_cell (laplacian_length _ _ _ _) h2 h4

/-- The subscripts of a Jacobi sweep stay inside the grid. -/
theorem sweepAccesses_safe (s : FluidSimulator) (plen pnewlen : Nat)
    (ho : s.obstacle.length = s.nx * s.ny) (hp : plen = s.nx * s.ny)
    (hq : pnewlen = s.nx * s.ny) (a : Access) (ha : a ∈ sweepAccesses s plen pnewlen) :
    Access.Safe s.nx s.ny a := by
  obtain ⟨i, j, h1, h2, h3, h4, h⟩ := (mem_touchRange2 _ _ _ _ _ a).mp ha
  rw [List.mem_cons] at h
  rcases h with rfl | h
  · exact safe_cell ho (by omega) (by omega)
  · split at h
    · simp only [List.mem_singleton] at h
      rw [h]
      exact safe_cell hq (by omega) (by omega)
    · simp only [List.mem_cons, List.mem_singleton, List.not_mem_nil, or_false] at h
      rcases h with rfl | rfl | rfl | rfl | rfl | rfl
      · exact safe_cell hp (by omega) (by omega)
      · exact safe_cell hp (by omega) (by omega)
      · exact safe_cell hp (by omega) (by omega)
      · exact safe_cell hp (by omega) (by omega)
      · exact safe_cell rfl (by omega) (by omega)
      · exact safe_cell hq (by omega) (by omega)

/-- The subscripts of the relaxation loop stay inside the grid. -/
theorem relaxAccesses_safe (s : FluidSimulator) (iters plen pnewlen : Nat)
    (ho : s.obstacle.length = s.nx * s.ny) (hp : plen = s.nx * s.ny)
    (hq : pnewlen = s.nx * s.ny) (a : Access) (ha : a ∈ relaxAccesses s iters plen pnewlen) :
    Access.Safe s.nx s.ny a := by
  induction iters generalizing plen pnewlen with
  | zero => exact absurd ha (List.not_mem_nil a)
  | succ k ih =>
    simp only [relaxAccesses] at ha
    rcases List.mem_append.mp ha with h | h
    · exact sweepAccesses_safe s plen pnewlen ho hp hq a h
    · exact ih pnewlen plen hq hp h

/-- The subscripts of `project` stay inside the grid. -/
theorem projectAccesses_safe (s : FluidSimulator) (hwf : WellFormed s) (hnx : 1 ≤ s.nx)
    (a : Access) (ha : a ∈ projectAccesses s) : Access.Safe s.nx s.ny a := by
  obtain ⟨hu, hv, hp, ho⟩ := hwf
  have hpl : (pressureBuffers s jacobiIters).1.length = s.nx * s.ny :=
    (relax_length s _ _ jacobiIters (s.p, List.replicate (s.nx * s.ny) 0) hp (by simp)).1
  unfold projectAccesses at ha
  simp only [List.mem_append] at ha
  rcases ha with (((h | h) | h) | h) | h
  · obtain ⟨i, j, h1, h2, h3, h4, h⟩ := (mem_touchRange2 _ _ _ _ _ a).mp h
    simp only [List.mem_cons, List.mem_singleton, List.not_mem_nil, or_false] at h
    rcases h with rfl | rfl | rfl | rfl | rfl
    · exact safe_cell hu (by omega) (by omega)
    · exact safe_cell hu (by omega) (by omega)
    · exact safe_cell hv (by omega) (by omega)
    · exact safe_cell hv (by omega) (by omega)
    · exact safe_cell rfl (by omega) (by omega)
  · exact relaxAccesses_safe s jacobiIters _ _ ho hp rfl a h
  · obtain ⟨i, j, h1, h2, h3, h4, h⟩ := (mem_touchRange2 _ _ _ _ _ a).mp h
    simp only [List.mem_cons, List.mem_singleton, List.not_mem_nil, or_false] at h
    rcases h with rfl | rfl | rfl | rfl | rfl | rfl
    · exact safe_cell hu (by omega) (by omega)
    · exact safe_cell hpl (by omega) (by omega)
    · exact safe_cell hpl (by omega) (by omega)
    · exact safe_cell hv (by omega) (by omega)
    · exact safe_cell hpl (by omega) (by omega)
    · exact safe_cell hpl (by omega) (by omega)
  · obtain ⟨i, -, h2, h⟩ := (mem_touchRange _ _ _ a).mp h
    simp only [List.mem_cons, List.mem_singleton, List.not_mem_nil, or_false] at h
    rcases h with rfl | rfl | rfl | rfl
    · exact safe_cell hu h2 (by omega)
    · exact safe_cell hu h2 (by omega)
    · exact safe_cell hv h2 (by omega)
    · exact safe_cell hv h2 (by omega)
  · obtain ⟨i, j, -, h2, -, h4, h⟩ := (mem_touchRange2 _ _ _ _ _ a).mp h
    rw [List.mem_cons] at h
    rcases h with rfl | h
    · exact safe_cell ho h2 h4
    · split at h
      · simp only [List.mem_cons, List.mem_singleton, List.not_mem_nil, or_false] at h
        rcases h with rfl | rfl
        · exact safe_cell hu h2 h4
        · exact safe_cell hv h2 h4
      · exact absurd h (List.not_mem_nil a)

/-- The subscripts of `step` stay inside the grid. -/
theorem stepAccesses_safe (s : FluidSimulator) (hwf : WellFormed s) (hnx : 1 ≤ s.nx)
    (a : Access) (ha : a ∈ stepAccesses s) : Access.Safe s.nx s.ny a := by
  obtain ⟨hu, hv, hp, ho⟩ := hwf
  unfold stepAccesses at ha
  simp only [List.mem_append] at ha
  rcases ha with (((h | h) | h) | h) | h
  · exact advectAccesses_safe { s with dt := clampedDt s } s.u s.u s.v ho hu hu hv a h
  · exact advectAccesses_safe { s with dt := clampedDt s } s.v s.u s.v ho hv hu hv a h
  · exact diffuseAccesses_safe { s with dt := clampedDt s } _ (advect_length _ _ _ _) a h
  · exact diffuseAccesses_safe { s with dt := clampedDt s } _ (advect_length _ _ _ _) a h
  · exact projectAccesses_safe (preProject s) (preProject_wellFormed s ⟨hu, hv, hp, ho⟩) hnx a h

/-- C17 (index safety of a step): on a simulator with `nx, ny ≥ 1` whose four
grids have `nx * ny` cells, whatever the velocity values, `dt` and `dx`, every
subscript evaluated during `step()` indexes a vector of `nx * ny` entries at an
offset below `nx * ny`; the corner indices of `advect` satisfy
`x0 ≤ x1 ≤ nx - 1` and `y0 ≤ y1 ≤ ny - 1`; the boundary writes of both columns
and the first mask read are among the recorded subscripts. -/
theorem step_index_safety (s : FluidSimulator) (hwf : WellFormed s) (hnx : 1 ≤ s.nx)
    (hny : 1 ≤ s.ny) :
    (∀ a ∈ stepAccesses s, a.1 = s.nx * s.ny ∧ a.2 < s.nx * s.ny) ∧
      (∀ (u0 v0 : List ℚ) (i j : Nat),
        (cornerX0 s u0 i j ≤ cornerX1 s u0 i j ∧ cornerX1 s u0 i j ≤ s.nx - 1) ∧
        (cornerY0 s v0 i j ≤ cornerY1 s v0 i j ∧ cornerY1 s v0 i j ≤ s.ny - 1)) ∧
      (∀ i, i < s.ny →
        ((preProject s).u.length, idx i 0 s.nx) ∈ stepAccesses s ∧
        ((preProject s).u.length, idx i (s.nx - 1) s.nx) ∈ stepAccesses s) ∧
      (s.obstacle.length, idx 0 0 s.nx) ∈ stepAccesses s := by
  refine ⟨fun a ha => stepAccesses_safe s hwf hnx a ha,
    fun u0 v0 i j => ⟨(advect_corners s u0 v0 i j).1, (advect_corners s u0 v0 i j).2.1⟩,
    fun i hi => ?_, ?_⟩
  · have hb : ∀ a, a ∈ [((preProject s).u.length, idx i 0 s.nx),
          ((preProject s).u.length, idx i (s.nx - 1) s.nx),
          ((preProject s).v.length, idx i 0 s.nx),
          ((preProject s).v.length, idx i (s.nx - 1) s.nx)] → a ∈ stepAccesses s := by
      intro a ha
      unfold stepAccesses projectAccesses
      simp only [List.mem_append]
      exact Or.inr (Or.inl (Or.inr
        ((mem_touchRange 0 (preProject s).ny _ a).mpr ⟨i, Nat.zero_le _, hi, ha⟩)))
    exact ⟨hb _ (List.mem_cons_self _ _),
      hb _ (List.mem_cons_of_mem _ (List.mem_cons_self _ _))⟩
  · unfold stepAccesses
    simp only [List.mem_append]
    exact Or.inl (Or.inl (Or.inl (Or.inl
      ((mem_touchRange2 0 s.ny 0 s.nx _ _).mpr
        ⟨0, 0, Nat.le_refl _, hny, Nat.le_refl _, hnx, List.mem_cons_self _ _⟩))))

/-- Instance of C17 on the 4 × 4 scenario: the last cell of the grid is
subscripted during the step, inside vectors of 16 entries. -/
theorem step_index_safety_witness :
    WellFormed scenario ∧ ((16, 15) : Access) ∈ stepAccesses scenario ∧
      ((16, 15) : Access).2 < scenario.nx * scenario.ny :=
  ⟨by unfold WellFormed; decide!, by decide!,
    ((step_index_safety scenario (by unfold WellFormed; decide!) (by decide!) (by decide!)).1
      (16, 15) (by decide!)).2⟩

/-! ## Rounding to the binary64 grid -/

theorem pow2_eq_zpow (z : ℤ) : pow2 z = (2 : ℚ) ^ z := by
  unfold pow2
  split
  · rename_i h
    obtain ⟨n, rfl⟩ := Int.eq_ofNat_of_zero_le h
    simp
  · rename_i h
    have h2 : 0 ≤ -z := by omega
    obtain ⟨n, hn⟩ := Int.eq_ofNat_of_zero_le h2
    have hz : z = -(n : ℤ) := by omega
    subst hz
    simp

theorem pow2_pos (z : ℤ) : 0 < pow2 z := by
  rw [pow2_eq_zpow]; positivity

theorem pow2_add (a b : ℤ) : pow2 (a + b) = pow2 a * pow2 b := by
  simp only [pow2_eq_zpow]
  exact zpow_add₀ (by norm_num) a b

theorem pow2_natCast (n : ℕ) : pow2 (n : ℤ) = ((2 ^ n : ℕ) : ℚ) := by
  rw [pow2_eq_zpow]; simp

theorem pow2_le_pow2 {a b : ℤ} (h : a ≤ b) : pow2 a ≤ pow2 b := by
  simp only [pow2_eq_zpow]
  exact zpow_le_zpow_right₀ (by norm_num) h

theorem log2Aux_eq (fuel n : ℕ) (h : n ≤ fuel) : log2Aux fuel n = Nat.log 2 n := by
  induction fuel generalizing n with
  | zero =>
    have : n = 0 := by omega
    subst this
    simp [log2Aux]
  | succ k ih =>
    unfold log2Aux
    split
    · rename_i h2
      rw [ih (n / 2) (by omega), Nat.log_of_one_lt_of_le (by norm_num) h2]
    · rename_i h2
      rw [Nat.log_of_lt (by omega)]

theorem natLog2_eq (n : ℕ) : natLog2 n = Nat.log 2 n := log2Aux_eq n n (le_refl _)

/-- The exponent brackets a positive rational between consecutive powers of two. -/
theorem expo_spec (a : ℚ) (ha : 0 < a) : pow2 (expo a) ≤ a ∧ a < pow2 (expo a + 1) := by
  have hnum : 0 < a.num := Rat.num_pos.mpr ha
  have hp : 0 < a.num.natAbs := Int.natAbs_pos.mpr (ne_of_gt hnum)
  have hd : 0 < a.den := a.den_pos
  have ea : a = (a.num.natAbs : ℚ) / (a.den : ℚ) := by
    have h1 : ((a.num.natAbs : ℤ) : ℚ) = (a.num : ℚ) := by
      rw [Int.natAbs_of_nonneg (le_of_lt hnum)]
    have h2 : (a.num.natAbs : ℚ) = (a.num : ℚ) := by
      rw [← h1, Int.cast_natCast]
    rw [h2]
    exact (Rat.num_div_den a).symm
  have lp1 := Nat.pow_log_le_self 2 (ne_of_gt hp)
  have lp2 := Nat.lt_pow_succ_log_self (by norm_num : 1 < 2) a.num.natAbs
  have ld1 := Nat.pow_log_le_self 2 (ne_of_gt hd)
  have ld2 := Nat.lt_pow_succ_log_self (by norm_num : 1 < 2) a.den
  have qp1 : ((2 : ℚ) ^ (Nat.log 2 a.num.natAbs)) ≤ (a.num.natAbs : ℚ) := by exact_mod_cast lp1
  have qp2 : (a.num.natAbs : ℚ) < (2 : ℚ) ^ (Nat.log 2 a.num.natAbs + 1) := by exact_mod_cast lp2
  have qd1 : ((2 : ℚ) ^ (Nat.log 2 a.den)) ≤ (a.den : ℚ) := by exact_mod_cast ld1
  have qd2 : (a.den : ℚ) < (2 : ℚ) ^ (Nat.log 2 a.den + 1) := by exact_mod_cast ld2
  have hdq : (0 : ℚ) < a.den := by exact_mod_cast hd
  have key : ∀ k : ℤ, pow2 k = (2 : ℚ) ^ k := pow2_eq_zpow
  unfold expo
  simp only [natLog2_eq]
  generalize hP : Nat.log 2 a.num.natAbs = P at *
  generalize hD : Nat.log 2 a.den = D at *
  have hup : a < pow2 ((P : ℤ) - (D : ℤ) + 1) := by
    rw [key, ea, div_lt_iff₀ hdq]
    calc (a.num.natAbs : ℚ) < (2 : ℚ) ^ (P + 1) := qp2
      _ = (2 : ℚ) ^ ((P : ℤ) - (D : ℤ) + 1) * (2 : ℚ) ^ D := by
        rw [← zpow_natCast, ← zpow_natCast, ← zpow_add₀ (by norm_num)]
        congr 1
        push_cast
        ring
      _ ≤ (2 : ℚ) ^ ((P : ℤ) - (D : ℤ) + 1) * (a.den : ℚ) :=
        mul_le_mul_of_nonneg_left qd1 (by positivity)
  have hlo : pow2 ((P : ℤ) - (D : ℤ) - 1) ≤ a := by
    rw [key, ea, le_div_iff₀ hdq]
    calc (2 : ℚ) ^ ((P : ℤ) - (D : ℤ) - 1) * (a.den : ℚ)
        ≤ (2 : ℚ) ^ ((P : ℤ) - (D : ℤ) - 1) * (2 : ℚ) ^ (D + 1) :=
          mul_le_mul_of_nonneg_left (le_of_lt qd2) (by positivity)
      _ = (2 : ℚ) ^ P := by
        rw [← zpow_natCast, ← zpow_natCast, ← zpow_add₀ (by norm_num)]
        congr 1
        push_cast
        ring
      _ ≤ (a.num.natAbs : ℚ) := qp1
  split
  · rename_i h
    exact ⟨h, hup⟩
  · rename_i h
    refine ⟨hlo, ?_⟩
    rw [show (P : ℤ) - (D : ℤ) - 1 + 1 = (P : ℤ) - (D : ℤ) by ring]
    exact not_le.mp h

/-- The exponent is determined by the bracket. -/
theorem expo_unique (a : ℚ) (k : ℤ) (h1 : pow2 k ≤ a) (h2 : a < pow2 (k + 1)) : expo a = k := by
  have ha : 0 < a := lt_of_lt_of_le (pow2_pos k) h1
  obtain ⟨e1, e2⟩ := expo_spec a ha
  have c1 : pow2 k < pow2 (expo a + 1) := lt_of_le_of_lt h1 e2
  have c2 : pow2 (expo a) < pow2 (k + 1) := lt_of_le_of_lt e1 h2
  have d1 : k < expo a + 1 := by
    by_contra hcon
    exact absurd c1 (not_lt.mpr (pow2_le_pow2 (not_lt.mp hcon)))
  have d2 : expo a < k + 1 := by
    by_contra hcon
    exact absurd c2 (not_lt.mpr (pow2_le_pow2 (not_lt.mp hcon)))
  omega

theorem rhe_intCast (n : ℤ) : rhe (n : ℚ) = n := by
  unfold rhe
  simp

theorem rhe_natCast (n : ℕ) : rhe (n : ℚ) = n := by
  have := rhe_intCast (n : ℤ)
  simpa using this

/-- The rounded integer is within one half. -/
theorem rhe_near (x : ℚ) : (rhe x : ℚ) - 1 / 2 ≤ x ∧ x ≤ (rhe x : ℚ) + 1 / 2 := by
  have h1 := Int.floor_le x
  have h2 := Int.lt_floor_add_one x
  unfold rhe
  dsimp only
  split
  · constructor <;> linarith
  · split
    · push_cast
      constructor <;> linarith
    · split
      · constructor <;> linarith
      · push_cast
        constructor <;> linarith

theorem rhe_nonneg (x : ℚ) (hx : 0 ≤ x) : 0 ≤ rhe x := by
  have hf : 0 ≤ Int.floor x := Int.floor_nonneg.mpr hx
  unfold rhe
  dsimp only
  split
  · exact hf
  · split
    · omega
    · split
      · exact hf
      · omega

/-- Rounding does not pass an integer bound. -/
theorem rhe_le_of_le (x : ℚ) (n : ℤ) (h : x ≤ n) : rhe x ≤ n := by
  by_contra hcon
  have h1 : n + 1 ≤ rhe x := by omega
  have h2 := (rhe_near x).1
  have h3 : ((n : ℚ) + 1) ≤ (rhe x : ℚ) := by exact_mod_cast h1
  -- x ≥ rhe x - 1/2 ≥ n + 1/2 > n
  linarith

theorem rndMag_zero : rndMag 0 = 0 := by
  unfold rndMag
  simp

theorem rndMag_nonneg (a : ℚ) (ha : 0 ≤ a) : 0 ≤ rndMag a := by
  unfold rndMag
  split
  · exact le_refl _
  · dsimp only
    have hu := pow2_pos (max (expo a) (-1022) - 52)
    have h1 : 0 ≤ rhe (a / pow2 (max (expo a) (-1022) - 52)) :=
      rhe_nonneg _ (div_nonneg ha (le_of_lt hu))
    have h2 : (0 : ℚ) ≤ (rhe (a / pow2 (max (expo a) (-1022) - 52)) : ℚ) := by exact_mod_cast h1
    exact mul_nonneg h2 (le_of_lt hu)

/-- The exponent of `m * 2^t` for a natural `m ≥ 1`. -/
theorem expo_nat_mul_pow2 (m : ℕ) (t : ℤ) (hm : 0 < m) :
    expo ((m : ℚ) * pow2 t) = (Nat.log 2 m : ℤ) + t := by
  have l1 := Nat.pow_log_le_self 2 (ne_of_gt hm)
  have l2 := Nat.lt_pow_succ_log_self (by norm_num : 1 < 2) m
  have q1 : (((2 ^ Nat.log 2 m : ℕ)) : ℚ) ≤ (m : ℚ) := by exact_mod_cast l1
  have q2 : (m : ℚ) < ((2 ^ (Nat.log 2 m + 1) : ℕ) : ℚ) := by exact_mod_cast l2
  apply expo_unique
  · rw [pow2_add, pow2_natCast]
    exact mul_le_mul_of_nonneg_right q1 (le_of_lt (pow2_pos t))
  · rw [show (Nat.log 2 m : ℤ) + t + 1 = ((Nat.log 2 m + 1 : ℕ) : ℤ) + t by push_cast; ring,
      pow2_add, pow2_natCast]
    exact mul_lt_mul_of_pos_right q2 (pow2_pos t)

/-- A value `m * 2^t` with `m < 2^53` and `t ≥ -1074` is on the grid. -/
theorem rndMag_fix (m : ℕ) (t : ℤ) (hm : m < 2 ^ 53) (ht : -1074 ≤ t) :
    rndMag ((m : ℚ) * pow2 t) = (m : ℚ) * pow2 t := by
  rcases Nat.eq_zero_or_pos m with h0 | hpos
  · subst h0
    simp [rndMag_zero]
  · have hne : (m : ℚ) * pow2 t ≠ 0 := by
      have : (0 : ℚ) < m := by exact_mod_cast hpos
      exact ne_of_gt (mul_pos this (pow2_pos t))
    have hl : Nat.log 2 m < 53 := Nat.log_lt_of_lt_pow (ne_of_gt hpos) hm
    unfold rndMag
    rw [if_neg hne]
    dsimp only
    rw [expo_nat_mul_pow2 m t hpos]
    generalize hE : max ((Nat.log 2 m : ℤ) + t) (-1022) - 52 = E
    have hn : 0 ≤ t - E := by
      rcases le_total ((Nat.log 2 m : ℤ) + t) (-1022) with h | h
      · rw [max_eq_right h] at hE; omega
      · rw [max_eq_left h] at hE; omega
    obtain ⟨n, hn2⟩ := Int.eq_ofNat_of_zero_le hn
    have hp : pow2 t = pow2 (n : ℤ) * pow2 E := by
      rw [← pow2_add]; congr 1; omega
    have hq : (m : ℚ) * pow2 t / pow2 E = ((m * 2 ^ n : ℕ) : ℚ) := by
      rw [hp, pow2_natCast]
      field_simp [ne_of_gt (pow2_pos E)]
      ring
    rw [hq, rhe_natCast, hp, pow2_natCast]
    push_cast
    ring

/-- A rounded magnitude is of the form `m * 2^t` with `m < 2^53` and
`t ≥ -1074`. -/
theorem rndMag_rep (a : ℚ) (ha : 0 ≤ a) :
    ∃ (m : ℕ) (t : ℤ), m < 2 ^ 53 ∧ -1074 ≤ t ∧ rndMag a = (m : ℚ) * pow2 t := by
  rcases eq_or_lt_of_le ha with h0 | hpos
  · refine ⟨0, 0, by norm_num, by norm_num, ?_⟩
    rw [← h0, rndMag_zero]; simp
  · have hne : a ≠ 0 := ne_of_gt hpos
    obtain ⟨e1, e2⟩ := expo_spec a hpos
    unfold rndMag
    rw [if_neg hne]
    dsimp only
    generalize hE : max (expo a) (-1022) = E
    have hE1 : expo a ≤ E := by rw [← hE]; exact le_max_left _ _
    have hE2 : -1022 ≤ E := by rw [← hE]; exact le_max_right _ _
    have hu := pow2_pos (E - 52)
    have hq : a / pow2 (E - 52) < ((2 ^ 53 : ℕ) : ℚ) := by
      rw [div_lt_iff₀ hu]
      have h53 : ((2 ^ 53 : ℕ) : ℚ) = pow2 ((53 : ℕ) : ℤ) := (pow2_natCast 53).symm
      rw [h53, ← pow2_add]
      calc a < pow2 (expo a + 1) := e2
        _ ≤ pow2 (((53 : ℕ) : ℤ) + (E - 52)) := pow2_le_pow2 (by push_cast; omega)
    have hr0 : 0 ≤ rhe (a / pow2 (E - 52)) := rhe_nonneg _ (div_nonneg ha (le_of_lt hu))
    have hr1 : rhe (a / pow2 (E - 52)) ≤ ((2 ^ 53 : ℕ) : ℤ) :=
      rhe_le_of_le _ _ (by push_cast; push_cast at hq; exact le_of_lt hq)
    obtain ⟨r, hr⟩ := Int.eq_ofNat_of_zero_le hr0
    rw [hr] at hr1 ⊢
    have hr2 : r ≤ 2 ^ 53 := by exact_mod_cast hr1
    rcases Nat.lt_or_ge r (2 ^ 53) with hlt | hge
    · exact ⟨r, E - 52, hlt, by omega, by push_cast; ring⟩
    · have hreq : r = 2 ^ 53 := le_antisymm hr2 hge
      refine ⟨2 ^ 52, E - 51, by norm_num, by omega, ?_⟩
      rw [hreq, show E - 51 = ((1 : ℕ) : ℤ) + (E - 52) by push_cast; ring, pow2_add, pow2_natCast]
      push_cast
      ring

theorem rndMag_idem (a : ℚ) (ha : 0 ≤ a) : rndMag (rndMag a) = rndMag a := by
  obtain ⟨m, t, hm, ht, h⟩ := rndMag_rep a ha
  rw [h, rndMag_fix m t hm ht]

/-- The magnitudes of finite doubles are the values `m * 2^t`, `m < 2^53`,
`t ≥ -1074`, below `2^1024`. -/
theorem isMag_iff (a : ℚ) :
    IsMag a ↔ ∃ (m : ℕ) (t : ℤ), m < 2 ^ 53 ∧ -1074 ≤ t ∧ a = (m : ℚ) * pow2 t ∧ a < pow2 1024 := by
  constructor
  · rintro ⟨h0, h1, h2⟩
    obtain ⟨m, t, hm, ht, h⟩ := rndMag_rep a h0
    exact ⟨m, t, hm, ht, by rw [← h, h1], h2⟩
  · rintro ⟨m, t, hm, ht, h, h2⟩
    refine ⟨?_, ?_, h2⟩
    · rw [h]
      exact mul_nonneg (Nat.cast_nonneg m) (le_of_lt (pow2_pos t))
    · rw [h, rndMag_fix m t hm ht]

/-- Natural numbers up to `2^53` convert to `double` exactly. -/
theorem rndMag_natCast (n : ℕ) (hn : n ≤ 2 ^ 53) : rndMag (n : ℚ) = n := by
  rcases Nat.lt_or_ge n (2 ^ 53) with h | h
  · have := rndMag_fix n 0 h (by norm_num)
    have e : pow2 0 = 1 := by decide!
    rw [e, mul_one] at this
    exact this
  · have hn2 : n = 2 ^ 53 := le_antisymm hn h
    have := rndMag_fix (2 ^ 52) 1 (by norm_num) (by norm_num)
    have e : pow2 1 = 2 := by decide!
    rw [e] at this
    rw [hn2]
    have e2 : ((2 ^ 53 : ℕ) : ℚ) = ((2 ^ 52 : ℕ) : ℚ) * 2 := by norm_num
    rw [e2]
    exact this

/-! ## Facts about the binary64 operations -/

theorem pow2_1024_pos_nat (n : ℕ) (hn : n ≤ 2 ^ 53) : ¬ pow2 1024 ≤ (n : ℚ) := by
  have h1 : (n : ℚ) ≤ ((2 ^ 53 : ℕ) : ℚ) := by exact_mod_cast hn
  have h2 : ((2 ^ 53 : ℕ) : ℚ) < pow2 1024 := by decide!
  exact not_le.mpr (lt_of_le_of_lt h1 h2)

theorem Dbl.round_zero (neg : Bool) : Dbl.round neg 0 = Dbl.fin neg 0 := by
  unfold Dbl.round
  rw [rndMag_zero, if_neg (not_le.mpr (pow2_pos 1024))]

/-- Rounding a magnitude that is already a double's. -/
theorem Dbl.round_isMag (neg : Bool) (a : ℚ) (h : IsMag a) : Dbl.round neg a = Dbl.fin neg a := by
  unfold Dbl.round
  rw [h.2.1, if_neg (not_le.mpr h.2.2)]

theorem isMag_zero : IsMag 0 := by decide!

theorem isMag_natCast (n : ℕ) (hn : n ≤ 2 ^ 53) : IsMag (n : ℚ) :=
  ⟨Nat.cast_nonneg n, rndMag_natCast n hn, not_le.mp (pow2_1024_pos_nat n hn)⟩

theorem Dbl.ofNat_eq (n : ℕ) (hn : n ≤ 2 ^ 53) : Dbl.ofNat n = Dbl.fin false (n : ℚ) :=
  Dbl.round_isMag false _ (isMag_natCast n hn)

/-- A zero times a finite value is a zero. -/
theorem Dbl.mul_zero_fin (n1 n2 : Bool) (a : ℚ) :
    Dbl.mul (Dbl.fin n1 0) (Dbl.fin n2 a) = Dbl.fin (xor n1 n2) 0 := by
  show Dbl.round (xor n1 n2) (0 * a) = _
  rw [zero_mul, Dbl.round_zero]

theorem Dbl.fin_mul_zero (n1 n2 : Bool) (a : ℚ) :
    Dbl.mul (Dbl.fin n1 a) (Dbl.fin n2 0) = Dbl.fin (xor n1 n2) 0 := by
  show Dbl.round (xor n1 n2) (a * 0) = _
  rw [mul_zero, Dbl.round_zero]

/-- One times a double is that double. -/
theorem Dbl.one_mul_isMag (n : Bool) (a : ℚ) (h : IsMag a) :
    Dbl.mul Dbl.one (Dbl.fin n a) = Dbl.fin n a := by
  show Dbl.round (xor false n) (1 * a) = _
  rw [one_mul, Bool.false_xor]
  exact Dbl.round_isMag n a h

/-- Adding a zero to a non-zero double leaves it unchanged. -/
theorem Dbl.add_zero_of_pos (n nz : Bool) (a : ℚ) (h : IsMag a) (ha : a ≠ 0) :
    Dbl.add (Dbl.fin n a) (Dbl.fin nz 0) = Dbl.fin n a := by
  have hpos : 0 < a := lt_of_le_of_ne h.1 (Ne.symm ha)
  unfold Dbl.add
  simp only [Dbl.val]
  cases n <;> cases nz <;> simp [ha, hpos, le_of_lt hpos, abs_of_pos hpos, Dbl.round_isMag _ a h]

/-- Adding a zero to a zero gives a zero. -/
theorem Dbl.zero_add_zero (n nz : Bool) :
    Dbl.add (Dbl.fin n 0) (Dbl.fin nz 0) = Dbl.fin (n && nz) 0 := by
  unfold Dbl.add
  simp only [Dbl.val]
  cases n <;> cases nz <;> simp

/-- Adding a zero keeps the value, the finiteness and the representability. -/
theorem Dbl.add_zero_val (n nz : Bool) (a : ℚ) (h : IsMag a) :
    ∃ n2, Dbl.add (Dbl.fin n a) (Dbl.fin nz 0) = Dbl.fin n2 a := by
  by_cases ha : a = 0
  · subst ha
    exact ⟨n && nz, Dbl.zero_add_zero n nz⟩
  · exact ⟨n, Dbl.add_zero_of_pos n nz a h ha⟩

theorem Dbl.eq_fin_same_mag (n1 n2 : Bool) (a : ℚ) (h : n1 = n2 ∨ a = 0) :
    Dbl.eq (Dbl.fin n1 a) (Dbl.fin n2 a) = true := by
  unfold Dbl.eq Dbl.val
  rcases h with h | h
  · subst h; simp
  · subst h; cases n1 <;> cases n2 <;> simp

/-! ## Time step with zero viscosity (C6) -/

/-- The square `dx * dx` is NaN, `+inf` or a finite value of positive sign. -/
theorem Dbl.mul_self_cases (x : Dbl) :
    Dbl.mul x x = Dbl.nan ∨ Dbl.mul x x = Dbl.inf false ∨
      ∃ r, Dbl.mul x x = Dbl.fin false r := by
  cases x with
  | nan => left; rfl
  | inf n => right; left; show Dbl.inf (xor n n) = _; simp
  | fin n a =>
    right
    show Dbl.round (xor n n) (a * a) = _ ∨ ∃ r, Dbl.round (xor n n) (a * a) = Dbl.fin false r
    rw [Bool.xor_self]
    unfold Dbl.round
    split
    · left; rfl
    · right; exact ⟨_, rfl⟩

/-- The bound `dx * dx / (4.0 * nu)` for `nu = +0.0` is `+inf` or NaN, and no
`dt` exceeds it. -/
theorem clampedDt_posZero_f64 (s : F64.FluidSimulator) (hnu : s.nu = Dbl.fin false 0) :
    F64.clampedDt s = s.dt := by
  unfold F64.clampedDt
  dsimp only
  rw [hnu, Dbl.fin_mul_zero]
  rcases Dbl.mul_self_cases s.dx with h | h | ⟨r, h⟩
  · rw [h]
    have e : Dbl.div Dbl.nan (Dbl.fin (xor false false) 0) = Dbl.nan := rfl
    rw [e]
    have e2 : Dbl.lt Dbl.nan s.dt = false := by cases s.dt <;> rfl
    rw [e2]; rfl
  · rw [h]
    have e : Dbl.div (Dbl.inf false) (Dbl.fin (xor false false) 0) = Dbl.inf false := rfl
    rw [e]
    have e2 : Dbl.lt (Dbl.inf false) s.dt = false := by cases s.dt <;> rfl
    rw [e2]; rfl
  · rw [h]
    have e : Dbl.div (Dbl.fin false r) (Dbl.fin (xor false false) 0) =
        if r = 0 then Dbl.nan else Dbl.inf false := by
      simp [Dbl.div]
    rw [e]
    split
    · have e2 : Dbl.lt Dbl.nan s.dt = false := by cases s.dt <;> rfl
      rw [e2]; rfl
    · have e2 : Dbl.lt (Dbl.inf false) s.dt = false := by cases s.dt <;> rfl
      rw [e2]; rfl

theorem step_dt_f64 (s : F64.FluidSimulator) : (F64.step s).dt = F64.clampedDt s := rfl

/-- With `nu = -0.0` the bound is `-inf` unless `dx * dx` is zero or NaN. -/
theorem clampedDt_negZero_f64 (s : F64.FluidSimulator) (hnu : s.nu = Dbl.fin true 0)
    (hnan : (Dbl.mul s.dx s.dx).isNaN = false) (hz : (Dbl.mul s.dx s.dx).isZero = false)
    (hdt : s.dt.isNaN = false) : F64.clampedDt s = Dbl.inf true := by
  unfold F64.clampedDt
  dsimp only
  rw [hnu, Dbl.fin_mul_zero]
  rcases Dbl.mul_self_cases s.dx with h | h | ⟨r, h⟩
  · rw [h] at hnan; exact absurd hnan (by decide)
  · rw [h]
    have e : Dbl.div (Dbl.inf false) (Dbl.fin (xor false true) 0) = Dbl.inf true := rfl
    rw [e]
    cases hd : s.dt with
    | nan => rw [hd] at hdt; exact absurd hdt (by decide)
    | inf n => cases n <;> rfl
    | fin n a => rfl
  · rw [h] at hz ⊢
    have hr : r ≠ 0 := by simpa [Dbl.isZero] using hz
    have e : Dbl.div (Dbl.fin false r) (Dbl.fin (xor false true) 0) = Dbl.inf true := by
      simp [Dbl.div, hr]
    rw [e]
    cases hd : s.dt with
    | nan => rw [hd] at hdt; exact absurd hdt (by decide)
    | inf n => cases n <;> rfl
    | fin n a => rfl

/-- With `nu = -0.0` and `dx * dx` zero or NaN, or `dt` NaN, `dt` is kept. -/
theorem clampedDt_negZero_keep_f64 (s : F64.FluidSimulator) (hnu : s.nu = Dbl.fin true 0)
    (h : (Dbl.mul s.dx s.dx).isNaN = true ∨ (Dbl.mul s.dx s.dx).isZero = true ∨
      s.dt.isNaN = true) : F64.clampedDt s = s.dt := by
  unfold F64.clampedDt
  dsimp only
  rw [hnu, Dbl.fin_mul_zero]
  have key : ∀ m : Dbl, (m = Dbl.nan ∨ s.dt.isNaN = true) →
      (if Dbl.lt m s.dt = true then m else s.dt) = s.dt := by
    intro m hm
    rcases hm with hm | hm
    · subst hm
      have e2 : Dbl.lt Dbl.nan s.dt = false := by cases s.dt <;> rfl
      rw [e2]; rfl
    · have e2 : Dbl.lt m s.dt = false := by
        cases hd : s.dt with
        | nan => cases m <;> rfl
        | inf n => rw [hd] at hm; exact absurd hm (by simp [Dbl.isNaN])
        | fin n a => rw [hd] at hm; exact absurd hm (by simp [Dbl.isNaN])
      rw [e2]; rfl
  apply key
  rcases h with h | h | h
  · left
    cases hm : Dbl.mul s.dx s.dx with
    | nan => rfl
    | inf n => rw [hm] at h; exact absurd h (by simp [Dbl.isNaN])
    | fin n a => rw [hm] at h; exact absurd h (by simp [Dbl.isNaN])
  · left
    cases hm : Dbl.mul s.dx s.dx with
    | nan => rfl
    | inf n => rw [hm] at h; exact absurd h (by simp [Dbl.isZero])
    | fin n a =>
      rw [hm] at h
      have ha : a = 0 := by simpa [Dbl.isZero] using h
      subst ha
      simp [Dbl.div]
  · right; exact h

/-- C6, as stated, fails: with `nu = -0.0`, `dx = 1` and `dt = 0.125` the bound
`dx * dx / (4.0 * nu)` is `-inf`, `dt > max_dt` holds and `step()` stores
`dt = -inf`. -/
theorem zero_viscosity_counterexample :
    (F64.construct 2 2 Dbl.one (Dbl.ofRat (1 / 8)) (Dbl.fin true 0) Dbl.one).nu.isZero = true ∧
      (F64.step (F64.construct 2 2 Dbl.one (Dbl.ofRat (1 / 8)) (Dbl.fin true 0) Dbl.one)).dt =
        Dbl.inf true ∧
      (F64.construct 2 2 Dbl.one (Dbl.ofRat (1 / 8)) (Dbl.fin true 0) Dbl.one).dt =
        Dbl.fin false (1 / 8) := by
  decide!

/-- C6 (amended): `step()` has no branch for `nu = 0`; it always evaluates
`max_dt = dx * dx / (4.0 * nu)` and compares.  For a zero `nu` the stored `dt`
after `step()` is the stored `dt` before it when `nu` is `+0.0` (the quotient is
`+inf` or NaN), and also when `dx * dx` is zero or NaN or `dt` is NaN (the
comparison `dt > max_dt` is false); in the remaining case, `nu = -0.0`, the
quotient is `-inf` and `step()` stores `dt = -inf`. -/
theorem zero_viscosity_dt (s : F64.FluidSimulator) (hnu : s.nu.isZero = true) :
    (F64.step s).dt =
      if s.nu = Dbl.fin false 0 ∨ (Dbl.mul s.dx s.dx).isNaN = true ∨
          (Dbl.mul s.dx s.dx).isZero = true ∨ s.dt.isNaN = true
      then s.dt else Dbl.inf true := by
  rw [step_dt_f64]
  split
  · rename_i h
    rcases h with h | h
    · exact clampedDt_posZero_f64 s h
    · by_cases hp : s.nu = Dbl.fin false 0
      · exact clampedDt_posZero_f64 s hp
      · have hneg : s.nu = Dbl.fin true 0 := by
          cases hn : s.nu with
          | nan => rw [hn] at hnu; exact absurd hnu (by decide)
          | inf n => rw [hn] at hnu; exact absurd hnu (by simp [Dbl.isZero])
          | fin n a =>
            rw [hn] at hnu hp
            have ha : a = 0 := by simpa [Dbl.isZero] using hnu
            subst ha
            cases n
            · exact absurd rfl hp
            · rfl
        exact clampedDt_negZero_keep_f64 s hneg h
  · rename_i h
    simp only [not_or, Bool.not_eq_true] at h
    have hneg : s.nu = Dbl.fin true 0 := by
      cases hn : s.nu with
      | nan => rw [hn] at hnu; exact absurd hnu (by decide)
      | inf n => rw [hn] at hnu; exact absurd hnu (by simp [Dbl.isZero])
      | fin n a =>
        rw [hn] at hnu
        have hp := h.1
        rw [hn] at hp
        have ha : a = 0 := by simpa [Dbl.isZero] using hnu
        subst ha
        cases n
        · exact absurd rfl hp
        · rfl
    exact clampedDt_negZero_f64 s hneg h.2.1 h.2.2.1 h.2.2.2

/-- Instance of C6: `nu = +0.0`, `dx = 0`, `dt = 0.125` (the bound is NaN). -/
theorem zero_viscosity_dt_witness :
    (F64.construct 2 2 Dbl.zero (Dbl.ofRat (1 / 8)) (Dbl.fin false 0) Dbl.one).nu.isZero = true ∧
      (F64.step (F64.construct 2 2 Dbl.zero (Dbl.ofRat (1 / 8)) (Dbl.fin false 0) Dbl.one)).dt =
        Dbl.fin false (1 / 8) :=
  ⟨by decide!,
    (zero_viscosity_dt (F64.construct 2 2 Dbl.zero (Dbl.ofRat (1 / 8)) (Dbl.fin false 0) Dbl.one)
      (by decide!)).trans (by decide!)⟩

/-! ## The indexer in `size_t` arithmetic (C15) -/

theorem idxSizeT_eq {i j nx ny : Nat} (h : nx * ny ≤ 2 ^ 64) (hi : i < ny) (hj : j < nx) :
    idxSizeT i j nx = idx i j nx := by
  have hlt : idx i j nx < nx * ny := idx_lt hi hj
  unfold idxSizeT
  unfold idx at hlt
  have h1 : i * nx < 2 ^ 64 := by omega
  rw [Nat.mod_eq_of_lt h1, Nat.mod_eq_of_lt (by omega)]
  rfl

/-- C15, as stated, fails: on a grid of `2^32` columns and `2^32 + 1` rows the
product `row * nx` wraps, and the cells `(2^32, 5)` and `(0, 5)` receive the
same offset `5`. -/
theorem idx_bijective_counterexample :
    (2 ^ 32 < 2 ^ 32 + 1 ∧ 0 < 2 ^ 32 + 1 ∧ 5 < 2 ^ 32) ∧
      idxSizeT (2 ^ 32) 5 (2 ^ 32) = idxSizeT 0 5 (2 ^ 32) ∧ (2 ^ 32 : Nat) ≠ 0 := by
  decide

/-- C15 (amended): for every `nx`, `ny` with `nx * ny ≤ 2^64` (the offsets of the
grid fit in `size_t`), the value the source computes for a cell `0 ≤ row < ny`,
`0 ≤ column < nx` is `row * nx + column` without wrap-around, the map is
injective on these cells, its values lie below `nx * ny`, and every offset below
`nx * ny` is reached. -/
theorem idxSizeT_bijective (nx ny : Nat) (h : nx * ny ≤ 2 ^ 64) :
    (∀ i j, i < ny → j < nx → idxSizeT i j nx = i * nx + j) ∧
      (∀ i j i2 j2, i < ny → j < nx → i2 < ny → j2 < nx →
        idxSizeT i j nx = idxSizeT i2 j2 nx → i = i2 ∧ j = j2) ∧
      (∀ i j, i < ny → j < nx → idxSizeT i j nx < nx * ny) ∧
      (∀ k, k < nx * ny → ∃ i j, i < ny ∧ j < nx ∧ idxSizeT i j nx = k) := by
  refine ⟨fun i j hi hj => idxSizeT_eq h hi hj, fun i j i2 j2 hi hj hi2 hj2 he => ?_,
    fun i j hi hj => ?_, fun k hk => ?_⟩
  · rw [idxSizeT_eq h hi hj, idxSizeT_eq h hi2 hj2] at he
    exact idx_inj hj hj2 he
  · rw [idxSizeT_eq h hi hj]; exact idx_lt hi hj
  · have hs := idx_surj hk
    exact ⟨k / nx, k % nx, hs.1, hs.2.1, by rw [idxSizeT_eq h hs.1 hs.2.1]; exact hs.2.2⟩

/-- Instance of C15 on a 4 × 3 grid: the cell `(2, 3)` has offset `11`. -/
theorem idxSizeT_bijective_witness :
    4 * 3 ≤ 2 ^ 64 ∧ idxSizeT 2 3 4 = 2 * 4 + 3 :=
  ⟨by decide, (idxSizeT_bijective 4 3 (by decide)).1 2 3 (by decide) (by decide)⟩

/-! ## The binary64 operations, cell by cell -/

theorem laplacian_cells_f64 (field : List Dbl) (nx ny : Nat) (dx : Dbl) (i j : Nat)
    (hj : j < nx) :
    (F64.laplacian field nx ny dx).getD (idx i j nx) Dbl.zero =
      if 1 ≤ i ∧ i < ny - 1 ∧ 1 ≤ j ∧ j < nx - 1 then
        Dbl.div
          (Dbl.sub
            (Dbl.add
              (Dbl.add
                (Dbl.add (field.getD (idx (i - 1) j nx) Dbl.zero)
                  (field.getD (idx (i + 1) j nx) Dbl.zero))
                (field.getD (idx i (j - 1) nx) Dbl.zero))
              (field.getD (idx i (j + 1) nx) Dbl.zero))
            (Dbl.mul (Dbl.fin false 4) (field.getD (idx i j nx) Dbl.zero)))
          (Dbl.mul dx dx)
      else Dbl.zero := by
  have h := forRange2_cells Dbl.zero nx ny 1 (ny - 1) 1 (nx - 1)
    (fun i j lap => lap.set (idx i j nx)
      (Dbl.div
        (Dbl.sub
          (Dbl.add
            (Dbl.add
              (Dbl.add (field.getD (idx (i - 1) j nx) Dbl.zero)
                (field.getD (idx (i + 1) j nx) Dbl.zero))
              (field.getD (idx i (j - 1) nx) Dbl.zero))
            (field.getD (idx i (j + 1) nx) Dbl.zero))
          (Dbl.mul (Dbl.fin false 4) (field.getD (idx i j nx) Dbl.zero)))
        (Dbl.mul dx dx)))
    (fun i j _ =>
      Dbl.div
        (Dbl.sub
          (Dbl.add
            (Dbl.add
              (Dbl.add (field.getD (idx (i - 1) j nx) Dbl.zero)
                (field.getD (idx (i + 1) j nx) Dbl.zero))
              (field.getD (idx i (j - 1) nx) Dbl.zero))
            (field.getD (idx i (j + 1) nx) Dbl.zero))
          (Dbl.mul (Dbl.fin false 4) (field.getD (idx i j nx) Dbl.zero)))
        (Dbl.mul dx dx))
    (List.replicate (nx * ny) Dbl.zero) (Nat.sub_le _ _) (Nat.sub_le _ _) (by simp)
    (fun i j g => List.length_set _ _ _)
    (fun i j g hi hj hg => getD_set_eq _ _ _ _ (by rw [hg]; exact idx_lt hi hj))
    (fun i j g m hm => getD_set_ne _ _ _ _ _ hm)
  have h2 := h.2 i j hj
  rw [getD_replicate] at h2
  exact h2

theorem advect_cells_f64 (s : F64.FluidSimulator) (field u0 v0 : List Dbl) (i j : Nat)
    (hi : i < s.ny) (hj : j < s.nx) :
    (F64.advect s field u0 v0).getD (idx i j s.nx) Dbl.zero =
      if s.obstacle.getD (idx i j s.nx) false then Dbl.zero
      else F64.advectCell s field u0 v0 i j := by
  have h := forRange2_cells Dbl.zero s.nx s.ny 0 s.ny 0 s.nx
    (fun i j advected => if s.obstacle.getD (idx i j s.nx) false = true then advected
      else advected.set (idx i j s.nx) (F64.advectCell s field u0 v0 i j))
    (fun i j x => if s.obstacle.getD (idx i j s.nx) false then x
      else F64.advectCell s field u0 v0 i j)
    (List.replicate (s.nx * s.ny) Dbl.zero) (le_refl _) (le_refl _) (by simp)
    (fun i j g => by dsimp only; split <;> simp)
    (fun i j g hi hj hg => by
      dsimp only
      split
      · rfl
      · rw [getD_set_eq _ _ _ _ (by rw [hg]; exact idx_lt hi hj)])
    (fun i j g m hm => by
      dsimp only
      split
      · rfl
      · rw [getD_set_ne _ _ _ _ _ hm])
  have h2 := h.2 i j hj
  rw [getD_replicate, if_pos ⟨Nat.zero_le _, hi, Nat.zero_le _, hj⟩] at h2
  exact h2

theorem diffuse_cells_f64 (s : F64.FluidSimulator) (field : List Dbl)
    (hlen : field.length = s.nx * s.ny) (i j : Nat) (hi : i < s.ny) (hj : j < s.nx) :
    (F64.diffuse s field).getD (idx i j s.nx) Dbl.zero =
      Dbl.add (field.getD (idx i j s.nx) Dbl.zero)
        (Dbl.mul (Dbl.mul s.nu s.dt)
          ((F64.laplacian field s.nx s.ny s.dx).getD (idx i j s.nx) Dbl.zero)) := by
  have h := forRange2_cells Dbl.zero s.nx s.ny 0 s.ny 0 s.nx
    (fun i j result => result.set (idx i j s.nx)
      (Dbl.add (result.getD (idx i j s.nx) Dbl.zero)
        (Dbl.mul (Dbl.mul s.nu s.dt)
          ((F64.laplacian field s.nx s.ny s.dx).getD (idx i j s.nx) Dbl.zero))))
    (fun i j x => Dbl.add x
      (Dbl.mul (Dbl.mul s.nu s.dt)
        ((F64.laplacian field s.nx s.ny s.dx).getD (idx i j s.nx) Dbl.zero)))
    field (le_refl _) (le_refl _) hlen
    (fun i j g => List.length_set _ _ _)
    (fun i j g hi hj hg => getD_set_eq _ _ _ _ (by rw [hg]; exact idx_lt hi hj))
    (fun i j g m hm => getD_set_ne _ _ _ _ _ hm)
  have h2 := h.2 i j hj
  rw [if_pos ⟨Nat.zero_le _, hi, Nat.zero_le _, hj⟩] at h2
  exact h2

/-- A property of every entry and of the default value holds for every read. -/
theorem getD_all {α : Type} (P : α → Prop) (l : List α) (d : α) (hd : P d)
    (h : ∀ x ∈ l, P x) (k : Nat) : P (l.getD k d) := by
  by_cases hk : k < l.length
  · exact h _ (getD_mem l k d hk)
  · rw [List.getD_eq_default _ _ (not_lt.mp hk)]
    exact hd

/-! ## Advection with zero velocity (C8) -/

/-- Subtracting a zero from the double of a natural number. -/
theorem Dbl.natCast_sub_zero (j : ℕ) (hj : j ≤ 2 ^ 53) (n : Bool) :
    Dbl.sub (Dbl.fin false (j : ℚ)) (Dbl.fin n 0) = Dbl.fin false (j : ℚ) := by
  show Dbl.add (Dbl.fin false (j : ℚ)) (Dbl.fin (!n) 0) = _
  by_cases h0 : (j : ℚ) = 0
  · rw [h0, Dbl.zero_add_zero]; rfl
  · exact Dbl.add_zero_of_pos false (!n) _ (isMag_natCast j hj) h0

/-- The clamp of lines 57–58 applied to the double of `j ≤ n`. -/
theorem Dbl.clamp_natCast (n j : ℕ) (hjn : j ≤ n) :
    Dbl.stdMax Dbl.zero (Dbl.stdMin (Dbl.fin false (n : ℚ)) (Dbl.fin false (j : ℚ))) =
      Dbl.fin false (j : ℚ) := by
  have h1 : Dbl.stdMin (Dbl.fin false (n : ℚ)) (Dbl.fin false (j : ℚ)) =
      Dbl.fin false (j : ℚ) := by
    unfold Dbl.stdMin Dbl.lt
    simp only [Dbl.val, Bool.false_eq_true, if_false]
    by_cases h : (j : ℚ) < (n : ℚ)
    · simp [h]
    · have : j = n := by
        have h2 : ¬ j < n := by exact_mod_cast h
        omega
      subst this
      simp
  rw [h1]
  unfold Dbl.stdMax Dbl.lt Dbl.zero
  simp only [Dbl.val, Bool.false_eq_true, if_false]
  by_cases h : (0 : ℚ) < (j : ℚ)
  · simp [h]
  · have : j = 0 := by
      have h2 : ¬ 0 < j := by exact_mod_cast h
      omega
    subst this
    simp

theorem Dbl.toSizeT_floor_natCast (j : ℕ) :
    Dbl.toSizeT (Dbl.floor (Dbl.fin false (j : ℚ))) = j := by
  unfold Dbl.floor Dbl.toSizeT
  simp [Dbl.val]

theorem Dbl.sub_self_natCast (j : ℕ) :
    Dbl.sub (Dbl.fin false (j : ℚ)) (Dbl.fin false (j : ℚ)) = Dbl.zero := by
  show Dbl.add (Dbl.fin false (j : ℚ)) (Dbl.fin true (j : ℚ)) = _
  unfold Dbl.add
  simp [Dbl.val, Dbl.zero]

/-- The back-traced coordinate of index `j ≤ n - 1` when the velocity read is a
zero and `dt / dx` is finite: the coordinate is `j` itself. -/
theorem Dbl.back_zero (n j : ℕ) (hn : n ≤ 2 ^ 53) (hj : j < n) (w q : Dbl)
    (hw : w.isZero = true) (hq : q.isFinite = true) :
    Dbl.stdMax Dbl.zero
      (Dbl.stdMin (Dbl.ofNat (n - 1)) (Dbl.sub (Dbl.ofNat j) (Dbl.mul w q))) =
      Dbl.fin false (j : ℚ) := by
  cases w with
  | nan => exact absurd hw (by decide)
  | inf m => exact absurd hw (by simp [Dbl.isZero])
  | fin nw aw =>
    have ha : aw = 0 := by simpa [Dbl.isZero] using hw
    subst ha
    cases q with
    | nan => exact absurd hq (by decide)
    | inf m => exact absurd hq (by simp [Dbl.isFinite])
    | fin nq aq =>
      rw [Dbl.mul_zero_fin, Dbl.ofNat_eq j (by omega), Dbl.ofNat_eq (n - 1) (by omega),
        Dbl.natCast_sub_zero j (by omega), Dbl.clamp_natCast (n - 1) j (by omega)]

theorem backX_zero_f64 (s : F64.FluidSimulator) (u0 : List Dbl) (i j : Nat)
    (hnx : s.nx ≤ 2 ^ 53) (hj : j < s.nx) (hq : (Dbl.div s.dt s.dx).isFinite = true)
    (hu : (u0.getD (idx i j s.nx) Dbl.zero).isZero = true) :
    F64.backX s u0 i j = Dbl.fin false (j : ℚ) :=
  Dbl.back_zero s.nx j hnx hj _ _ hu hq

theorem backY_zero_f64 (s : F64.FluidSimulator) (v0 : List Dbl) (i j : Nat)
    (hny : s.ny ≤ 2 ^ 53) (hi : i < s.ny) (hq : (Dbl.div s.dt s.dx).isFinite = true)
    (hv : (v0.getD (idx i j s.nx) Dbl.zero).isZero = true) :
    F64.backY s v0 i j = Dbl.fin false (i : ℚ) :=
  Dbl.back_zero s.ny i hny hi _ _ hv hq

/-- Three zeros added to a double: the magnitude is kept, and so is the sign
unless the double is itself a zero. -/
theorem Dbl.add_three_zeros (n z1 z2 z3 : Bool) (a : ℚ) (h : IsMag a) :
    ∃ n2, Dbl.add (Dbl.add (Dbl.add (Dbl.fin n a) (Dbl.fin z1 0)) (Dbl.fin z2 0))
        (Dbl.fin z3 0) = Dbl.fin n2 a ∧ (a ≠ 0 → n2 = n) := by
  by_cases ha : a = 0
  · subst ha
    rw [Dbl.zero_add_zero, Dbl.zero_add_zero, Dbl.zero_add_zero]
    exact ⟨_, rfl, fun h => absurd rfl h⟩
  · rw [Dbl.add_zero_of_pos n z1 a h ha, Dbl.add_zero_of_pos n z2 a h ha,
      Dbl.add_zero_of_pos n z3 a h ha]
    exact ⟨n, rfl, fun _ => rfl⟩

/-- The interpolation of lines 76–77 with both weights `+0.0`. -/
theorem Dbl.interp_zero_weights (f00 f10 f01 f11 : Dbl)
    (h00 : f00.isFinite = true ∧ f00.IsDouble) (h10 : f10.isFinite = true)
    (h01 : f01.isFinite = true) (h11 : f11.isFinite = true) :
    Dbl.eq
      (Dbl.add
        (Dbl.add
          (Dbl.add
            (Dbl.mul (Dbl.mul (Dbl.sub Dbl.one Dbl.zero) (Dbl.sub Dbl.one Dbl.zero)) f00)
            (Dbl.mul (Dbl.mul Dbl.zero (Dbl.sub Dbl.one Dbl.zero)) f10))
          (Dbl.mul (Dbl.mul (Dbl.sub Dbl.one Dbl.zero) Dbl.zero) f01))
        (Dbl.mul (Dbl.mul Dbl.zero Dbl.zero) f11)) f00 = true ∧
      (f00.isZero = false →
        Dbl.add
          (Dbl.add
            (Dbl.add
              (Dbl.mul (Dbl.mul (Dbl.sub Dbl.one Dbl.zero) (Dbl.sub Dbl.one Dbl.zero)) f00)
              (Dbl.mul (Dbl.mul Dbl.zero (Dbl.sub Dbl.one Dbl.zero)) f10))
            (Dbl.mul (Dbl.mul (Dbl.sub Dbl.one Dbl.zero) Dbl.zero) f01))
          (Dbl.mul (Dbl.mul Dbl.zero Dbl.zero) f11) = f00) := by
  have e1 : Dbl.sub Dbl.one Dbl.zero = Dbl.one := by decide!
  have e2 : Dbl.mul Dbl.one Dbl.one = Dbl.one := by decide!
  have e3 : Dbl.mul Dbl.zero Dbl.one = Dbl.fin false 0 := by decide!
  have e4 : Dbl.mul Dbl.one Dbl.zero = Dbl.fin false 0 := by decide!
  have e5 : Dbl.mul Dbl.zero Dbl.zero = Dbl.fin false 0 := by decide!
  rw [e1, e2, e3, e4, e5]
  cases f00 with
  | nan => exact absurd h00.1 (by decide)
  | inf m => exact absurd h00.1 (by simp [Dbl.isFinite])
  | fin n a =>
    cases f10 with
    | nan => exact absurd h10 (by decide)
    | inf m => exact absurd h10 (by simp [Dbl.isFinite])
    | fin n10 a10 =>
      cases f01 with
      | nan => exact absurd h01 (by decide)
      | inf m => exact absurd h01 (by simp [Dbl.isFinite])
      | fin n01 a01 =>
        cases f11 with
        | nan => exact absurd h11 (by decide)
        | inf m => exact absurd h11 (by simp [Dbl.isFinite])
        | fin n11 a11 =>
          have hm : IsMag a := h00.2
          rw [Dbl.one_mul_isMag n a hm, Dbl.mul_zero_fin, Dbl.mul_zero_fin, Dbl.mul_zero_fin]
          obtain ⟨n2, hn2, hs⟩ := Dbl.add_three_zeros n (xor false n10) (xor false n01)
            (xor false n11) a hm
          rw [hn2]
          refine ⟨?_, fun hz => ?_⟩
          · by_cases ha : a = 0
            · exact Dbl.eq_fin_same_mag _ _ _ (Or.inr ha)
            · exact Dbl.eq_fin_same_mag _ _ _ (Or.inl (hs ha))
          · have ha : a ≠ 0 := by simpa [Dbl.isZero] using hz
            rw [hs ha]

/-- The value `advect` stores in a cell whose reference velocity is zero, when
`dt / dx` is finite: the back-traced point is the cell itself, both weights are
`+0.0`, and the sum of the four products compares equal to the field value. -/
theorem advectCell_zero_velocity_f64 (s : F64.FluidSimulator) (field u0 v0 : List Dbl)
    (i j : Nat) (hnx : s.nx ≤ 2 ^ 53) (hny : s.ny ≤ 2 ^ 53) (hi : i < s.ny) (hj : j < s.nx)
    (hq : (Dbl.div s.dt s.dx).isFinite = true)
    (hf : ∀ x ∈ field, x.isFinite = true ∧ x.IsDouble)
    (hu : (u0.getD (idx i j s.nx) Dbl.zero).isZero = true)
    (hv : (v0.getD (idx i j s.nx) Dbl.zero).isZero = true) :
    Dbl.eq (F64.advectCell s field u0 v0 i j) (field.getD (idx i j s.nx) Dbl.zero) = true ∧
      ((field.getD (idx i j s.nx) Dbl.zero).isZero = false →
        F64.advectCell s field u0 v0 i j = field.getD (idx i j s.nx) Dbl.zero) := by
  have hx := backX_zero_f64 s u0 i j hnx hj hq hu
  have hy := backY_zero_f64 s v0 i j hny hi hq hv
  have hall : ∀ k, (field.getD k Dbl.zero).isFinite = true ∧ (field.getD k Dbl.zero).IsDouble :=
    getD_all (fun x => x.isFinite = true ∧ x.IsDouble) field Dbl.zero
      ⟨rfl, isMag_zero⟩ hf
  have hx0 : F64.cornerX0 s u0 i j = j := by
    unfold F64.cornerX0; rw [hx]; exact Dbl.toSizeT_floor_natCast j
  have hy0 : F64.cornerY0 s v0 i j = i := by
    unfold F64.cornerY0; rw [hy]; exact Dbl.toSizeT_floor_natCast i
  have hsx : F64.weightX s u0 i j = Dbl.zero := by
    unfold F64.weightX
    rw [hx, hx0, Dbl.ofNat_eq j (by omega)]
    exact Dbl.sub_self_natCast j
  have hsy : F64.weightY s v0 i j = Dbl.zero := by
    unfold F64.weightY
    rw [hy, hy0, Dbl.ofNat_eq i (by omega)]
    exact Dbl.sub_self_natCast i
  unfold F64.advectCell
  dsimp only
  rw [hsx, hsy, hx0, hy0]
  exact Dbl.interp_zero_weights _ _ _ _ (hall _) (hall _).1 (hall _).1 (hall _).1

/-- C8, as stated, fails: with `dx = 0` the quotient `dt / dx` is `+inf`, the
product `0 * inf` is NaN, the clamp of a NaN returns `nx - 1` and `ny - 1`, and
every cell receives the value of the last cell. -/
theorem advect_zero_velocity_counterexample :
    F64.advect (F64.construct 2 2 Dbl.zero (Dbl.ofRat (1 / 10)) (Dbl.ofRat (1 / 50)) Dbl.one)
        [Dbl.ofNat 5, Dbl.ofNat 6, Dbl.ofNat 7, Dbl.ofNat 8]
        (List.replicate 4 Dbl.zero) (List.replicate 4 Dbl.zero) =
      [Dbl.ofNat 8, Dbl.ofNat 8, Dbl.ofNat 8, Dbl.ofNat 8] := by
  decide!

/-- C8 (amended): for every `nx, ny ≥ 1` (at most `2^53`, so that every index
converts to `double` exactly), every `dt` and `dx` whose quotient `dt / dx` is
finite, every obstacle mask and every field of `nx * ny` finite values, if `u0`
and `v0` are zero everywhere then `advect(field, u0, v0)` compares equal to
`field` at every non-obstacle cell (it is the same double unless the field
value is `-0.0`) and is `0.0` at every obstacle cell. -/
theorem advect_zero_velocity_f64 (s : F64.FluidSimulator) (field u0 v0 : List Dbl)
    (hnx : s.nx ≤ 2 ^ 53) (hny : s.ny ≤ 2 ^ 53)
    (hq : (Dbl.div s.dt s.dx).isFinite = true)
    (hf : ∀ x ∈ field, x.isFinite = true ∧ x.IsDouble)
    (hu : ∀ k, (u0.getD k Dbl.zero).isZero = true)
    (hv : ∀ k, (v0.getD k Dbl.zero).isZero = true)
    (i j : Nat) (hi : i < s.ny) (hj : j < s.nx) :
    (s.obstacle.getD (idx i j s.nx) false = true →
        (F64.advect s field u0 v0).getD (idx i j s.nx) Dbl.zero = Dbl.zero) ∧
      (s.obstacle.getD (idx i j s.nx) false = false →
        Dbl.eq ((F64.advect s field u0 v0).getD (idx i j s.nx) Dbl.zero)
            (field.getD (idx i j s.nx) Dbl.zero) = true ∧
          ((field.getD (idx i j s.nx) Dbl.zero).isZero = false →
            (F64.advect s field u0 v0).getD (idx i j s.nx) Dbl.zero =
              field.getD (idx i j s.nx) Dbl.zero)) := by
  rw [advect_cells_f64 s field u0 v0 i j hi hj]
  refine ⟨fun h => by rw [if_pos h], fun h => ?_⟩
  rw [if_neg (by rw [h]; decide)]
  exact advectCell_zero_velocity_f64 s field u0 v0 i j hnx hny hi hj hq hf (hu _) (hv _)

/-- Instance of C8 on a 2 × 2 grid with `dt = 0.1`, `dx = 1`, cell `(1, 0)`. -/
theorem advect_zero_velocity_f64_witness :
    (Dbl.div (Dbl.ofRat (1 / 10)) Dbl.one).isFinite = true ∧
      Dbl.eq
        ((F64.advect (F64.construct 2 2 Dbl.one (Dbl.ofRat (1 / 10)) (Dbl.ofRat (1 / 50)) Dbl.one)
          [Dbl.ofNat 5, Dbl.ofNat 6, Dbl.ofNat 7, Dbl.ofNat 8]
          (List.replicate 4 Dbl.zero) (List.replicate 4 Dbl.zero)).getD (idx 1 0 2) Dbl.zero)
        (([Dbl.ofNat 5, Dbl.ofNat 6, Dbl.ofNat 7, Dbl.ofNat 8] : List Dbl).getD (idx 1 0 2)
          Dbl.zero) = true :=
  ⟨by decide!,
    ((advect_zero_velocity_f64
      (F64.construct 2 2 Dbl.one (Dbl.ofRat (1 / 10)) (Dbl.ofRat (1 / 50)) Dbl.one)
      [Dbl.ofNat 5, Dbl.ofNat 6, Dbl.ofNat 7, Dbl.ofNat 8]
      (List.replicate 4 Dbl.zero) (List.replicate 4 Dbl.zero)
      (by decide) (by decide) (by decide!) (by decide!)
      (fun k => by rw [getD_replicate]; rfl) (fun k => by rw [getD_replicate]; rfl)
      1 0 (by decide) (by decide)).2 (by decide!)).1⟩

/-! ## Diffusion with zero viscosity (C12) -/

/-- Adding the product of a zero with `l` to a finite double `f`: equal to `f`
when `l` is finite, NaN otherwise. -/
theorem Dbl.add_zero_mul (f z l : Dbl) (hf : f.isFinite = true ∧ f.IsDouble)
    (hz : z.isZero = true) :
    (l.isFinite = true →
        Dbl.eq (Dbl.add f (Dbl.mul z l)) f = true ∧
          (f.isZero = false → Dbl.add f (Dbl.mul z l) = f)) ∧
      (l.isFinite = false → Dbl.add f (Dbl.mul z l) = Dbl.nan) := by
  cases z with
  | nan => exact absurd hz (by decide)
  | inf m => exact absurd hz (by simp [Dbl.isZero])
  | fin nz az =>
    have ha : az = 0 := by simpa [Dbl.isZero] using hz
    subst ha
    cases f with
    | nan => exact absurd hf.1 (by decide)
    | inf m => exact absurd hf.1 (by simp [Dbl.isFinite])
    | fin n a =>
      have hm : IsMag a := hf.2
      cases l with
      | nan => exact ⟨fun h => absurd h (by decide), fun _ => rfl⟩
      | inf m =>
        refine ⟨fun h => absurd h (by simp [Dbl.isFinite]), fun _ => ?_⟩
        have e : Dbl.mul (Dbl.fin nz 0) (Dbl.inf m) = Dbl.nan := by simp [Dbl.mul]
        rw [e]; rfl
      | fin nl al =>
        refine ⟨fun _ => ?_, fun h => absurd h (by simp [Dbl.isFinite])⟩
        rw [Dbl.mul_zero_fin]
        by_cases h0 : a = 0
        · subst h0
          rw [Dbl.zero_add_zero]
          exact ⟨Dbl.eq_fin_same_mag _ _ _ (Or.inr rfl), fun hz2 => absurd hz2 (by simp [Dbl.isZero])⟩
        · rw [Dbl.add_zero_of_pos n _ a hm h0]
          exact ⟨Dbl.eq_fin_same_mag _ _ _ (Or.inl rfl), fun _ => rfl⟩

/-- The product of a zero with a finite value is a zero. -/
theorem Dbl.isZero_mul_finite (z d : Dbl) (hz : z.isZero = true) (hd : d.isFinite = true) :
    (Dbl.mul z d).isZero = true := by
  cases z with
  | nan => exact absurd hz (by decide)
  | inf m => exact absurd hz (by simp [Dbl.isZero])
  | fin nz az =>
    have ha : az = 0 := by simpa [Dbl.isZero] using hz
    subst ha
    cases d with
    | nan => exact absurd hd (by decide)
    | inf m => exact absurd hd (by simp [Dbl.isFinite])
    | fin nd ad => rw [Dbl.mul_zero_fin]; simp [Dbl.isZero]

/-- C12, as stated, fails: with `nu = 0` and `dx = 0` the Laplacian of the centre
cell of a 3 × 3 grid is `0 / 0`, and `0 * dt * NaN` is NaN, so `diffuse` stores
NaN where the field held `5`. -/
theorem diffuse_zero_viscosity_counterexample :
    (F64.construct 3 3 Dbl.zero (Dbl.ofRat (1 / 10)) Dbl.zero Dbl.one).nu = Dbl.zero ∧
      (F64.diffuse (F64.construct 3 3 Dbl.zero (Dbl.ofRat (1 / 10)) Dbl.zero Dbl.one)
        [Dbl.ofNat 1, Dbl.ofNat 2, Dbl.ofNat 3, Dbl.ofNat 4, Dbl.ofNat 5, Dbl.ofNat 6,
          Dbl.ofNat 7, Dbl.ofNat 8, Dbl.ofNat 9]).getD (idx 1 1 3) Dbl.zero = Dbl.nan := by
  decide!

/-- C12 (amended): for every `nx, ny ≥ 1`, every finite `dt`, every `dx` and every
field of `nx * ny` finite values, `diffuse(field)` with a zero `nu` compares
equal to `field` at every cell where the value `laplacian` computes is finite
(it is the same double unless the field value is `-0.0`); these include every
cell of the boundary ring, where that value is `0.0`.  At a cell where the
Laplacian is infinite or NaN (a stencil that overflows, or `dx * dx = 0`) the
result is NaN. -/
theorem diffuse_zero_viscosity_f64 (s : F64.FluidSimulator) (field : List Dbl)
    (hnu : s.nu.isZero = true) (hdt : s.dt.isFinite = true)
    (hlen : field.length = s.nx * s.ny)
    (hf : ∀ x ∈ field, x.isFinite = true ∧ x.IsDouble)
    (i j : Nat) (hi : i < s.ny) (hj : j < s.nx) :
    (((F64.laplacian field s.nx s.ny s.dx).getD (idx i j s.nx) Dbl.zero).isFinite = true →
        Dbl.eq ((F64.diffuse s field).getD (idx i j s.nx) Dbl.zero)
            (field.getD (idx i j s.nx) Dbl.zero) = true ∧
          ((field.getD (idx i j s.nx) Dbl.zero).isZero = false →
            (F64.diffuse s field).getD (idx i j s.nx) Dbl.zero =
              field.getD (idx i j s.nx) Dbl.zero)) ∧
      (((F64.laplacian field s.nx s.ny s.dx).getD (idx i j s.nx) Dbl.zero).isFinite = false →
        (F64.diffuse s field).getD (idx i j s.nx) Dbl.zero = Dbl.nan) ∧
      ((i = 0 ∨ i = s.ny - 1 ∨ j = 0 ∨ j = s.nx - 1) →
        (F64.laplacian field s.nx s.ny s.dx).getD (idx i j s.nx) Dbl.zero = Dbl.zero) := by
  have hall : ∀ k, (field.getD k Dbl.zero).isFinite = true ∧ (field.getD k Dbl.zero).IsDouble :=
    getD_all (fun x => x.isFinite = true ∧ x.IsDouble) field Dbl.zero
      ⟨rfl, isMag_zero⟩ hf
  have hz : (Dbl.mul s.nu s.dt).isZero = true := Dbl.isZero_mul_finite _ _ hnu hdt
  have key := Dbl.add_zero_mul (field.getD (idx i j s.nx) Dbl.zero) (Dbl.mul s.nu s.dt)
    ((F64.laplacian field s.nx s.ny s.dx).getD (idx i j s.nx) Dbl.zero) (hall _) hz
  rw [diffuse_cells_f64 s field hlen i j hi hj]
  refine ⟨key.1, key.2, fun hring => ?_⟩
  rw [laplacian_cells_f64 field s.nx s.ny s.dx i j hj, if_neg (by omega)]

/-- Instance of C12 on a 3 × 3 grid with `dx = 1`: the centre cell. -/
theorem diffuse_zero_viscosity_f64_witness :
    (F64.construct 3 3 Dbl.one (Dbl.ofRat (1 / 10)) Dbl.zero Dbl.one).nu.isZero = true ∧
      (F64.diffuse (F64.construct 3 3 Dbl.one (Dbl.ofRat (1 / 10)) Dbl.zero Dbl.one)
        [Dbl.ofNat 1, Dbl.ofNat 2, Dbl.ofNat 3, Dbl.ofNat 4, Dbl.ofNat 5, Dbl.ofNat 6,
          Dbl.ofNat 7, Dbl.ofNat 8, Dbl.ofNat 9]).getD (idx 1 1 3) Dbl.zero =
        ([Dbl.ofNat 1, Dbl.ofNat 2, Dbl.ofNat 3, Dbl.ofNat 4, Dbl.ofNat 5, Dbl.ofNat 6,
          Dbl.ofNat 7, Dbl.ofNat 8, Dbl.ofNat 9] : List Dbl).getD (idx 1 1 3) Dbl.zero :=
  ⟨by decide!,
    ((diffuse_zero_viscosity_f64
      (F64.construct 3 3 Dbl.one (Dbl.ofRat (1 / 10)) Dbl.zero Dbl.one)
      [Dbl.ofNat 1, Dbl.ofNat 2, Dbl.ofNat 3, Dbl.ofNat 4, Dbl.ofNat 5, Dbl.ofNat 6,
        Dbl.ofNat 7, Dbl.ofNat 8, Dbl.ofNat 9]
      (by decide!) (by decide!) (by decide) (by decide!) 1 1 (by decide) (by decide)).1
      (by decide!)).2 (by decide!)⟩

/-! ## Rounding of sums of equal terms -/

theorem rhe_natDiv (n d : ℕ) (hd : 0 < d) : rhe ((n : ℚ) / (d : ℚ)) = (nearestEven n d : ℤ) := by
  have hdq : (0 : ℚ) < d := by exact_mod_cast hd
  have hfl : Int.floor ((n : ℚ) / (d : ℚ)) = ((n / d : ℕ) : ℤ) := by
    rw [Int.floor_eq_iff]
    have h1 := Nat.div_add_mod n d
    have h2 := Nat.mod_lt n hd
    have h3 : (n : ℚ) = (d : ℚ) * ((n / d : ℕ) : ℚ) + ((n % d : ℕ) : ℚ) := by exact_mod_cast h1.symm
    have h4 : ((n % d : ℕ) : ℚ) < d := by exact_mod_cast h2
    have h5 : (0 : ℚ) ≤ ((n % d : ℕ) : ℚ) := Nat.cast_nonneg _
    rw [Int.cast_natCast]
    constructor
    · rw [le_div_iff₀ hdq]; nlinarith
    · rw [div_lt_iff₀ hdq]; nlinarith
  have hfrac : (n : ℚ) / (d : ℚ) - ((n / d : ℕ) : ℚ) = ((n % d : ℕ) : ℚ) / d := by
    have h1 := Nat.div_add_mod n d
    have h3 : (n : ℚ) = (d : ℚ) * ((n / d : ℕ) : ℚ) + ((n % d : ℕ) : ℚ) := by exact_mod_cast h1.symm
    field_simp
    linarith
  unfold rhe nearestEven
  dsimp only
  rw [hfl]
  have hcast : (((n / d : ℕ) : ℤ) : ℚ) = ((n / d : ℕ) : ℚ) := Int.cast_natCast _
  rw [hcast, hfrac]
  have c1 : ((n % d : ℕ) : ℚ) / d < 1 / 2 ↔ 2 * (n % d) < d := by
    rw [div_lt_div_iff₀ hdq (by norm_num : (0 : ℚ) < 2)]
    constructor
    · intro h
      have : ((2 * (n % d) : ℕ) : ℚ) < (d : ℚ) := by push_cast; linarith
      exact_mod_cast this
    · intro h
      have : ((2 * (n % d) : ℕ) : ℚ) < (d : ℚ) := by exact_mod_cast h
      push_cast at this; linarith
  have c2 : 1 / 2 < ((n % d : ℕ) : ℚ) / d ↔ d < 2 * (n % d) := by
    rw [div_lt_div_iff₀ (by norm_num : (0 : ℚ) < 2) hdq]
    constructor
    · intro h
      have : (d : ℚ) < ((2 * (n % d) : ℕ) : ℚ) := by push_cast; linarith
      exact_mod_cast this
    · intro h
      have : (d : ℚ) < ((2 * (n % d) : ℕ) : ℚ) := by exact_mod_cast h
      push_cast at this; linarith
  have c3 : ((n / d : ℕ) : ℤ) % 2 = 0 ↔ (n / d) % 2 = 0 := by omega
  by_cases h1 : 2 * (n % d) < d
  · rw [if_pos (c1.mpr h1), if_pos h1]
  · rw [if_neg (fun h => h1 (c1.mp h)), if_neg h1]
    by_cases h2 : d < 2 * (n % d)
    · rw [if_pos (c2.mpr h2), if_pos h2]; push_cast; rfl
    · rw [if_neg (fun h => h2 (c2.mp h)), if_neg h2]
      by_cases h3 : (n / d) % 2 = 0
      · rw [if_pos (c3.mpr h3), if_pos h3]
      · rw [if_neg (fun h => h3 (c3.mp h)), if_neg h3]; push_cast; rfl

/-- Rounding `n * 2^t` for a natural `n` with `2^(53 + k) ≤ n < 2^(54 + k)`: the
spacing of the grid is `2^(t + k + 1)`. -/
theorem rndMag_big (n k : ℕ) (t : ℤ) (h1 : 2 ^ (53 + k) ≤ n) (h2 : n < 2 ^ (54 + k))
    (ht : -1074 ≤ t) :
    rndMag ((n : ℚ) * pow2 t) = ((2 ^ (k + 1) * nearestEven n (2 ^ (k + 1)) : ℕ) : ℚ) * pow2 t := by
  have hpos : 0 < n := lt_of_lt_of_le (Nat.pos_pow_of_pos _ (by norm_num)) h1
  have hne : (n : ℚ) * pow2 t ≠ 0 := by
    have : (0 : ℚ) < n := by exact_mod_cast hpos
    exact ne_of_gt (mul_pos this (pow2_pos t))
  have hl : Nat.log 2 n = 53 + k :=
    Nat.log_eq_of_pow_le_of_lt_pow h1 (by rw [show 53 + k + 1 = 54 + k by ring]; exact h2)
  unfold rndMag
  rw [if_neg hne]
  dsimp only
  rw [expo_nat_mul_pow2 n t hpos, hl, max_eq_left (by push_cast; omega)]
  have hE : ((53 + k : ℕ) : ℤ) + t - 52 = ((k + 1 : ℕ) : ℤ) + t := by push_cast; ring
  rw [hE, pow2_add, pow2_natCast]
  have hq : (n : ℚ) * pow2 t / (((2 ^ (k + 1) : ℕ) : ℚ) * pow2 t) =
      (n : ℚ) / ((2 ^ (k + 1) : ℕ) : ℚ) := by
    have := ne_of_gt (pow2_pos t)
    field_simp
    ring
  rw [hq, rhe_natDiv n (2 ^ (k + 1)) (Nat.pos_pow_of_pos _ (by norm_num))]
  push_cast
  ring

/-- Rounding `n * 2^t` for a natural `n < 2^55`. -/
theorem rndMag_roundNat (n : ℕ) (t : ℤ) (hn : n < 2 ^ 55) (ht : -1074 ≤ t) :
    rndMag ((n : ℚ) * pow2 t) = (roundNat n : ℚ) * pow2 t := by
  unfold roundNat
  by_cases h1 : n < 2 ^ 53
  · rw [if_pos h1]; exact rndMag_fix n t h1 ht
  · rw [if_neg h1]
    by_cases h2 : n < 2 ^ 54
    · rw [if_pos h2]
      have := rndMag_big n 0 t (by simpa using not_lt.mp h1) (by simpa using h2) ht
      simpa using this
    · rw [if_neg h2]
      have := rndMag_big n 1 t (by simpa using not_lt.mp h2) (by simpa using hn) ht
      simpa using this

theorem nearestEven_two (n : ℕ) :
    2 * nearestEven n 2 = n ∨ (2 * nearestEven n 2 = n + 1 ∧ 2 * nearestEven n 2 % 4 = 0) ∨
      (2 * nearestEven n 2 + 1 = n ∧ 2 * nearestEven n 2 % 4 = 0) := by
  unfold nearestEven
  dsimp only
  split_ifs <;> omega

theorem nearestEven_four (n : ℕ) :
    (4 * nearestEven n 4 ≤ n + 1 ∧ n ≤ 4 * nearestEven n 4 + 1) ∨
      (4 * nearestEven n 4 = n + 2 ∧ 4 * nearestEven n 4 % 8 = 0) ∨
      (4 * nearestEven n 4 + 2 = n ∧ 4 * nearestEven n 4 % 8 = 0) := by
  unfold nearestEven
  dsimp only
  split_ifs <;> omega

/-- What rounding to 53 bits does to a natural number below `2^55`. -/
theorem roundNat_spec (n : ℕ) (hn : n < 2 ^ 55) :
    (n < 2 ^ 53 → roundNat n = n) ∧
      (2 ^ 53 ≤ n → n < 2 ^ 54 →
        roundNat n % 2 = 0 ∧
          (roundNat n = n ∨ (roundNat n = n + 1 ∧ roundNat n % 4 = 0) ∨
            (roundNat n + 1 = n ∧ roundNat n % 4 = 0))) ∧
      (2 ^ 54 ≤ n →
        roundNat n % 4 = 0 ∧
          ((roundNat n ≤ n + 1 ∧ n ≤ roundNat n + 1) ∨
            (roundNat n = n + 2 ∧ roundNat n % 8 = 0) ∨
            (roundNat n + 2 = n ∧ roundNat n % 8 = 0))) := by
  refine ⟨fun h => ?_, fun h1 h2 => ?_, fun h => ?_⟩
  · unfold roundNat
    rw [if_pos h]
  · have e : roundNat n = 2 * nearestEven n 2 := by
      unfold roundNat
      rw [if_neg (by omega), if_pos h2]
    rw [e]
    exact ⟨Nat.mul_mod_right 2 _, nearestEven_two n⟩
  · have e : roundNat n = 4 * nearestEven n 4 := by
      unfold roundNat
      rw [if_neg (by omega), if_neg (by omega)]
    rw [e]
    exact ⟨Nat.mul_mod_right 4 _, nearestEven_four n⟩

theorem roundNat_double (m : ℕ) (hm : m < 2 ^ 53) : roundNat (2 * m) = 2 * m := by
  have s2 := roundNat_spec (2 * m) (by omega)
  rcases Nat.lt_or_ge (2 * m) (2 ^ 53) with h | h
  · exact s2.1 h
  · obtain ⟨-, c | ⟨c, -⟩ | ⟨c, -⟩⟩ := s2.2.1 h (by omega)
    · exact c
    · have h2 := (s2.2.1 h (by omega)).1; omega
    · have h2 := (s2.2.1 h (by omega)).1; omega

theorem roundNat_quadruple (m : ℕ) (hm : m < 2 ^ 53) : roundNat (4 * m) = 4 * m := by
  have s4 := roundNat_spec (4 * m) (by omega)
  rcases Nat.lt_or_ge (4 * m) (2 ^ 53) with h | h
  · exact s4.1 h
  · rcases Nat.lt_or_ge (4 * m) (2 ^ 54) with h2 | h2
    · obtain ⟨p, c | ⟨c, -⟩ | ⟨c, -⟩⟩ := s4.2.1 h h2
      · exact c
      · omega
      · omega
    · obtain ⟨p, ⟨c1, c2⟩ | ⟨c, -⟩ | ⟨c, -⟩⟩ := s4.2.2 h2
      · omega
      · omega
      · omega

/-- The second rounding, when the sum lies in `[2^53, 2^54)`. -/
theorem roundNat_four_mid (m r3 r5 : ℕ)
    (c : r3 = 2 * m + m ∨ (r3 = 2 * m + m + 1 ∧ r3 % 4 = 0) ∨ (r3 + 1 = 2 * m + m ∧ r3 % 4 = 0))
    (p5 : r5 % 2 = 0)
    (c5 : r5 = r3 + m ∨ (r5 = r3 + m + 1 ∧ r5 % 4 = 0) ∨ (r5 + 1 = r3 + m ∧ r5 % 4 = 0)) :
    r5 = 4 * m := by
  rcases c with c | ⟨c, d⟩ | ⟨c, d⟩ <;> rcases c5 with e | ⟨e, f⟩ | ⟨e, f⟩ <;> omega

/-- The second rounding, when the sum lies in `[2^54, 2^55)` and the first was in
`[2^53, 2^54)`. -/
theorem roundNat_four_cross (m r3 r5 : ℕ)
    (c : r3 = 2 * m + m ∨ (r3 = 2 * m + m + 1 ∧ r3 % 4 = 0) ∨ (r3 + 1 = 2 * m + m ∧ r3 % 4 = 0))
    (p5 : r5 % 4 = 0)
    (c5 : (r5 ≤ r3 + m + 1 ∧ r3 + m ≤ r5 + 1) ∨ (r5 = r3 + m + 2 ∧ r5 % 8 = 0) ∨
      (r5 + 2 = r3 + m ∧ r5 % 8 = 0)) :
    r5 = 4 * m := by
  rcases c with c | ⟨c, d⟩ | ⟨c, d⟩ <;> rcases c5 with ⟨e, f⟩ | ⟨e, f⟩ | ⟨e, f⟩ <;> omega

/-- The second rounding, when both sums lie in `[2^54, 2^55)`. -/
theorem roundNat_four_high (m r3 r5 : ℕ) (p3 : r3 % 4 = 0)
    (c : (r3 ≤ 2 * m + m + 1 ∧ 2 * m + m ≤ r3 + 1) ∨ (r3 = 2 * m + m + 2 ∧ r3 % 8 = 0) ∨
      (r3 + 2 = 2 * m + m ∧ r3 % 8 = 0))
    (p5 : r5 % 4 = 0)
    (c5 : (r5 ≤ r3 + m + 1 ∧ r3 + m ≤ r5 + 1) ∨ (r5 = r3 + m + 2 ∧ r5 % 8 = 0) ∨
      (r5 + 2 = r3 + m ∧ r5 % 8 = 0)) :
    r5 = 4 * m := by
  rcases c with ⟨c, d⟩ | ⟨c, d⟩ | ⟨c, d⟩ <;> rcases c5 with ⟨e, f⟩ | ⟨e, f⟩ | ⟨e, f⟩ <;> omega

/-- Three and then four equal terms: `(m + m + m) + m`, each sum rounded to 53
bits, is `4 m` exactly. -/
theorem roundNat_four (m : ℕ) (hm : m < 2 ^ 53) :
    roundNat (2 * m + m) ≤ 4 * m ∧ roundNat (2 * m + m) + m < 2 ^ 55 ∧
      roundNat (roundNat (2 * m + m) + m) = 4 * m := by
  have s3 := roundNat_spec (2 * m + m) (by omega)
  rcases Nat.lt_or_ge (2 * m + m) (2 ^ 53) with h | h
  · have e := s3.1 h
    rw [e, show 2 * m + m + m = 4 * m by ring]
    exact ⟨by omega, by omega, roundNat_quadruple m hm⟩
  · rcases Nat.lt_or_ge (2 * m + m) (2 ^ 54) with h2 | h2
    · obtain ⟨p3, c⟩ := s3.2.1 h h2
      generalize roundNat (2 * m + m) = r3 at c p3 ⊢
      have hle : r3 ≤ 2 * m + m + 1 := by rcases c with c | ⟨c, -⟩ | ⟨c, -⟩ <;> omega
      have hge : 2 * m + m ≤ r3 + 1 := by rcases c with c | ⟨c, -⟩ | ⟨c, -⟩ <;> omega
      have hr : r3 + m < 2 ^ 55 := by omega
      refine ⟨by omega, hr, ?_⟩
      have s5 := roundNat_spec (r3 + m) hr
      rcases Nat.lt_or_ge (r3 + m) (2 ^ 54) with h3 | h3
      · obtain ⟨p5, c5⟩ := s5.2.1 (by omega) h3
        exact roundNat_four_mid m r3 _ c p5 c5
      · obtain ⟨p5, c5⟩ := s5.2.2 h3
        exact roundNat_four_cross m r3 _ c p5 c5
    · obtain ⟨p3, c⟩ := s3.2.2 h2
      generalize roundNat (2 * m + m) = r3 at c p3 ⊢
      have hle : r3 ≤ 2 * m + m + 2 := by rcases c with ⟨c, -⟩ | ⟨c, -⟩ | ⟨c, -⟩ <;> omega
      have hge : 2 * m + m ≤ r3 + 2 := by rcases c with ⟨-, c⟩ | ⟨c, -⟩ | ⟨c, -⟩ <;> omega
      have hr : r3 + m < 2 ^ 55 := by omega
      refine ⟨by omega, hr, ?_⟩
      have s5 := roundNat_spec (r3 + m) hr
      obtain ⟨p5, c5⟩ := s5.2.2 (by omega)
      exact roundNat_four_high m r3 _ p3 c p5 c5

/-- The sum of two finite values of the same sign is the rounded sum of the
magnitudes, with that sign. -/
theorem Dbl.add_same_sign (n : Bool) (a b : ℚ) (ha : 0 ≤ a) (hb : 0 ≤ b) :
    Dbl.add (Dbl.fin n a) (Dbl.fin n b) = Dbl.round n (a + b) := by
  unfold Dbl.add
  simp only [Dbl.val]
  by_cases hs : a + b = 0
  · have ha0 : a = 0 := by linarith
    have hb0 : b = 0 := by linarith
    subst ha0; subst hb0
    cases n <;> simp [Dbl.round_zero]
  · have hpos : 0 < a + b := lt_of_le_of_ne (add_nonneg ha hb) (Ne.symm hs)
    cases n
    · simp only [Bool.false_eq_true, if_false, if_neg hs]
      rw [abs_of_pos hpos]
      congr 1
      simp [not_lt.mpr (le_of_lt hpos)]
    · simp only [if_true]
      have hneg : -a + -b < 0 := by linarith
      rw [if_neg (ne_of_lt hneg), abs_of_neg hneg]
      have e : -(-a + -b) = a + b := by ring
      rw [e]
      congr 1
      simp [hneg]

/-- The difference of a finite double with itself is `+0.0`. -/
theorem Dbl.sub_self_fin (n : Bool) (a : ℚ) :
    Dbl.sub (Dbl.fin n a) (Dbl.fin n a) = Dbl.zero := by
  show Dbl.add (Dbl.fin n a) (Dbl.fin (!n) a) = _
  unfold Dbl.add
  simp only [Dbl.val]
  cases n <;> simp [Dbl.zero]

/-- The quotient of `+0.0` by a square that is neither zero nor NaN is `+0.0`. -/
theorem Dbl.zero_div_square (x : Dbl) (h1 : (Dbl.mul x x).isNaN = false)
    (h2 : (Dbl.mul x x).isZero = false) : Dbl.div Dbl.zero (Dbl.mul x x) = Dbl.zero := by
  rcases Dbl.mul_self_cases x with h | h | ⟨r, h⟩
  · rw [h] at h1; exact absurd h1 (by decide)
  · rw [h]; rfl
  · rw [h] at h2 ⊢
    have hr : r ≠ 0 := by simpa [Dbl.isZero] using h2
    unfold Dbl.div Dbl.zero
    simp only [if_neg hr, zero_div, Bool.xor_false]
    exact Dbl.round_zero false

/-- The stencil of line 19–22 on five equal finite values `c` with
`4 |c| < 2^1024`: the three sums are `2c`, the rounded `3c`, and `4c` exactly;
the product `4.0 * c` is `4c`; the difference is `+0.0`. -/
theorem Dbl.uniform_stencil (n : Bool) (a : ℚ) (ha : IsMag a) (hbig : 4 * a < pow2 1024) :
    Dbl.sub
      (Dbl.add (Dbl.add (Dbl.add (Dbl.fin n a) (Dbl.fin n a)) (Dbl.fin n a)) (Dbl.fin n a))
      (Dbl.mul (Dbl.fin false 4) (Dbl.fin n a)) = Dbl.zero := by
  obtain ⟨m, t, hm, ht, hrep, -⟩ := (isMag_iff a).mp ha
  have hp := pow2_pos t
  have h0 : 0 ≤ a := ha.1
  obtain ⟨r3le, r3lt, r4⟩ := roundNat_four m hm
  have r2 := roundNat_double m hm
  have r4b := roundNat_quadruple m hm
  have big4 : ((4 * m : ℕ) : ℚ) * pow2 t < pow2 1024 := by
    rw [hrep] at hbig; push_cast; linarith
  -- first sum
  have e1 : Dbl.add (Dbl.fin n a) (Dbl.fin n a) = Dbl.fin n (((2 * m : ℕ) : ℚ) * pow2 t) := by
    rw [Dbl.add_same_sign n a a h0 h0]
    have e : a + a = ((2 * m : ℕ) : ℚ) * pow2 t := by rw [hrep]; push_cast; ring
    rw [e]
    unfold Dbl.round
    rw [rndMag_roundNat (2 * m) t (by omega) ht, r2, if_neg]
    apply not_le.mpr
    refine lt_of_le_of_lt ?_ big4
    exact mul_le_mul_of_nonneg_right (by exact_mod_cast (by omega : 2 * m ≤ 4 * m)) (le_of_lt hp)
  have e2 : Dbl.add (Dbl.fin n (((2 * m : ℕ) : ℚ) * pow2 t)) (Dbl.fin n a) =
      Dbl.fin n ((roundNat (2 * m + m) : ℚ) * pow2 t) := by
    rw [Dbl.add_same_sign n _ a (mul_nonneg (Nat.cast_nonneg _) (le_of_lt hp)) h0]
    have e : ((2 * m : ℕ) : ℚ) * pow2 t + a = ((2 * m + m : ℕ) : ℚ) * pow2 t := by
      rw [hrep]; push_cast; ring
    rw [e]
    unfold Dbl.round
    rw [rndMag_roundNat (2 * m + m) t (by omega) ht, if_neg]
    apply not_le.mpr
    refine lt_of_le_of_lt ?_ big4
    exact mul_le_mul_of_nonneg_right (by exact_mod_cast r3le) (le_of_lt hp)
  have e3 : Dbl.add (Dbl.fin n ((roundNat (2 * m + m) : ℚ) * pow2 t)) (Dbl.fin n a) =
      Dbl.fin n (((4 * m : ℕ) : ℚ) * pow2 t) := by
    rw [Dbl.add_same_sign n _ a (mul_nonneg (Nat.cast_nonneg _) (le_of_lt hp)) h0]
    have e : (roundNat (2 * m + m) : ℚ) * pow2 t + a =
        ((roundNat (2 * m + m) + m : ℕ) : ℚ) * pow2 t := by
      rw [hrep]; push_cast; ring
    rw [e]
    unfold Dbl.round
    rw [rndMag_roundNat (roundNat (2 * m + m) + m) t r3lt ht, r4, if_neg (not_le.mpr big4)]
  have e4 : Dbl.mul (Dbl.fin false 4) (Dbl.fin n a) = Dbl.fin n (((4 * m : ℕ) : ℚ) * pow2 t) := by
    show Dbl.round (xor false n) (4 * a) = _
    have e : 4 * a = ((4 * m : ℕ) : ℚ) * pow2 t := by rw [hrep]; push_cast; ring
    rw [e, Bool.false_xor]
    unfold Dbl.round
    rw [rndMag_roundNat (4 * m) t (by omega) ht, r4b, if_neg (not_le.mpr big4)]
  rw [e1, e2, e3, e4]
  exact Dbl.sub_self_fin n _

/-! ## Laplacian of a uniform field (C10) -/

/-- C10, as stated, fails: with `dx = 0` the interior value of the Laplacian of
the uniform field `7` is `0 / 0`, and for the uniform field `2^1023` (a finite
double) the sum of the four neighbours and the product `4.0 * c` are both
`+inf`, whose difference is NaN. -/
theorem laplacian_uniform_counterexample :
    (F64.laplacian (List.replicate (3 * 3) (Dbl.ofNat 7)) 3 3 Dbl.zero).getD (idx 1 1 3)
        Dbl.zero = Dbl.nan ∧
      (Dbl.fin false (pow2 1023)).IsDouble ∧
      (F64.laplacian (List.replicate (3 * 3) (Dbl.fin false (pow2 1023))) 3 3 Dbl.one).getD
        (idx 1 1 3) Dbl.zero = Dbl.nan := by
  decide!

/-- C10 (amended): for every `nx, ny ≥ 1`, every `dx` whose square `dx * dx` is
neither zero nor NaN, and every finite constant `c` with `4 |c| < 2^1024`,
`laplacian` applied to the field of `nx * ny` entries all equal to `c` returns
`+0.0` at every interior cell (`1 ≤ row ≤ ny - 2`, `1 ≤ column ≤ nx - 2`). -/
theorem laplacian_uniform_f64 (nx ny : Nat) (dx c : Dbl)
    (hc : c.isFinite = true ∧ c.IsDouble) (hbig : 4 * |c.val| < pow2 1024)
    (hdx1 : (Dbl.mul dx dx).isNaN = false) (hdx2 : (Dbl.mul dx dx).isZero = false)
    (i j : Nat) (hi1 : 1 ≤ i) (hi2 : i + 2 ≤ ny) (hj1 : 1 ≤ j) (hj2 : j + 2 ≤ nx) :
    (F64.laplacian (List.replicate (nx * ny) c) nx ny dx).getD (idx i j nx) Dbl.zero =
      Dbl.zero := by
  have hget : ∀ a b, a < ny → b < nx →
      (List.replicate (nx * ny) c).getD (idx a b nx) Dbl.zero = c := by
    intro a b ha hb
    simp [List.getD_eq_getElem?_getD, List.getElem?_replicate, idx_lt ha hb]
  rw [laplacian_cells_f64 _ nx ny dx i j (by omega), if_pos (by omega),
    hget (i - 1) j (by omega) (by omega), hget (i + 1) j (by omega) (by omega),
    hget i (j - 1) (by omega) (by omega), hget i (j + 1) (by omega) (by omega),
    hget i j (by omega) (by omega)]
  cases c with
  | nan => exact absurd hc.1 (by decide)
  | inf m => exact absurd hc.1 (by simp [Dbl.isFinite])
  | fin n a =>
    have hm : IsMag a := hc.2
    have hv : |(Dbl.fin n a).val| = a := by
      unfold Dbl.val
      cases n
      · simp [abs_of_nonneg hm.1]
      · simp [abs_of_nonneg hm.1]
    rw [hv] at hbig
    rw [Dbl.uniform_stencil n a hm hbig]
    exact Dbl.zero_div_square dx hdx1 hdx2

/-- Instance of C10 on a 4 × 3 grid with `dx = 0.5`, `c = 0.1`, cell `(1, 2)`. -/
theorem laplacian_uniform_f64_witness :
    (Dbl.ofRat (1 / 10)).IsDouble ∧
      (F64.laplacian (List.replicate (4 * 3) (Dbl.ofRat (1 / 10))) 4 3 (Dbl.ofRat (1 / 2))).getD
        (idx 1 2 4) Dbl.zero = Dbl.zero :=
  ⟨by decide!,
    laplacian_uniform_f64 4 3 (Dbl.ofRat (1 / 2)) (Dbl.ofRat (1 / 10)) (by decide!) (by decide!)
      (by decide!) (by decide!) 1 2 (by decide) (by decide) (by decide) (by decide)⟩

/-! ## Rounding errors -/

/-- The rounding error of a magnitude `x ≤ X`, with `X` at least the smallest
normal number, is at most `2^-53 X`. -/
theorem rndMag_err (x X : ℚ) (hx : 0 ≤ x) (hxX : x ≤ X) (hX : pow2 (-1022) ≤ X) :
    |rndMag x - x| ≤ pow2 (-53) * X := by
  rcases eq_or_lt_of_le hx with h0 | hpos
  · rw [← h0, rndMag_zero, sub_zero, abs_zero]
    exact mul_nonneg (le_of_lt (pow2_pos _)) (le_trans (le_of_lt (pow2_pos _)) hX)
  · have hne : x ≠ 0 := ne_of_gt hpos
    obtain ⟨e1, -⟩ := expo_spec x hpos
    unfold rndMag
    rw [if_neg hne]
    dsimp only
    generalize hE : max (expo x) (-1022) = E
    have hEX : pow2 E ≤ X := by
      rcases le_total (expo x) (-1022) with h | h
      · rw [max_eq_right h] at hE; rw [← hE]; exact hX
      · rw [max_eq_left h] at hE; rw [← hE]; exact le_trans e1 hxX
    have hu := pow2_pos (E - 52)
    have hnear := rhe_near (x / pow2 (E - 52))
    have hhalf : pow2 (E - 52) * (1 / 2) = pow2 (-53) * pow2 E := by
      have e : pow2 (E - 52) = pow2 E * pow2 (-52) := by rw [← pow2_add]; congr 1
      have e52 : pow2 (-52) = 1 / 4503599627370496 := by decide!
      have e53 : pow2 (-53) = 1 / 9007199254740992 := by decide!
      rw [e, e52, e53]; ring
    have hxu : x / pow2 (E - 52) * pow2 (E - 52) = x := by field_simp
    have b1 : (rhe (x / pow2 (E - 52)) : ℚ) * pow2 (E - 52) - x ≤ pow2 (E - 52) * (1 / 2) := by
      have := mul_le_mul_of_nonneg_right hnear.1 (le_of_lt hu)
      rw [hxu] at this
      linarith
    have b2 : -(pow2 (E - 52) * (1 / 2)) ≤ (rhe (x / pow2 (E - 52)) : ℚ) * pow2 (E - 52) - x := by
      have := mul_le_mul_of_nonneg_right hnear.2 (le_of_lt hu)
      rw [hxu] at this
      linarith
    rw [abs_le]
    have hmul : pow2 (-53) * pow2 E ≤ pow2 (-53) * X :=
      mul_le_mul_of_nonneg_left hEX (le_of_lt (pow2_pos _))
    constructor <;> linarith

/-- Rounding a magnitude of at most `2^1023` does not overflow. -/
theorem rndMag_lt_overflow (x X : ℚ) (hx : 0 ≤ x) (hxX : x ≤ X) (hX : pow2 (-1022) ≤ X)
    (hX2 : X ≤ pow2 1023) : rndMag x < pow2 1024 := by
  have h := rndMag_err x X hx hxX hX
  rw [abs_le] at h
  have e53 : pow2 (-53) = 1 / 9007199254740992 := by decide!
  have e : pow2 1024 = 2 * pow2 1023 := by
    rw [show (1024 : ℤ) = 1 + 1023 by norm_num, pow2_add]
    congr 1
  have hp := pow2_pos 1023
  rw [e53] at h
  rw [e]
  have hXp : 0 ≤ X := le_trans (le_of_lt (pow2_pos _)) hX
  linarith [h.2]

/-- Rounding a magnitude of at most `1` gives at most `1`. -/
theorem rndMag_le_one (x : ℚ) (hx : 0 ≤ x) (hx1 : x ≤ 1) : rndMag x ≤ 1 := by
  rcases eq_or_lt_of_le hx with h0 | hpos
  · rw [← h0, rndMag_zero]; norm_num
  · have hne : x ≠ 0 := ne_of_gt hpos
    obtain ⟨e1, -⟩ := expo_spec x hpos
    have he0 : expo x ≤ 0 := by
      by_contra hcon
      have h1 : (1 : ℤ) ≤ expo x := by omega
      have h2 := pow2_le_pow2 h1
      have e : pow2 1 = 2 := by decide!
      rw [e] at h2
      linarith
    unfold rndMag
    rw [if_neg hne]
    dsimp only
    generalize hE : max (expo x) (-1022) = E
    have hE0 : E ≤ 0 := by rw [← hE]; exact max_le he0 (by norm_num)
    have hu := pow2_pos (E - 52)
    obtain ⟨n, hn⟩ := Int.eq_ofNat_of_zero_le (by omega : 0 ≤ 52 - E)
    have hinv : pow2 (n : ℤ) * pow2 (E - 52) = 1 := by
      rw [← pow2_add, ← hn]
      have : 52 - E + (E - 52) = 0 := by ring
      rw [this]
      decide!
    have hle : x / pow2 (E - 52) ≤ (((2 ^ n : ℕ) : ℤ) : ℚ) := by
      rw [div_le_iff₀ hu]
      have : ((((2 ^ n : ℕ) : ℤ)) : ℚ) = pow2 (n : ℤ) := by
        rw [pow2_natCast]; push_cast; rfl
      rw [this, hinv]
      exact hx1
    have hr := rhe_le_of_le _ _ hle
    have hr2 : (rhe (x / pow2 (E - 52)) : ℚ) ≤ pow2 (n : ℤ) := by
      rw [pow2_natCast]
      exact_mod_cast hr
    calc (rhe (x / pow2 (E - 52)) : ℚ) * pow2 (E - 52)
        ≤ pow2 (n : ℤ) * pow2 (E - 52) := mul_le_mul_of_nonneg_right hr2 (le_of_lt hu)
      _ = 1 := hinv

/-- A rounded magnitude below the overflow threshold is a double's magnitude. -/
theorem isMag_rndMag (x : ℚ) (hx : 0 ≤ x) (h : rndMag x < pow2 1024) : IsMag (rndMag x) :=
  ⟨rndMag_nonneg x hx, rndMag_idem x hx, h⟩

/-- A finite number that a `double` variable can hold. -/
theorem Dbl.finite_cases (x : Dbl) (h : x.isFinite = true ∧ x.IsDouble) :
    ∃ n a, x = Dbl.fin n a ∧ IsMag a := by
  cases x with
  | nan => exact absurd h.1 (by decide)
  | inf m => exact absurd h.1 (by simp [Dbl.isFinite])
  | fin n a => exact ⟨n, a, rfl, h.2⟩

theorem Dbl.abs_val_fin (n : Bool) (a : ℚ) (ha : 0 ≤ a) : |(Dbl.fin n a).val| = a := by
  unfold Dbl.val
  cases n <;> simp [abs_of_nonneg ha]

/-- The value of a rounded result. -/
theorem Dbl.round_near (neg : Bool) (x X : ℚ) (hx : 0 ≤ x) (hxX : x ≤ X)
    (hX : pow2 (-1022) ≤ X) (hX2 : X ≤ pow2 1023) :
    ((Dbl.round neg x).isFinite = true ∧ (Dbl.round neg x).IsDouble) ∧
      |(Dbl.round neg x).val - (if neg then -x else x)| ≤ pow2 (-53) * X := by
  have hlt := rndMag_lt_overflow x X hx hxX hX hX2
  have herr := rndMag_err x X hx hxX hX
  unfold Dbl.round
  rw [if_neg (not_le.mpr hlt)]
  refine ⟨⟨rfl, isMag_rndMag x hx hlt⟩, ?_⟩
  unfold Dbl.val
  cases neg
  · simpa using herr
  · simp only [if_true]
    rw [show -rndMag x - -x = -(rndMag x - x) by ring, abs_neg]
    exact herr

/-- Floating-point addition: finite result, error at most `2^-53 X`. -/
theorem Dbl.add_near (x y : Dbl) (X : ℚ) (hx : x.isFinite = true) (hy : y.isFinite = true)
    (hb : |x.val + y.val| ≤ X) (hX : pow2 (-1022) ≤ X) (hX2 : X ≤ pow2 1023) :
    ((Dbl.add x y).isFinite = true ∧ (Dbl.add x y).IsDouble) ∧
      |(Dbl.add x y).val - (x.val + y.val)| ≤ pow2 (-53) * X := by
  have hXp : 0 ≤ pow2 (-53) * X :=
    mul_nonneg (le_of_lt (pow2_pos _)) (le_trans (le_of_lt (pow2_pos _)) hX)
  cases x with
  | nan => exact absurd hx (by decide)
  | inf m => exact absurd hx (by simp [Dbl.isFinite])
  | fin n1 a1 =>
    cases y with
    | nan => exact absurd hy (by decide)
    | inf m => exact absurd hy (by simp [Dbl.isFinite])
    | fin n2 a2 =>
      generalize hs : (Dbl.fin n1 a1).val + (Dbl.fin n2 a2).val = s at hb ⊢
      have e : Dbl.add (Dbl.fin n1 a1) (Dbl.fin n2 a2) =
          if s = 0 then Dbl.fin (n1 && n2) 0 else Dbl.round (decide (s < 0)) |s| := by
        rw [← hs]; rfl
      rw [e]
      by_cases h0 : s = 0
      · rw [if_pos h0, h0]
        refine ⟨⟨rfl, isMag_zero⟩, ?_⟩
        have : (Dbl.fin (n1 && n2) 0).val = 0 := by
          show (if (n1 && n2) = true then -(0 : ℚ) else 0) = 0
          split <;> simp
        rw [this]; simpa using hXp
      · rw [if_neg h0]
        have h := Dbl.round_near (decide (s < 0)) |s| X (abs_nonneg s) hb hX hX2
        refine ⟨h.1, ?_⟩
        have e2 : (if decide (s < 0) = true then -|s| else |s|) = s := by
          by_cases hneg : s < 0
          · simp [hneg, abs_of_neg hneg]
          · simp [hneg, abs_of_nonneg (not_lt.mp hneg)]
        rw [e2] at h
        exact h.2

theorem Dbl.val_negate (y : Dbl) : (Dbl.negate y).val = -y.val := by
  cases y with
  | nan => simp [Dbl.negate, Dbl.val]
  | inf m => simp [Dbl.negate, Dbl.val]
  | fin n a => cases n <;> simp [Dbl.negate, Dbl.val]

theorem Dbl.isFinite_negate (y : Dbl) : (Dbl.negate y).isFinite = y.isFinite := by
  cases y <;> rfl

/-- Floating-point subtraction: finite result, error at most `2^-53 X`. -/
theorem Dbl.sub_near (x y : Dbl) (X : ℚ) (hx : x.isFinite = true) (hy : y.isFinite = true)
    (hb : |x.val - y.val| ≤ X) (hX : pow2 (-1022) ≤ X) (hX2 : X ≤ pow2 1023) :
    ((Dbl.sub x y).isFinite = true ∧ (Dbl.sub x y).IsDouble) ∧
      |(Dbl.sub x y).val - (x.val - y.val)| ≤ pow2 (-53) * X := by
  have h := Dbl.add_near x (Dbl.negate y) X hx (by rw [Dbl.isFinite_negate]; exact hy)
    (by rw [Dbl.val_negate, ← sub_eq_add_neg]; exact hb) hX hX2
  rw [Dbl.val_negate, ← sub_eq_add_neg] at h
  exact h

/-- Floating-point multiplication: finite result, error at most `2^-53 X`. -/
theorem Dbl.mul_near (x y : Dbl) (X : ℚ) (hx : x.isFinite = true ∧ x.IsDouble)
    (hy : y.isFinite = true ∧ y.IsDouble)
    (hb : |x.val * y.val| ≤ X) (hX : pow2 (-1022) ≤ X) (hX2 : X ≤ pow2 1023) :
    ((Dbl.mul x y).isFinite = true ∧ (Dbl.mul x y).IsDouble) ∧
      |(Dbl.mul x y).val - x.val * y.val| ≤ pow2 (-53) * X := by
  obtain ⟨n1, a1, rfl, h1⟩ := Dbl.finite_cases x hx
  obtain ⟨n2, a2, rfl, h2⟩ := Dbl.finite_cases y hy
  have hp : 0 ≤ a1 * a2 := mul_nonneg h1.1 h2.1
  have hb2 : a1 * a2 ≤ X := by
    rw [abs_mul, Dbl.abs_val_fin n1 a1 h1.1, Dbl.abs_val_fin n2 a2 h2.1] at hb
    exact hb
  have h := Dbl.round_near (xor n1 n2) (a1 * a2) X hp hb2 hX hX2
  have e : Dbl.mul (Dbl.fin n1 a1) (Dbl.fin n2 a2) = Dbl.round (xor n1 n2) (a1 * a2) := rfl
  rw [e]
  refine ⟨h.1, ?_⟩
  have e2 : (if xor n1 n2 = true then -(a1 * a2) else a1 * a2) =
      (Dbl.fin n1 a1).val * (Dbl.fin n2 a2).val := by
    unfold Dbl.val
    cases n1 <;> cases n2 <;> simp
  rw [e2] at h
  exact h.2

/-- Floating-point division by a non-zero value: finite result, error at most
`2^-53 X`. -/
theorem Dbl.div_near (x y : Dbl) (X : ℚ) (hx : x.isFinite = true ∧ x.IsDouble)
    (hy : y.isFinite = true ∧ y.IsDouble) (hy0 : y.val ≠ 0)
    (hb : |x.val / y.val| ≤ X) (hX : pow2 (-1022) ≤ X) (hX2 : X ≤ pow2 1023) :
    ((Dbl.div x y).isFinite = true ∧ (Dbl.div x y).IsDouble) ∧
      |(Dbl.div x y).val - x.val / y.val| ≤ pow2 (-53) * X := by
  obtain ⟨n1, a1, rfl, h1⟩ := Dbl.finite_cases x hx
  obtain ⟨n2, a2, rfl, h2⟩ := Dbl.finite_cases y hy
  have ha2 : a2 ≠ 0 := by
    intro h
    apply hy0
    unfold Dbl.val
    rw [h]; simp
  have hp : 0 ≤ a1 / a2 := div_nonneg h1.1 h2.1
  have hb2 : a1 / a2 ≤ X := by
    rw [abs_div, Dbl.abs_val_fin n1 a1 h1.1, Dbl.abs_val_fin n2 a2 h2.1] at hb
    exact hb
  have h := Dbl.round_near (xor n1 n2) (a1 / a2) X hp hb2 hX hX2
  have e : Dbl.div (Dbl.fin n1 a1) (Dbl.fin n2 a2) = Dbl.round (xor n1 n2) (a1 / a2) := by
    simp [Dbl.div, ha2]
  rw [e]
  refine ⟨h.1, ?_⟩
  have e2 : (if xor n1 n2 = true then -(a1 / a2) else a1 / a2) =
      (Dbl.fin n1 a1).val / (Dbl.fin n2 a2).val := by
    unfold Dbl.val
    cases n1 <;> cases n2 <;> simp [neg_div, div_neg]
  rw [e2] at h
  exact h.2

/-! ## The clamp, the floor and the weights of `advect` -/

theorem Dbl.round_isDouble (neg : Bool) (x : ℚ) (hx : 0 ≤ x) : (Dbl.round neg x).IsDouble := by
  unfold Dbl.round
  split
  · trivial
  · rename_i h
    exact isMag_rndMag x hx (not_le.mp h)

/-- Every sum is a value a `double` can hold. -/
theorem Dbl.add_isDouble (x y : Dbl) : (Dbl.add x y).IsDouble := by
  cases x with
  | nan => cases y <;> simp [Dbl.add, Dbl.IsDouble]
  | inf m =>
    cases y with
    | nan => simp [Dbl.add, Dbl.IsDouble]
    | inf m2 =>
      simp only [Dbl.add]
      split <;> simp [Dbl.IsDouble]
    | fin n2 a2 => simp [Dbl.add, Dbl.IsDouble]
  | fin n1 a1 =>
    cases y with
    | nan => simp [Dbl.add, Dbl.IsDouble]
    | inf m => simp [Dbl.add, Dbl.IsDouble]
    | fin n2 a2 =>
      generalize hs : (Dbl.fin n1 a1).val + (Dbl.fin n2 a2).val = s
      have e : Dbl.add (Dbl.fin n1 a1) (Dbl.fin n2 a2) =
          if s = 0 then Dbl.fin (n1 && n2) 0 else Dbl.round (decide (s < 0)) |s| := by
        rw [← hs]; rfl
      rw [e]
      split
      · exact isMag_zero
      · exact Dbl.round_isDouble _ _ (abs_nonneg s)

theorem Dbl.sub_isDouble (x y : Dbl) : (Dbl.sub x y).IsDouble := Dbl.add_isDouble _ _

/-- The clamp `std::max(0.0, std::min(n, x))` of lines 57–58 returns a finite
non-negative double of at most `n`, whatever `x` is (NaN included). -/
theorem Dbl.clamp_spec (n : ℕ) (hn : n ≤ 2 ^ 53) (x : Dbl) (hx : x.IsDouble) :
    ∃ a, Dbl.stdMax Dbl.zero (Dbl.stdMin (Dbl.ofNat n) x) = Dbl.fin false a ∧ IsMag a ∧
      a ≤ (n : ℚ) := by
  rw [Dbl.ofNat_eq n hn]
  have hzero : ∃ a, Dbl.zero = Dbl.fin false a ∧ IsMag a ∧ a ≤ (n : ℚ) :=
    ⟨0, rfl, isMag_zero, Nat.cast_nonneg n⟩
  have htop : ∃ a, Dbl.stdMax Dbl.zero (Dbl.fin false (n : ℚ)) = Dbl.fin false a ∧ IsMag a ∧
      a ≤ (n : ℚ) := by
    unfold Dbl.stdMax
    split
    · exact ⟨n, rfl, isMag_natCast n hn, le_refl _⟩
    · exact hzero
  unfold Dbl.stdMin
  by_cases h1 : Dbl.lt x (Dbl.fin false (n : ℚ)) = true
  · rw [if_pos h1]
    unfold Dbl.stdMax
    by_cases h2 : Dbl.lt Dbl.zero x = true
    · rw [if_pos h2]
      cases x with
      | nan => exact absurd h2 (by decide)
      | inf m =>
        cases m
        · exact absurd h1 (by simp [Dbl.lt])
        · exact absurd h2 (by simp [Dbl.lt, Dbl.zero])
      | fin n1 a =>
        have ha : IsMag a := hx
        have hpos : 0 < (Dbl.fin n1 a).val := by
          simpa [Dbl.lt, Dbl.zero, Dbl.val] using h2
        have hlt : (Dbl.fin n1 a).val < (n : ℚ) := by
          simpa [Dbl.lt, Dbl.val] using h1
        cases n1
        · refine ⟨a, rfl, ha, ?_⟩
          have : (Dbl.fin false a).val = a := by simp [Dbl.val]
          rw [this] at hlt
          exact le_of_lt hlt
        · have : (Dbl.fin true a).val = -a := by simp [Dbl.val]
          rw [this] at hpos
          have := ha.1
          linarith
    · rw [if_neg h2]
      exact hzero
  · rw [if_neg h1]
    exact htop

/-- The floor of a finite non-negative double `a ≤ 2^53`, its conversion to
`size_t`, and the difference `a - floor(a)`, which is computed exactly. -/
theorem Dbl.frac_spec (a : ℚ) (ha : IsMag a) (hle : a ≤ ((2 ^ 53 : ℕ) : ℚ)) :
    Dbl.toSizeT (Dbl.floor (Dbl.fin false a)) = (Int.floor a).toNat ∧
      (((Int.floor a).toNat : ℕ) : ℚ) ≤ a ∧ a < (((Int.floor a).toNat : ℕ) : ℚ) + 1 ∧
      Dbl.sub (Dbl.fin false a) (Dbl.ofNat (Int.floor a).toNat) =
        Dbl.fin false (a - (((Int.floor a).toNat : ℕ) : ℚ)) ∧
      IsMag (a - (((Int.floor a).toNat : ℕ) : ℚ)) := by
  have h0 : 0 ≤ a := ha.1
  have hf0 : 0 ≤ Int.floor a := Int.floor_nonneg.mpr h0
  obtain ⟨k, hk⟩ := Int.eq_ofNat_of_zero_le hf0
  have hkn : (Int.floor a).toNat = k := by rw [hk]; simp
  have hk1 : (k : ℚ) ≤ a := by
    have := Int.floor_le a
    rw [hk] at this
    exact_mod_cast this
  have hk2 : a < (k : ℚ) + 1 := by
    have := Int.lt_floor_add_one a
    rw [hk] at this
    exact_mod_cast this
  have hk53 : k ≤ 2 ^ 53 := by
    have : (k : ℚ) ≤ ((2 ^ 53 : ℕ) : ℚ) := le_trans hk1 hle
    exact_mod_cast this
  rw [hkn]
  have hfloor : Dbl.floor (Dbl.fin false a) = Dbl.fin false (k : ℚ) := by
    unfold Dbl.floor
    simp only [Dbl.val, Bool.false_eq_true, if_false, Bool.false_and, Bool.or_false]
    rw [hk]
    simp
  have hmag : IsMag (a - (k : ℚ)) := by
    obtain ⟨m, t, hm, ht, hrep, -⟩ := (isMag_iff a).mp ha
    rcases le_or_lt 0 t with htn | htn
    · -- `a` is an integer
      obtain ⟨e, he⟩ := Int.eq_ofNat_of_zero_le htn
      have hint : a = ((m * 2 ^ e : ℕ) : ℚ) := by
        rw [hrep, he, pow2_natCast]; push_cast; ring
      have hfl : Int.floor a = ((m * 2 ^ e : ℕ) : ℤ) := by
        rw [hint]; exact Int.floor_natCast _
      have : (k : ℤ) = ((m * 2 ^ e : ℕ) : ℤ) := by rw [← hk, hfl]
      have hke : k = m * 2 ^ e := by exact_mod_cast this
      rw [hint, hke, sub_self]
      exact isMag_zero
    · obtain ⟨e, he⟩ := Int.eq_ofNat_of_zero_le (by omega : 0 ≤ -t)
      have hpe : pow2 t * ((2 ^ e : ℕ) : ℚ) = 1 := by
        rw [← pow2_natCast, ← he, ← pow2_add]
        have : t + -t = 0 := by ring
        rw [this]; decide!
      have hpp : (0 : ℚ) < ((2 ^ e : ℕ) : ℚ) := by positivity
      have hdiv : a = (m : ℚ) / ((2 ^ e : ℕ) : ℚ) := by
        rw [hrep, eq_div_iff (ne_of_gt hpp), mul_assoc, hpe, mul_one]
      have hfl : Int.floor a = ((m / 2 ^ e : ℕ) : ℤ) := by
        rw [hdiv]
        have := Rat.floor_intCast_div_natCast (m : ℤ) (2 ^ e)
        rw [Int.cast_natCast] at this
        rw [this]
        norm_cast
      have hke : k = m / 2 ^ e := by
        have : (k : ℤ) = ((m / 2 ^ e : ℕ) : ℤ) := by rw [← hk, hfl]
        exact_mod_cast this
      have hfrac : a - (k : ℚ) = ((m % 2 ^ e : ℕ) : ℚ) * pow2 t := by
        have h1 := Nat.div_add_mod m (2 ^ e)
        have h3 : (m : ℚ) = ((2 ^ e : ℕ) : ℚ) * ((m / 2 ^ e : ℕ) : ℚ) + ((m % 2 ^ e : ℕ) : ℚ) := by
          exact_mod_cast h1.symm
        rw [hke, hrep]
        have : ((m / 2 ^ e : ℕ) : ℚ) = ((m / 2 ^ e : ℕ) : ℚ) * (pow2 t * ((2 ^ e : ℕ) : ℚ)) := by
          rw [hpe, mul_one]
        rw [this]
        conv_lhs => rw [h3]
        ring
      rw [isMag_iff]
      refine ⟨m % 2 ^ e, t, lt_of_le_of_lt (Nat.mod_le _ _) hm, ht, hfrac, ?_⟩
      have : a - (k : ℚ) < 1 := by linarith
      have h1024 : (1 : ℚ) < pow2 1024 := by decide!
      linarith
  refine ⟨?_, hk1, hk2, ?_, hmag⟩
  · rw [hfloor]
    unfold Dbl.toSizeT
    simp
  · rw [Dbl.ofNat_eq k hk53]
    show Dbl.add (Dbl.fin false a) (Dbl.fin true (k : ℚ)) = _
    have hs : (Dbl.fin false a).val + (Dbl.fin true (k : ℚ)).val = a - k := by
      simp [Dbl.val]; ring
    have e : Dbl.add (Dbl.fin false a) (Dbl.fin true (k : ℚ)) =
        if a - (k : ℚ) = 0 then Dbl.fin (false && true) 0
        else Dbl.round (decide (a - (k : ℚ) < 0)) |a - (k : ℚ)| := by
      rw [← hs]; rfl
    rw [e]
    by_cases hz : a - (k : ℚ) = 0
    · rw [if_pos hz, hz]; rfl
    · rw [if_neg hz]
      have hpos : 0 ≤ a - (k : ℚ) := by linarith
      rw [abs_of_nonneg hpos, Dbl.round_isMag _ _ hmag]
      congr 1
      simp [not_lt.mpr hpos]

theorem pow2_neg53 : pow2 (-53) = 1 / 9007199254740992 := by decide!

theorem pow2_neg1022_le_one : pow2 (-1022) ≤ 1 := by
  have := pow2_le_pow2 (show (-1022 : ℤ) ≤ 0 by norm_num)
  have e : pow2 0 = 1 := by decide!
  rw [e] at this
  exact this

theorem pow2_1023_eq : pow2 1023 = 16 * pow2 1019 := by
  rw [show (1023 : ℤ) = 4 + 1019 by norm_num, pow2_add]
  congr 1

/-- The back-traced column, its corner and its weight, for every velocity, `dt`
and `dx`: the weight is a finite double in `[0, 1)` and the corner is a column
of the grid. -/
theorem weightX_spec_f64 (s : F64.FluidSimulator) (u0 : List Dbl) (i j : Nat)
    (hnx : s.nx ≤ 2 ^ 53) (hj : j < s.nx) :
    ∃ sx, F64.weightX s u0 i j = Dbl.fin false sx ∧ IsMag sx ∧ sx < 1 ∧
      F64.cornerX0 s u0 i j < s.nx := by
  obtain ⟨a, hback, hmag, hle⟩ := Dbl.clamp_spec (s.nx - 1) (by omega)
    (Dbl.sub (Dbl.ofNat j) (Dbl.mul (u0.getD (idx i j s.nx) Dbl.zero) (Dbl.div s.dt s.dx)))
    (Dbl.sub_isDouble _ _)
  have hle53 : a ≤ ((2 ^ 53 : ℕ) : ℚ) :=
    le_trans hle (by exact_mod_cast (by omega : s.nx - 1 ≤ 2 ^ 53))
  obtain ⟨h1, h2, h3, h4, h5⟩ := Dbl.frac_spec a hmag hle53
  have hb : F64.backX s u0 i j = Dbl.fin false a := hback
  have hc : F64.cornerX0 s u0 i j = (Int.floor a).toNat := by
    unfold F64.cornerX0; rw [hb]; exact h1
  refine ⟨a - (((Int.floor a).toNat : ℕ) : ℚ), ?_, h5, by linarith, ?_⟩
  · unfold F64.weightX; rw [hc, hb]; exact h4
  · rw [hc]
    have : (((Int.floor a).toNat : ℕ) : ℚ) ≤ ((s.nx - 1 : ℕ) : ℚ) := le_trans h2 hle
    have h6 : (Int.floor a).toNat ≤ s.nx - 1 := by exact_mod_cast this
    omega

/-- The back-traced row, its corner and its weight. -/
theorem weightY_spec_f64 (s : F64.FluidSimulator) (v0 : List Dbl) (i j : Nat)
    (hny : s.ny ≤ 2 ^ 53) (hi : i < s.ny) :
    ∃ sy, F64.weightY s v0 i j = Dbl.fin false sy ∧ IsMag sy ∧ sy < 1 ∧
      F64.cornerY0 s v0 i j < s.ny := by
  obtain ⟨a, hback, hmag, hle⟩ := Dbl.clamp_spec (s.ny - 1) (by omega)
    (Dbl.sub (Dbl.ofNat i) (Dbl.mul (v0.getD (idx i j s.nx) Dbl.zero) (Dbl.div s.dt s.dx)))
    (Dbl.sub_isDouble _ _)
  have hle53 : a ≤ ((2 ^ 53 : ℕ) : ℚ) :=
    le_trans hle (by exact_mod_cast (by omega : s.ny - 1 ≤ 2 ^ 53))
  obtain ⟨h1, h2, h3, h4, h5⟩ := Dbl.frac_spec a hmag hle53
  have hb : F64.backY s v0 i j = Dbl.fin false a := hback
  have hc : F64.cornerY0 s v0 i j = (Int.floor a).toNat := by
    unfold F64.cornerY0; rw [hb]; exact h1
  refine ⟨a - (((Int.floor a).toNat : ℕ) : ℚ), ?_, h5, by linarith, ?_⟩
  · unfold F64.weightY; rw [hc, hb]; exact h4
  · rw [hc]
    have : (((Int.floor a).toNat : ℕ) : ℚ) ≤ ((s.ny - 1 : ℕ) : ℚ) := le_trans h2 hle
    have h6 : (Int.floor a).toNat ≤ s.ny - 1 := by exact_mod_cast this
    omega

/-- The complement `1 - w` of a weight in `[0, 1]`, as computed. -/
theorem Dbl.one_sub_spec (w : ℚ) (h0 : 0 ≤ w) (h1 : w ≤ 1) :
    ∃ a, Dbl.sub Dbl.one (Dbl.fin false w) = Dbl.fin false a ∧ IsMag a ∧ a ≤ 1 ∧
      |a - (1 - w)| ≤ pow2 (-53) := by
  have hs : (Dbl.fin false 1).val + (Dbl.fin true w).val = 1 - w := by
    simp [Dbl.val]; ring
  have e : Dbl.sub Dbl.one (Dbl.fin false w) =
      if 1 - w = 0 then Dbl.fin (false && true) 0
      else Dbl.round (decide (1 - w < 0)) |1 - w| := by
    show Dbl.add (Dbl.fin false 1) (Dbl.fin true w) = _
    rw [← hs]; rfl
  rw [e]
  have hη : 0 ≤ pow2 (-53) := le_of_lt (pow2_pos _)
  by_cases hz : 1 - w = 0
  · rw [if_pos hz]
    refine ⟨0, rfl, isMag_zero, by norm_num, ?_⟩
    rw [hz, sub_zero, abs_zero]; exact hη
  · rw [if_neg hz]
    have hpos : 0 ≤ 1 - w := by linarith
    rw [abs_of_nonneg hpos]
    have hdec : decide (1 - w < 0) = false := by simp [not_lt.mpr hpos]
    rw [hdec]
    have hle1 : rndMag (1 - w) ≤ 1 := rndMag_le_one _ hpos (by linarith)
    have hlt : rndMag (1 - w) < pow2 1024 := lt_of_le_of_lt hle1 (by decide!)
    have herr := rndMag_err (1 - w) 1 hpos (by linarith) pow2_neg1022_le_one
    rw [mul_one] at herr
    refine ⟨rndMag (1 - w), ?_, isMag_rndMag _ hpos hlt, hle1, herr⟩
    unfold Dbl.round
    rw [if_neg (not_le.mpr hlt)]

/-- The product of two weights in `[0, 1]`, as computed. -/
theorem Dbl.mul_unit (a b : ℚ) (ha : 0 ≤ a) (ha1 : a ≤ 1) (hb : 0 ≤ b) (hb1 : b ≤ 1) :
    ∃ w, Dbl.mul (Dbl.fin false a) (Dbl.fin false b) = Dbl.fin false w ∧ IsMag w ∧ w ≤ 1 ∧
      |w - a * b| ≤ pow2 (-53) := by
  have hpos : 0 ≤ a * b := mul_nonneg ha hb
  have hle : a * b ≤ 1 := by nlinarith
  have hle1 : rndMag (a * b) ≤ 1 := rndMag_le_one _ hpos hle
  have hlt : rndMag (a * b) < pow2 1024 := lt_of_le_of_lt hle1 (by decide!)
  have herr := rndMag_err (a * b) 1 hpos hle pow2_neg1022_le_one
  rw [mul_one] at herr
  refine ⟨rndMag (a * b), ?_, isMag_rndMag _ hpos hlt, hle1, herr⟩
  show Dbl.round (xor false false) (a * b) = _
  unfold Dbl.round
  rw [if_neg (not_le.mpr hlt)]
  rfl

theorem abs_mul_bound (x f k B : ℚ) (hx : |x| ≤ k) (hf : |f| ≤ B) : |x * f| ≤ k * B := by
  rw [abs_mul]
  exact mul_le_mul hx hf (abs_nonneg _) (le_trans (abs_nonneg _) hx)

/-- Accumulated rounding error of the bilinear interpolation of lines 76–77. -/
theorem interp_error (η B sx sy a b w00 w10 w01 w11 f00 f10 f01 f11 p00 p10 p01 p11 s1 s2 s3 : ℚ)
    (hsx0 : 0 ≤ sx) (hsx1 : sx ≤ 1) (hsy0 : 0 ≤ sy) (hsy1 : sy ≤ 1)
    (ha : |a - (1 - sx)| ≤ η) (hb : |b - (1 - sy)| ≤ η)
    (hb0 : 0 ≤ b) (hb1 : b ≤ 1)
    (hw00 : |w00 - a * b| ≤ η) (hw10 : |w10 - sx * b| ≤ η)
    (hw01 : |w01 - a * sy| ≤ η) (hw11 : |w11 - sx * sy| ≤ η)
    (hf00 : |f00| ≤ B) (hf10 : |f10| ≤ B) (hf01 : |f01| ≤ B) (hf11 : |f11| ≤ B)
    (hp00 : |p00 - w00 * f00| ≤ η * B) (hp10 : |p10 - w10 * f10| ≤ η * B)
    (hp01 : |p01 - w01 * f01| ≤ η * B) (hp11 : |p11 - w11 * f11| ≤ η * B)
    (hs1 : |s1 - (p00 + p10)| ≤ η * (4 * B)) (hs2 : |s2 - (s1 + p01)| ≤ η * (7 * B))
    (hs3 : |s3 - (s2 + p11)| ≤ η * (10 * B)) :
    |s3 - ((1 - sx) * (1 - sy) * f00 + sx * (1 - sy) * f10 + (1 - sx) * sy * f01 +
        sx * sy * f11)| ≤ 33 * (η * B) := by
  have hsx : |sx| ≤ 1 := by rw [abs_of_nonneg hsx0]; exact hsx1
  have hsy : |sy| ≤ 1 := by rw [abs_of_nonneg hsy0]; exact hsy1
  have hbb : |b| ≤ 1 := by rw [abs_of_nonneg hb0]; exact hb1
  have hax : |1 - sx| ≤ 1 := by rw [abs_le]; constructor <;> linarith
  -- weight errors
  have k1 : |(a - (1 - sx)) * b| ≤ η * 1 := abs_mul_bound _ _ _ _ ha hbb
  have k2 : |(1 - sx) * (b - (1 - sy))| ≤ 1 * η := by
    rw [mul_comm (1 - sx)]; rw [mul_comm (1 : ℚ)]; exact abs_mul_bound _ _ _ _ hb hax
  have k3 : |sx * (b - (1 - sy))| ≤ 1 * η := by
    rw [mul_comm sx, mul_comm (1 : ℚ)]; exact abs_mul_bound _ _ _ _ hb hsx
  have k4 : |(a - (1 - sx)) * sy| ≤ η * 1 := abs_mul_bound _ _ _ _ ha hsy
  have d00 : |w00 - (1 - sx) * (1 - sy)| ≤ 3 * η := by
    rw [abs_le] at hw00 k1 k2 ⊢
    constructor <;> linarith only [hw00.1, hw00.2, k1.1, k1.2, k2.1, k2.2]
  have d10 : |w10 - sx * (1 - sy)| ≤ 2 * η := by
    rw [abs_le] at hw10 k3 ⊢
    constructor <;> linarith only [hw10.1, hw10.2, k3.1, k3.2]
  have d01 : |w01 - (1 - sx) * sy| ≤ 2 * η := by
    rw [abs_le] at hw01 k4 ⊢
    constructor <;> linarith only [hw01.1, hw01.2, k4.1, k4.2]
  have t00 := abs_mul_bound _ _ _ _ d00 hf00
  have t10 := abs_mul_bound _ _ _ _ d10 hf10
  have t01 := abs_mul_bound _ _ _ _ d01 hf01
  have t11 := abs_mul_bound _ _ _ _ hw11 hf11
  rw [abs_le] at hp00 hp10 hp01 hp11 hs1 hs2 hs3 t00 t10 t01 t11 ⊢
  constructor <;> linarith only [hp00.1, hp00.2, hp10.1, hp10.2, hp01.1, hp01.2, hp11.1, hp11.2,
    hs1.1, hs1.2, hs2.1, hs2.2, hs3.1, hs3.2, t00.1, t00.2, t10.1, t10.2, t01.1, t01.2,
    t11.1, t11.2]

theorem Dbl.val_fin_false (a : ℚ) : (Dbl.fin false a).val = a := by simp [Dbl.val]

/-- A weight in `[0, 1]` times a field value bounded by `B`, as computed. -/
theorem Dbl.weight_mul_near (w : ℚ) (hw : IsMag w) (hw1 : w ≤ 1) (f : Dbl)
    (hf : f.isFinite = true ∧ f.IsDouble) (B : ℚ) (hfB : |f.val| ≤ B)
    (hB1 : pow2 (-1022) ≤ B) (hB2 : B ≤ pow2 1019) :
    ((Dbl.mul (Dbl.fin false w) f).isFinite = true ∧ (Dbl.mul (Dbl.fin false w) f).IsDouble) ∧
      |(Dbl.mul (Dbl.fin false w) f).val - w * f.val| ≤ pow2 (-53) * B ∧
      |(Dbl.mul (Dbl.fin false w) f).val| ≤ 2 * B := by
  have hB0 : 0 ≤ B := le_trans (le_of_lt (pow2_pos _)) hB1
  have hwf : |w * f.val| ≤ B := by
    have := abs_mul_bound w f.val 1 B (by rw [abs_of_nonneg hw.1]; exact hw1) hfB
    rw [one_mul] at this
    exact this
  have h := Dbl.mul_near (Dbl.fin false w) f B ⟨rfl, hw⟩ hf
    (by rw [Dbl.val_fin_false]; exact hwf) hB1
    (by rw [pow2_1023_eq]; linarith)
  rw [Dbl.val_fin_false] at h
  refine ⟨h.1, h.2, ?_⟩
  have h2 := h.2
  rw [pow2_neg53] at h2
  rw [abs_le] at h2 hwf ⊢
  constructor <;> linarith only [h2.1, h2.2, hwf.1, hwf.2, hB0]

/-- The bilinear interpolation of lines 76–77 in `double` arithmetic, for weights
in `[0, 1]` and field values bounded by `B`: the result is finite and within
`33 · 2^-53 · B` of the exact combination. -/
theorem Dbl.interp_near (sx sy : ℚ) (hsx : IsMag sx) (hsx1 : sx ≤ 1) (hsy : IsMag sy)
    (hsy1 : sy ≤ 1) (f00 f10 f01 f11 : Dbl)
    (h00 : f00.isFinite = true ∧ f00.IsDouble) (h10 : f10.isFinite = true ∧ f10.IsDouble)
    (h01 : f01.isFinite = true ∧ f01.IsDouble) (h11 : f11.isFinite = true ∧ f11.IsDouble)
    (B : ℚ) (hB1 : pow2 (-1022) ≤ B) (hB2 : B ≤ pow2 1019)
    (b00 : |f00.val| ≤ B) (b10 : |f10.val| ≤ B) (b01 : |f01.val| ≤ B) (b11 : |f11.val| ≤ B) :
    (Dbl.add
      (Dbl.add
        (Dbl.add
          (Dbl.mul (Dbl.mul (Dbl.sub Dbl.one (Dbl.fin false sx))
            (Dbl.sub Dbl.one (Dbl.fin false sy))) f00)
          (Dbl.mul (Dbl.mul (Dbl.fin false sx) (Dbl.sub Dbl.one (Dbl.fin false sy))) f10))
        (Dbl.mul (Dbl.mul (Dbl.sub Dbl.one (Dbl.fin false sx)) (Dbl.fin false sy)) f01))
      (Dbl.mul (Dbl.mul (Dbl.fin false sx) (Dbl.fin false sy)) f11)).isFinite = true ∧
    |(Dbl.add
      (Dbl.add
        (Dbl.add
          (Dbl.mul (Dbl.mul (Dbl.sub Dbl.one (Dbl.fin false sx))
            (Dbl.sub Dbl.one (Dbl.fin false sy))) f00)
          (Dbl.mul (Dbl.mul (Dbl.fin false sx) (Dbl.sub Dbl.one (Dbl.fin false sy))) f10))
        (Dbl.mul (Dbl.mul (Dbl.sub Dbl.one (Dbl.fin false sx)) (Dbl.fin false sy)) f01))
      (Dbl.mul (Dbl.mul (Dbl.fin false sx) (Dbl.fin false sy)) f11)).val -
      ((1 - sx) * (1 - sy) * f00.val + sx * (1 - sy) * f10.val + (1 - sx) * sy * f01.val +
        sx * sy * f11.val)| ≤ 33 * (pow2 (-53) * B) := by
  have hB0 : 0 ≤ B := le_trans (le_of_lt (pow2_pos _)) hB1
  obtain ⟨a, ea, hma, ha1, hae⟩ := Dbl.one_sub_spec sx hsx.1 hsx1
  obtain ⟨b, eb, hmb, hb1, hbe⟩ := Dbl.one_sub_spec sy hsy.1 hsy1
  rw [ea, eb]
  obtain ⟨w00, e00, hm00, hw00, he00⟩ := Dbl.mul_unit a b hma.1 ha1 hmb.1 hb1
  obtain ⟨w10, e10, hm10, hw10, he10⟩ := Dbl.mul_unit sx b hsx.1 hsx1 hmb.1 hb1
  obtain ⟨w01, e01, hm01, hw01, he01⟩ := Dbl.mul_unit a sy hma.1 ha1 hsy.1 hsy1
  obtain ⟨w11, e11, hm11, hw11, he11⟩ := Dbl.mul_unit sx sy hsx.1 hsx1 hsy.1 hsy1
  rw [e00, e10, e01, e11]
  obtain ⟨q00, r00, c00⟩ := Dbl.weight_mul_near w00 hm00 hw00 f00 h00 B b00 hB1 hB2
  obtain ⟨q10, r10, c10⟩ := Dbl.weight_mul_near w10 hm10 hw10 f10 h10 B b10 hB1 hB2
  obtain ⟨q01, r01, c01⟩ := Dbl.weight_mul_near w01 hm01 hw01 f01 h01 B b01 hB1 hB2
  obtain ⟨q11, r11, c11⟩ := Dbl.weight_mul_near w11 hm11 hw11 f11 h11 B b11 hB1 hB2
  generalize Dbl.mul (Dbl.fin false w00) f00 = p00 at q00 r00 c00 ⊢
  generalize Dbl.mul (Dbl.fin false w10) f10 = p10 at q10 r10 c10 ⊢
  generalize Dbl.mul (Dbl.fin false w01) f01 = p01 at q01 r01 c01 ⊢
  generalize Dbl.mul (Dbl.fin false w11) f11 = p11 at q11 r11 c11 ⊢
  have hX4 : pow2 (-1022) ≤ 4 * B := by linarith
  have hX7 : pow2 (-1022) ≤ 7 * B := by linarith
  have hX10 : pow2 (-1022) ≤ 10 * B := by linarith
  have hY4 : 4 * B ≤ pow2 1023 := by rw [pow2_1023_eq]; linarith
  have hY7 : 7 * B ≤ pow2 1023 := by rw [pow2_1023_eq]; linarith
  have hY10 : 10 * B ≤ pow2 1023 := by rw [pow2_1023_eq]; linarith
  -- first sum
  have g1 : |p00.val + p10.val| ≤ 4 * B := by
    rw [abs_le] at c00 c10 ⊢
    constructor <;> linarith only [c00.1, c00.2, c10.1, c10.2, hB0]
  obtain ⟨q1, r1⟩ := Dbl.add_near p00 p10 (4 * B) q00.1 q10.1 g1 hX4 hY4
  generalize Dbl.add p00 p10 = s1 at q1 r1 ⊢
  have g2 : |s1.val + p01.val| ≤ 7 * B := by
    have r1b := r1
    rw [pow2_neg53] at r1b
    rw [abs_le] at g1 r1b c01 ⊢
    constructor <;> linarith only [g1.1, g1.2, r1b.1, r1b.2, c01.1, c01.2, hB0]
  obtain ⟨q2, r2⟩ := Dbl.add_near s1 p01 (7 * B) q1.1 q01.1 g2 hX7 hY7
  generalize Dbl.add s1 p01 = s2 at q2 r2 ⊢
  have g3 : |s2.val + p11.val| ≤ 10 * B := by
    have r2b := r2
    rw [pow2_neg53] at r2b
    rw [abs_le] at g2 r2b c11 ⊢
    constructor <;> linarith only [g2.1, g2.2, r2b.1, r2b.2, c11.1, c11.2, hB0]
  obtain ⟨q3, r3⟩ := Dbl.add_near s2 p11 (10 * B) q2.1 q11.1 g3 hX10 hY10
  refine ⟨q3.1, ?_⟩
  exact interp_error (pow2 (-53)) B sx sy a b w00 w10 w01 w11 f00.val f10.val f01.val f11.val
    p00.val p10.val p01.val p11.val s1.val s2.val _ hsx.1 hsx1 hsy.1 hsy1 hae hbe hmb.1 hb1
    he00 he10 he01 he11 b00 b10 b01 b11 r00 r10 r01 r11 r1 r2 r3

/-! ## Advection and the maximum principle (C18) -/

theorem pow2_neg47 : pow2 (-47) = 64 * pow2 (-53) := by decide!

/-- C18, as stated, fails: on the uniform field `5` of a 2 × 2 grid with
`dt = dx = 1` and reference velocity `(0.9, 0.9)`, the weights of cell `(1, 1)`
are `sx = sy = 0.09999999999999998`, and the rounded sum of the four rounded
products is `5 + 2^-50 = 5.000000000000001`, above the maximum `5` of the
field. -/
theorem advect_maximum_principle_counterexample :
    (F64.advect (F64.construct 2 2 Dbl.one Dbl.one (Dbl.ofRat (1 / 50)) Dbl.one)
        (List.replicate 4 (Dbl.ofNat 5)) (List.replicate 4 (Dbl.ofRat (9 / 10)))
        (List.replicate 4 (Dbl.ofRat (9 / 10)))).getD (idx 1 1 2) Dbl.zero =
      Dbl.fin false (5 + pow2 (-50)) ∧
      Dbl.lt (Dbl.ofNat 5) (Dbl.fin false (5 + pow2 (-50))) = true := by
  decide!

/-- C18 (amended): for every `nx, ny ≥ 1` (at most `2^53`), every `dt` and `dx`,
every reference velocity `(u0, v0)` (infinite and NaN values included), every
mask and every field of `nx * ny` finite values, at every non-obstacle cell the
interpolation weights `sx`, `sy` are finite doubles in `[0, 1)` and the four
corners are cells of the grid; no restriction relating `dt` to `dx` or to the
velocity is needed.  The stored value is the combination
`(1-sx)(1-sy) f00 + sx (1-sy) f10 + (1-sx) sy f01 + sx sy f11` evaluated with
nine rounded products and three rounded sums: for a bound `B` of the absolute
values of the field with `2^-1022 ≤ B ≤ 2^1019` it is finite, within `2^-47 B` of
the exact convex combination, and so between `min - 2^-47 B` and
`max + 2^-47 B`; it need not lie between the minimum and the maximum. -/
theorem advect_stable_f64 (s : F64.FluidSimulator) (field u0 v0 : List Dbl)
    (hnx : s.nx ≤ 2 ^ 53) (hny : s.ny ≤ 2 ^ 53) (hlen : field.length = s.nx * s.ny)
    (B lo hi : ℚ) (hB1 : pow2 (-1022) ≤ B) (hB2 : B ≤ pow2 1019)
    (hlo : -B ≤ lo) (hhi : hi ≤ B)
    (hf : ∀ x ∈ field, (x.isFinite = true ∧ x.IsDouble) ∧ lo ≤ x.val ∧ x.val ≤ hi)
    (i j : Nat) (hi' : i < s.ny) (hj : j < s.nx)
    (hs : s.obstacle.getD (idx i j s.nx) false = false) :
    (∃ sx sy, F64.weightX s u0 i j = Dbl.fin false sx ∧
        F64.weightY s v0 i j = Dbl.fin false sy ∧
        0 ≤ sx ∧ sx < 1 ∧ 0 ≤ sy ∧ sy < 1 ∧
        |((F64.advect s field u0 v0).getD (idx i j s.nx) Dbl.zero).val -
          ((1 - sx) * (1 - sy) *
              (field.getD (idx (F64.cornerY0 s v0 i j) (F64.cornerX0 s u0 i j) s.nx)
                Dbl.zero).val +
            sx * (1 - sy) *
              (field.getD (idx (F64.cornerY0 s v0 i j) (F64.cornerX1 s u0 i j) s.nx)
                Dbl.zero).val +
            (1 - sx) * sy *
              (field.getD (idx (F64.cornerY1 s v0 i j) (F64.cornerX0 s u0 i j) s.nx)
                Dbl.zero).val +
            sx * sy *
              (field.getD (idx (F64.cornerY1 s v0 i j) (F64.cornerX1 s u0 i j) s.nx)
                Dbl.zero).val)| ≤ pow2 (-47) * B) ∧
      (F64.cornerX0 s u0 i j < s.nx ∧ F64.cornerX1 s u0 i j < s.nx ∧
        F64.cornerY0 s v0 i j < s.ny ∧ F64.cornerY1 s v0 i j < s.ny) ∧
      ((F64.advect s field u0 v0).getD (idx i j s.nx) Dbl.zero).isFinite = true ∧
      lo - pow2 (-47) * B ≤ ((F64.advect s field u0 v0).getD (idx i j s.nx) Dbl.zero).val ∧
      ((F64.advect s field u0 v0).getD (idx i j s.nx) Dbl.zero).val ≤ hi + pow2 (-47) * B := by
  have hB0 : 0 ≤ B := le_trans (le_of_lt (pow2_pos _)) hB1
  obtain ⟨sx, ex, hmx, hx1, cx0⟩ := weightX_spec_f64 s u0 i j hnx hj
  obtain ⟨sy, ey, hmy, hy1, cy0⟩ := weightY_spec_f64 s v0 i j hny hi'
  have cx1 : F64.cornerX1 s u0 i j < s.nx := by unfold F64.cornerX1; omega
  have cy1 : F64.cornerY1 s v0 i j < s.ny := by unfold F64.cornerY1; omega
  have hin : ∀ a b, a < s.ny → b < s.nx →
      ((field.getD (idx a b s.nx) Dbl.zero).isFinite = true ∧
        (field.getD (idx a b s.nx) Dbl.zero).IsDouble) ∧
      lo ≤ (field.getD (idx a b s.nx) Dbl.zero).val ∧
      (field.getD (idx a b s.nx) Dbl.zero).val ≤ hi := by
    intro a b ha hb
    exact hf _ (getD_mem field _ Dbl.zero (by rw [hlen]; exact idx_lt ha hb))
  have habs : ∀ a b, a < s.ny → b < s.nx → |(field.getD (idx a b s.nx) Dbl.zero).val| ≤ B := by
    intro a b ha hb
    have := hin a b ha hb
    rw [abs_le]
    constructor <;> linarith [this.2.1, this.2.2]
  have hval : (F64.advect s field u0 v0).getD (idx i j s.nx) Dbl.zero =
      F64.advectCell s field u0 v0 i j := by
    rw [advect_cells_f64 s field u0 v0 i j hi' hj, if_neg (by rw [hs]; decide)]
  have hnear := Dbl.interp_near sx sy hmx (le_of_lt hx1) hmy (le_of_lt hy1)
    (field.getD (idx (F64.cornerY0 s v0 i j) (F64.cornerX0 s u0 i j) s.nx) Dbl.zero)
    (field.getD (idx (F64.cornerY0 s v0 i j) (F64.cornerX1 s u0 i j) s.nx) Dbl.zero)
    (field.getD (idx (F64.cornerY1 s v0 i j) (F64.cornerX0 s u0 i j) s.nx) Dbl.zero)
    (field.getD (idx (F64.cornerY1 s v0 i j) (F64.cornerX1 s u0 i j) s.nx) Dbl.zero)
    (hin _ _ cy0 cx0).1 (hin _ _ cy0 cx1).1 (hin _ _ cy1 cx0).1 (hin _ _ cy1 cx1).1
    B hB1 hB2 (habs _ _ cy0 cx0) (habs _ _ cy0 cx1) (habs _ _ cy1 cx0) (habs _ _ cy1 cx1)
  have hcell : F64.advectCell s field u0 v0 i j =
      Dbl.add
        (Dbl.add
          (Dbl.add
            (Dbl.mul (Dbl.mul (Dbl.sub Dbl.one (Dbl.fin false sx))
              (Dbl.sub Dbl.one (Dbl.fin false sy)))
              (field.getD (idx (F64.cornerY0 s v0 i j) (F64.cornerX0 s u0 i j) s.nx) Dbl.zero))
            (Dbl.mul (Dbl.mul (Dbl.fin false sx) (Dbl.sub Dbl.one (Dbl.fin false sy)))
              (field.getD (idx (F64.cornerY0 s v0 i j) (F64.cornerX1 s u0 i j) s.nx) Dbl.zero)))
          (Dbl.mul (Dbl.mul (Dbl.sub Dbl.one (Dbl.fin false sx)) (Dbl.fin false sy))
            (field.getD (idx (F64.cornerY1 s v0 i j) (F64.cornerX0 s u0 i j) s.nx) Dbl.zero)))
        (Dbl.mul (Dbl.mul (Dbl.fin false sx) (Dbl.fin false sy))
          (field.getD (idx (F64.cornerY1 s v0 i j) (F64.cornerX1 s u0 i j) s.nx) Dbl.zero)) := by
    unfold F64.advectCell
    dsimp only
    rw [ex, ey]
  rw [hval, hcell]
  have herr : 33 * (pow2 (-53) * B) ≤ pow2 (-47) * B := by
    rw [pow2_neg47]
    have := mul_nonneg (le_of_lt (pow2_pos (-53))) hB0
    linarith
  have hdist := le_trans hnear.2 herr
  have p1 : 0 ≤ (1 - sx) * (1 - sy) := mul_nonneg (by linarith) (by linarith)
  have p2 : 0 ≤ sx * (1 - sy) := mul_nonneg hmx.1 (by linarith)
  have p3 : 0 ≤ (1 - sx) * sy := mul_nonneg (by linarith) hmy.1
  have p4 : 0 ≤ sx * sy := mul_nonneg hmx.1 hmy.1
  have ps : (1 - sx) * (1 - sy) + sx * (1 - sy) + (1 - sx) * sy + sx * sy = 1 := by ring
  have hconv := convex4_bounds _ _ _ _ _ _ _ _ lo hi p1 p2 p3 p4 ps
    (hin _ _ cy0 cx0).2 (hin _ _ cy0 cx1).2 (hin _ _ cy1 cx0).2 (hin _ _ cy1 cx1).2
  refine ⟨⟨sx, sy, ex, ey, hmx.1, hx1, hmy.1, hy1, hdist⟩, ⟨cx0, cx1, cy0, cy1⟩, hnear.1, ?_, ?_⟩
  · have := (abs_le.mp hdist).1
    linarith [hconv.1]
  · have := (abs_le.mp hdist).2
    linarith [hconv.2]

/-- Instance of C18: the uniform field `5` on a 2 × 2 grid with `dt = dx = 1` and
reference velocity `(0.9, 0.9)`, cell `(1, 1)`, with `B = 8`. -/
theorem advect_stable_f64_witness :
    ((F64.advect (F64.construct 2 2 Dbl.one Dbl.one (Dbl.ofRat (1 / 50)) Dbl.one)
        (List.replicate 4 (Dbl.ofNat 5)) (List.replicate 4 (Dbl.ofRat (9 / 10)))
        (List.replicate 4 (Dbl.ofRat (9 / 10)))).getD (idx 1 1 2) Dbl.zero).val ≤
      5 + pow2 (-47) * 8 :=
  (advect_stable_f64 (F64.construct 2 2 Dbl.one Dbl.one (Dbl.ofRat (1 / 50)) Dbl.one)
    (List.replicate 4 (Dbl.ofNat 5)) (List.replicate 4 (Dbl.ofRat (9 / 10)))
    (List.replicate 4 (Dbl.ofRat (9 / 10))) (by decide) (by decide) (by decide)
    8 5 5 (by decide!) (by decide!) (by norm_num) (by norm_num) (by decide!)
    1 1 (by decide) (by decide) (by decide!)).2.2.2.2

/-! ## Rounding errors of the diffusion update -/

theorem abs_le_of_mul_le (x D c : ℚ) (hD : 0 < D) (h : |x * D| ≤ c * D) : |x| ≤ c := by
  rw [abs_mul, abs_of_pos hD] at h
  exact le_of_mul_le_mul_right h hD

/-- The quotient of a stencil `|N| ≤ 9 B` by a square `D ≥ (9/16) q`. -/
theorem stencil_quotient_bound (N D B q : ℚ) (hq : 0 < q) (hD : 9 / 16 * q ≤ D)
    (hN : |N| ≤ 9 * B) : |N / D| ≤ 16 * B / q := by
  have hDpos : 0 < D := by linarith
  have hB : 0 ≤ B := by linarith only [abs_nonneg N, hN]
  rw [abs_div, abs_of_pos hDpos, div_le_div_iff₀ hDpos hq]
  have h1 : |N| * q ≤ 9 * B * q := mul_le_mul_of_nonneg_right hN (le_of_lt hq)
  have h2 : 16 * B * (9 / 16 * q) ≤ 16 * B * D :=
    mul_le_mul_of_nonneg_left hD (by linarith)
  linarith

/-- The product of the diffusion factor `|K| ≤ (13/50) q` with the Laplacian
`|L| ≤ 17 B / q`. -/
theorem factor_laplacian_bound (K L B q : ℚ) (hq : 0 < q) (hK : |K| ≤ 13 / 50 * q)
    (hL : |L| ≤ 17 * B / q) : |K * L| ≤ 5 * B := by
  have hB : 0 ≤ B := by
    have h := le_trans (abs_nonneg L) hL
    have : 0 ≤ 17 * B := by
      by_contra hc
      have : 17 * B / q < 0 := div_neg_of_neg_of_pos (not_le.mp hc) hq
      linarith
    linarith
  have h := abs_mul_bound K L _ _ hK hL
  have e : 13 / 50 * q * (17 * B / q) = 221 / 50 * B := by
    field_simp
    ring
  rw [e] at h
  linarith

/-- Accumulated rounding error of `field + (nu * dt) * lap` against the exact
update `f + (nu dt / dx²) (fN + fS + fW + fE - 4 f)`. -/
theorem diffuse_error (η q m K D B fN fS fW fE fC N L T r : ℚ)
    (hη : η = 1 / 9007199254740992) (hq : 0 < q) (hm0 : 0 ≤ m) (hm : 4 * m ≤ q)
    (hK : |K - m| ≤ η * q) (hD : |D - q| ≤ η * q)
    (bN : |fN| ≤ B) (bS : |fS| ≤ B) (bW : |fW| ≤ B) (bE : |fE| ≤ B) (bC : |fC| ≤ B)
    (hNN : |N - (fN + fS + fW + fE - 4 * fC)| ≤ 25 * (η * B))
    (hL : |L - N / D| ≤ η * (16 * B / q)) (hT : |T - K * L| ≤ η * (5 * B))
    (hr : |r - (fC + T)| ≤ η * (7 * B)) :
    |r - (fC + m / q * (fN + fS + fW + fE - 4 * fC))| ≤ 64 * (η * B) := by
  subst hη
  have hB : 0 ≤ B := le_trans (abs_nonneg _) bN
  have hD' := abs_le.mp hD
  have hK' := abs_le.mp hK
  have hD1 : 5 / 8 * q ≤ D := by linarith only [hD'.1, hq]
  have hDpos : 0 < D := by linarith
  have hρD : K / D * D = K := div_mul_cancel₀ K (ne_of_gt hDpos)
  have hMD : N / D * D = N := div_mul_cancel₀ N (ne_of_gt hDpos)
  have hρq : m / q * q = m := div_mul_cancel₀ m (ne_of_gt hq)
  have hρ0 : 0 ≤ m / q := div_nonneg hm0 (le_of_lt hq)
  have hρ4 : m / q ≤ 1 / 4 := by rw [div_le_iff₀ hq]; linarith
  generalize K / D = ρ at hρD
  generalize N / D = M at hMD hL
  generalize m / q = ρe at hρq hρ0 hρ4
  -- the computed ratio against the exact one
  have hρρ : |ρ - ρe| ≤ 2 * (1 / 9007199254740992) := by
    apply abs_le_of_mul_le _ D _ hDpos
    have k1 : |ρe * (q - D)| ≤ 1 / 4 * (1 / 9007199254740992 * q) := by
      apply abs_mul_bound
      · rw [abs_of_nonneg hρ0]; exact hρ4
      · rw [abs_sub_comm]; exact hD
    have k1' := abs_le.mp k1
    have e : (ρ - ρe) * D = (K - m) + ρe * (q - D) := by
      rw [sub_mul, hρD, ← hρq]; ring
    rw [e, abs_le]
    constructor <;> linarith only [hK'.1, hK'.2, k1'.1, k1'.2, hD1, hq]
  have hρρe := abs_le.mp hρρ
  have hρ : |ρ| ≤ 13 / 50 := by
    rw [abs_le]
    constructor <;> linarith only [hρρe.1, hρρe.2, hρ0, hρ4]
  have hKb : |K| ≤ 13 / 50 * q := by
    rw [abs_le]
    constructor <;> linarith only [hK'.1, hK'.2, hm0, hm, hq]
  have hKM : K * M = ρ * N := by rw [← hρD, ← hMD]; ring
  have t1 : |K * (L - M)| ≤ 13 / 50 * q * (1 / 9007199254740992 * (16 * B / q)) :=
    abs_mul_bound _ _ _ _ hKb hL
  have e1 : 13 / 50 * q * (1 / 9007199254740992 * (16 * B / q)) =
      104 / 25 * (1 / 9007199254740992 * B) := by
    field_simp
    ring
  rw [e1] at t1
  have t2 : |ρ * (N - (fN + fS + fW + fE - 4 * fC))| ≤
      13 / 50 * (25 * (1 / 9007199254740992 * B)) := abs_mul_bound _ _ _ _ hρ hNN
  have hN8 : |fN + fS + fW + fE - 4 * fC| ≤ 8 * B := by
    rw [abs_le] at bN bS bW bE bC ⊢
    constructor <;> linarith only [bN.1, bN.2, bS.1, bS.2, bW.1, bW.2, bE.1, bE.2, bC.1, bC.2]
  have t3 : |(ρ - ρe) * (fN + fS + fW + fE - 4 * fC)| ≤
      2 * (1 / 9007199254740992) * (8 * B) := abs_mul_bound _ _ _ _ hρρ hN8
  have t1' := abs_le.mp t1
  have t2' := abs_le.mp t2
  have t3' := abs_le.mp t3
  have hT' := abs_le.mp hT
  have hr' := abs_le.mp hr
  rw [abs_le]
  constructor <;> linarith only [t1'.1, t1'.2, t2'.1, t2'.2, t3'.1, t3'.2, hT'.1, hT'.2, hr'.1,
    hr'.2, hKM, hB]

theorem isMag_four : IsMag 4 := by decide!

/-- The update of an interior cell by `diffuse` in `double` arithmetic (lines 18–22
and 91), under the stability bound `4 nu dt ≤ dx²`: the result is finite and
within `2^-47 B` of the exact update. -/
theorem Dbl.diffuse_near (nu dt dx fN fS fW fE fC : Dbl)
    (hnu : nu.isFinite = true ∧ nu.IsDouble) (hdt : dt.isFinite = true ∧ dt.IsDouble)
    (hdx : dx.isFinite = true ∧ dx.IsDouble)
    (hnu0 : 0 ≤ nu.val) (hdt0 : 0 ≤ dt.val)
    (hq1 : pow2 (-1022) ≤ dx.val * dx.val) (hq2 : dx.val * dx.val ≤ pow2 1023)
    (hstab : 4 * (nu.val * dt.val) ≤ dx.val * dx.val)
    (B : ℚ) (hB1 : pow2 (-1022) ≤ B) (hB2 : B ≤ pow2 1019)
    (hBq1 : pow2 (-1022) * (dx.val * dx.val) ≤ B)
    (hBq2 : 16 * B ≤ pow2 1023 * (dx.val * dx.val))
    (hN : fN.isFinite = true ∧ fN.IsDouble) (hS : fS.isFinite = true ∧ fS.IsDouble)
    (hW : fW.isFinite = true ∧ fW.IsDouble) (hE : fE.isFinite = true ∧ fE.IsDouble)
    (hC : fC.isFinite = true ∧ fC.IsDouble)
    (bN : |fN.val| ≤ B) (bS : |fS.val| ≤ B) (bW : |fW.val| ≤ B) (bE : |fE.val| ≤ B)
    (bC : |fC.val| ≤ B) :
    (Dbl.add fC
      (Dbl.mul (Dbl.mul nu dt)
        (Dbl.div
          (Dbl.sub (Dbl.add (Dbl.add (Dbl.add fN fS) fW) fE) (Dbl.mul (Dbl.fin false 4) fC))
          (Dbl.mul dx dx)))).isFinite = true ∧
    |(Dbl.add fC
      (Dbl.mul (Dbl.mul nu dt)
        (Dbl.div
          (Dbl.sub (Dbl.add (Dbl.add (Dbl.add fN fS) fW) fE) (Dbl.mul (Dbl.fin false 4) fC))
          (Dbl.mul dx dx)))).val -
      (fC.val + nu.val * dt.val / (dx.val * dx.val) *
        (fN.val + fS.val + fW.val + fE.val - 4 * fC.val))| ≤ pow2 (-47) * B := by
  have hB0 : 0 ≤ B := le_trans (le_of_lt (pow2_pos _)) hB1
  generalize hq : dx.val * dx.val = q at hq1 hq2 hstab hBq1 hBq2 ⊢
  generalize hm : nu.val * dt.val = m at hstab ⊢
  have hqpos : 0 < q := lt_of_lt_of_le (pow2_pos _) hq1
  have hm0 : 0 ≤ m := by rw [← hm]; exact mul_nonneg hnu0 hdt0
  have hη := pow2_neg53
  -- the square and the diffusion factor
  obtain ⟨qD, rD⟩ := Dbl.mul_near dx dx q hdx hdx (by rw [hq, abs_of_pos hqpos]) hq1 hq2
  obtain ⟨qK, rK⟩ := Dbl.mul_near nu dt q hnu hdt
    (by rw [hm, abs_of_nonneg hm0]; linarith) hq1 hq2
  rw [hq] at rD
  rw [hm] at rK
  generalize Dbl.mul dx dx = D at qD rD ⊢
  generalize Dbl.mul nu dt = K at qK rK ⊢
  -- the stencil
  have hX2 : pow2 (-1022) ≤ 2 * B := by linarith
  have hX4 : pow2 (-1022) ≤ 4 * B := by linarith
  have hX5 : pow2 (-1022) ≤ 5 * B := by linarith
  have hX7 : pow2 (-1022) ≤ 7 * B := by linarith
  have hX10 : pow2 (-1022) ≤ 10 * B := by linarith
  have hY2 : 2 * B ≤ pow2 1023 := by rw [pow2_1023_eq]; linarith
  have hY4 : 4 * B ≤ pow2 1023 := by rw [pow2_1023_eq]; linarith
  have hY5 : 5 * B ≤ pow2 1023 := by rw [pow2_1023_eq]; linarith
  have hY7 : 7 * B ≤ pow2 1023 := by rw [pow2_1023_eq]; linarith
  have hY10 : 10 * B ≤ pow2 1023 := by rw [pow2_1023_eq]; linarith
  have bN' := abs_le.mp bN
  have bS' := abs_le.mp bS
  have bW' := abs_le.mp bW
  have bE' := abs_le.mp bE
  have bC' := abs_le.mp bC
  have g1 : |fN.val + fS.val| ≤ 2 * B := by
    rw [abs_le]; constructor <;> linarith only [bN'.1, bN'.2, bS'.1, bS'.2, hB0]
  obtain ⟨q1, r1⟩ := Dbl.add_near fN fS (2 * B) hN.1 hS.1 g1 hX2 hY2
  generalize Dbl.add fN fS = s1 at q1 r1 ⊢
  rw [hη] at r1
  have r1' := abs_le.mp r1
  have g2 : |s1.val + fW.val| ≤ 4 * B := by
    rw [abs_le]; constructor <;> linarith only [r1'.1, r1'.2, bN'.1, bN'.2, bS'.1, bS'.2, bW'.1, bW'.2, hB0]
  obtain ⟨q2, r2⟩ := Dbl.add_near s1 fW (4 * B) q1.1 hW.1 g2 hX4 hY4
  generalize Dbl.add s1 fW = s2 at q2 r2 ⊢
  rw [hη] at r2
  have r2' := abs_le.mp r2
  have g3 : |s2.val + fE.val| ≤ 5 * B := by
    rw [abs_le]
    constructor <;> linarith only [r1'.1, r1'.2, r2'.1, r2'.2, bN'.1, bN'.2, bS'.1, bS'.2, bW'.1,
      bW'.2, bE'.1, bE'.2, hB0]
  obtain ⟨q3, r3⟩ := Dbl.add_near s2 fE (5 * B) q2.1 hE.1 g3 hX5 hY5
  generalize Dbl.add s2 fE = s3 at q3 r3 ⊢
  rw [hη] at r3
  have r3' := abs_le.mp r3
  have gP : |(Dbl.fin false 4).val * fC.val| ≤ 4 * B := by
    rw [Dbl.val_fin_false, abs_le]; constructor <;> linarith only [bC'.1, bC'.2, hB0]
  obtain ⟨qP, rP⟩ := Dbl.mul_near (Dbl.fin false 4) fC (4 * B) ⟨rfl, isMag_four⟩ hC gP hX4 hY4
  rw [Dbl.val_fin_false] at rP
  generalize Dbl.mul (Dbl.fin false 4) fC = P at qP rP ⊢
  rw [hη] at rP
  have rP' := abs_le.mp rP
  have gN : |s3.val - P.val| ≤ 10 * B := by
    rw [abs_le]
    constructor <;> linarith only [r1'.1, r1'.2, r2'.1, r2'.2, r3'.1, r3'.2, rP'.1, rP'.2, bN'.1,
      bN'.2, bS'.1, bS'.2, bW'.1, bW'.2, bE'.1, bE'.2, bC'.1, bC'.2, hB0]
  obtain ⟨qN, rN⟩ := Dbl.sub_near s3 P (10 * B) q3.1 qP.1 gN hX10 hY10
  generalize Dbl.sub s3 P = N at qN rN ⊢
  rw [hη] at rN
  have rN' := abs_le.mp rN
  have hNN : |N.val - (fN.val + fS.val + fW.val + fE.val - 4 * fC.val)| ≤
      25 * (1 / 9007199254740992 * B) := by
    rw [abs_le]
    constructor <;> linarith only [r1'.1, r1'.2, r2'.1, r2'.2, r3'.1, r3'.2, rP'.1, rP'.2, rN'.1,
      rN'.2, hB0]
  have hNN' := abs_le.mp hNN
  have hN9 : |N.val| ≤ 9 * B := by
    rw [abs_le]
    constructor <;> linarith only [hNN'.1, hNN'.2, bN'.1, bN'.2, bS'.1, bS'.2, bW'.1, bW'.2, bE'.1,
      bE'.2, bC'.1, bC'.2, hB0]
  -- the Laplacian
  rw [hη] at rD rK
  have rD' := abs_le.mp rD
  have rK' := abs_le.mp rK
  have hD916 : 9 / 16 * q ≤ D.val := by linarith [rD'.1]
  have hDne : D.val ≠ 0 := by
    have : 0 < D.val := by linarith
    exact ne_of_gt this
  have gL : |N.val / D.val| ≤ 16 * B / q := stencil_quotient_bound _ _ _ _ hqpos hD916 hN9
  have hXL : pow2 (-1022) ≤ 16 * B / q := by
    rw [le_div_iff₀ hqpos]; linarith
  have hYL : 16 * B / q ≤ pow2 1023 := by
    rw [div_le_iff₀ hqpos]; exact hBq2
  obtain ⟨qL, rL⟩ := Dbl.div_near N D (16 * B / q) qN qD hDne gL hXL hYL
  generalize Dbl.div N D = L at qL rL ⊢
  rw [hη] at rL
  have rL' := abs_le.mp rL
  have gL' := abs_le.mp gL
  have hBq0 : 0 ≤ 16 * B / q := le_trans (le_of_lt (pow2_pos _)) hXL
  have hL17 : |L.val| ≤ 17 * B / q := by
    have e : 17 * B / q = 17 / 16 * (16 * B / q) := by ring
    rw [e, abs_le]
    generalize 16 * B / q = X at rL' gL' hBq0
    generalize N.val / D.val = M at rL' gL'
    constructor <;> linarith only [rL'.1, rL'.2, gL'.1, gL'.2, hBq0]
  have hKb : |K.val| ≤ 13 / 50 * q := by
    rw [abs_le]; constructor <;> linarith only [rK'.1, rK'.2, hstab, hm0, hqpos]
  have gT : |K.val * L.val| ≤ 5 * B := factor_laplacian_bound _ _ _ _ hqpos hKb hL17
  obtain ⟨qT, rT⟩ := Dbl.mul_near K L (5 * B) qK qL gT hX5 hY5
  generalize Dbl.mul K L = T at qT rT ⊢
  rw [hη] at rT
  have rT' := abs_le.mp rT
  have gT' := abs_le.mp gT
  have gr : |fC.val + T.val| ≤ 7 * B := by
    rw [abs_le]
    constructor <;> linarith only [rT'.1, rT'.2, gT'.1, gT'.2, bC'.1, bC'.2, hB0]
  obtain ⟨qr, rr⟩ := Dbl.add_near fC T (7 * B) hC.1 qT.1 gr hX7 hY7
  rw [hη] at rr
  refine ⟨qr.1, ?_⟩
  have h := diffuse_error (1 / 9007199254740992) q m K.val D.val B fN.val fS.val fW.val fE.val
    fC.val N.val L.val T.val _ rfl hqpos hm0 hstab rK rD bN bS bW bE bC hNN rL rT rr
  rw [pow2_neg47, hη]
  linarith only [h]

/-! ## Diffusion under the stability bound (C19) -/

/-- Adding the product of a finite factor with `0.0` to a finite double `f`. -/
theorem Dbl.add_mul_zero (f k : Dbl) (hf : f.isFinite = true ∧ f.IsDouble)
    (hk : k.isFinite = true) :
    Dbl.eq (Dbl.add f (Dbl.mul k Dbl.zero)) f = true ∧
      (Dbl.add f (Dbl.mul k Dbl.zero)).isFinite = true ∧
      (Dbl.add f (Dbl.mul k Dbl.zero)).val = f.val := by
  obtain ⟨n, a, rfl, hm⟩ := Dbl.finite_cases f hf
  cases k with
  | nan => exact absurd hk (by decide)
  | inf m => exact absurd hk (by simp [Dbl.isFinite])
  | fin nk ak =>
    have e : Dbl.mul (Dbl.fin nk ak) Dbl.zero = Dbl.fin (xor nk false) 0 :=
      Dbl.fin_mul_zero nk false ak
    rw [e]
    obtain ⟨n2, hn2⟩ := Dbl.add_zero_val n (xor nk false) a hm
    rw [hn2]
    by_cases ha : a = 0
    · subst ha
      refine ⟨Dbl.eq_fin_same_mag _ _ _ (Or.inr rfl), rfl, ?_⟩
      cases n <;> cases n2 <;> simp [Dbl.val]
    · have hsame : n2 = n := by
        have h2 := Dbl.add_zero_of_pos n (xor nk false) a hm ha
        rw [hn2] at h2
        injection h2
      rw [hsame]
      exact ⟨Dbl.eq_fin_same_mag _ _ _ (Or.inl rfl), rfl, rfl⟩

/-- C19, as stated, fails: with `dx = 0.25`, `nu = dt = 0.125` (so that
`dt = dx² / (4 nu)`) and the 3 × 3 field `0.1` with centre `0.6`, the centre
value of `diffuse` is `0.1 - 2^-55`, below the minimum `0.1` of the field. -/
theorem diffuse_stable_counterexample :
    (0 < (Dbl.ofRat (1 / 8)).val ∧
        (Dbl.ofRat (1 / 8)).val ≤
          (Dbl.ofRat (1 / 4)).val * (Dbl.ofRat (1 / 4)).val / (4 * (Dbl.ofRat (1 / 8)).val)) ∧
      (F64.diffuse (F64.construct 3 3 (Dbl.ofRat (1 / 4)) (Dbl.ofRat (1 / 8)) (Dbl.ofRat (1 / 8))
          Dbl.one)
        [Dbl.ofRat (1 / 10), Dbl.ofRat (1 / 10), Dbl.ofRat (1 / 10),
          Dbl.ofRat (1 / 10), Dbl.ofRat (6 / 10), Dbl.ofRat (1 / 10),
          Dbl.ofRat (1 / 10), Dbl.ofRat (1 / 10), Dbl.ofRat (1 / 10)]).getD (idx 1 1 3)
        Dbl.zero = Dbl.fin false ((Dbl.ofRat (1 / 10)).val - pow2 (-55)) ∧
      Dbl.lt (Dbl.fin false ((Dbl.ofRat (1 / 10)).val - pow2 (-55))) (Dbl.ofRat (1 / 10)) =
        true := by
  decide!

/-- C19 (amended): for every `nx, ny ≥ 1`, finite `nu > 0`, `dt ≥ 0` and `dx` with
`dt ≤ dx² / (4 nu)` and `2^-1022 ≤ dx² ≤ 2^1023`, and every field of `nx * ny`
finite values bounded in absolute value by `B`, where
`2^-1022 max(1, dx²) ≤ B ≤ 2^1019 min(1, dx²)`: every value of `diffuse(field)` is
finite and lies between `min - 2^-47 B` and `max + 2^-47 B`; each interior value
is within `2^-47 B` of the convex combination
`(1 - 4 r) field[i,j] + r (sum of the four axis neighbours)` with
`r = nu dt / dx²` in `[0, 1/4]`; every boundary-ring value compares equal to the
input value at that cell.  Rounding can take an interior value below the minimum
or above the maximum of the field. -/
theorem diffuse_stable_f64 (s : F64.FluidSimulator) (field : List Dbl)
    (hlen : field.length = s.nx * s.ny)
    (hnu : s.nu.isFinite = true ∧ s.nu.IsDouble) (hdt : s.dt.isFinite = true ∧ s.dt.IsDouble)
    (hdx : s.dx.isFinite = true ∧ s.dx.IsDouble)
    (hnu0 : 0 < s.nu.val) (hdt0 : 0 ≤ s.dt.val)
    (hstab : s.dt.val ≤ s.dx.val * s.dx.val / (4 * s.nu.val))
    (hq1 : pow2 (-1022) ≤ s.dx.val * s.dx.val) (hq2 : s.dx.val * s.dx.val ≤ pow2 1023)
    (B lo hi : ℚ) (hB1 : pow2 (-1022) ≤ B) (hB2 : B ≤ pow2 1019)
    (hBq1 : pow2 (-1022) * (s.dx.val * s.dx.val) ≤ B)
    (hBq2 : B ≤ pow2 1019 * (s.dx.val * s.dx.val))
    (hlo : -B ≤ lo) (hhi : hi ≤ B)
    (hf : ∀ x ∈ field, (x.isFinite = true ∧ x.IsDouble) ∧ lo ≤ x.val ∧ x.val ≤ hi)
    (i j : Nat) (hi' : i < s.ny) (hj : j < s.nx) :
    (0 ≤ s.nu.val * s.dt.val / (s.dx.val * s.dx.val) ∧
        s.nu.val * s.dt.val / (s.dx.val * s.dx.val) ≤ 1 / 4) ∧
      ((F64.diffuse s field).getD (idx i j s.nx) Dbl.zero).isFinite = true ∧
      lo - pow2 (-47) * B ≤ ((F64.diffuse s field).getD (idx i j s.nx) Dbl.zero).val ∧
      ((F64.diffuse s field).getD (idx i j s.nx) Dbl.zero).val ≤ hi + pow2 (-47) * B ∧
      ((1 ≤ i ∧ i + 2 ≤ s.ny ∧ 1 ≤ j ∧ j + 2 ≤ s.nx) →
        |((F64.diffuse s field).getD (idx i j s.nx) Dbl.zero).val -
          ((1 - 4 * (s.nu.val * s.dt.val / (s.dx.val * s.dx.val))) *
              (field.getD (idx i j s.nx) Dbl.zero).val +
            s.nu.val * s.dt.val / (s.dx.val * s.dx.val) *
              ((field.getD (idx (i - 1) j s.nx) Dbl.zero).val +
                (field.getD (idx (i + 1) j s.nx) Dbl.zero).val +
                (field.getD (idx i (j - 1) s.nx) Dbl.zero).val +
                (field.getD (idx i (j + 1) s.nx) Dbl.zero).val))| ≤ pow2 (-47) * B) ∧
      ((i = 0 ∨ i = s.ny - 1 ∨ j = 0 ∨ j = s.nx - 1) →
        Dbl.eq ((F64.diffuse s field).getD (idx i j s.nx) Dbl.zero)
          (field.getD (idx i j s.nx) Dbl.zero) = true) := by
  have hB0 : 0 ≤ B := le_trans (le_of_lt (pow2_pos _)) hB1
  have hε : 0 ≤ pow2 (-47) * B := mul_nonneg (le_of_lt (pow2_pos _)) hB0
  have hqpos : 0 < s.dx.val * s.dx.val := lt_of_lt_of_le (pow2_pos _) hq1
  have h4nu : 0 < 4 * s.nu.val := by linarith
  have hstab2 : 4 * (s.nu.val * s.dt.val) ≤ s.dx.val * s.dx.val := by
    have := (le_div_iff₀ h4nu).mp hstab
    linarith
  have hBq2' : 16 * B ≤ pow2 1023 * (s.dx.val * s.dx.val) := by
    rw [pow2_1023_eq]; linarith
  have hr : 0 ≤ s.nu.val * s.dt.val / (s.dx.val * s.dx.val) ∧
      s.nu.val * s.dt.val / (s.dx.val * s.dx.val) ≤ 1 / 4 := by
    constructor
    · exact div_nonneg (mul_nonneg (le_of_lt hnu0) hdt0) (le_of_lt hqpos)
    · rw [div_le_iff₀ hqpos]; linarith
  have hin : ∀ a b, a < s.ny → b < s.nx →
      ((field.getD (idx a b s.nx) Dbl.zero).isFinite = true ∧
        (field.getD (idx a b s.nx) Dbl.zero).IsDouble) ∧
      lo ≤ (field.getD (idx a b s.nx) Dbl.zero).val ∧
      (field.getD (idx a b s.nx) Dbl.zero).val ≤ hi := by
    intro a b ha hb
    exact hf _ (getD_mem field _ Dbl.zero (by rw [hlen]; exact idx_lt ha hb))
  have habs : ∀ a b, a < s.ny → b < s.nx → |(field.getD (idx a b s.nx) Dbl.zero).val| ≤ B := by
    intro a b ha hb
    have := hin a b ha hb
    rw [abs_le]
    constructor <;> linarith [this.2.1, this.2.2]
  have hK : (Dbl.mul s.nu s.dt).isFinite = true := by
    have h := Dbl.mul_near s.nu s.dt (s.dx.val * s.dx.val) hnu hdt
      (by rw [abs_of_nonneg (mul_nonneg (le_of_lt hnu0) hdt0)]; linarith) hq1 hq2
    exact h.1.1
  rw [diffuse_cells_f64 s field hlen i j hi' hj, laplacian_cells_f64 field s.nx s.ny s.dx i j hj]
  by_cases hc : 1 ≤ i ∧ i < s.ny - 1 ∧ 1 ≤ j ∧ j < s.nx - 1
  · rw [if_pos hc]
    have hnear := Dbl.diffuse_near s.nu s.dt s.dx
      (field.getD (idx (i - 1) j s.nx) Dbl.zero) (field.getD (idx (i + 1) j s.nx) Dbl.zero)
      (field.getD (idx i (j - 1) s.nx) Dbl.zero) (field.getD (idx i (j + 1) s.nx) Dbl.zero)
      (field.getD (idx i j s.nx) Dbl.zero) hnu hdt hdx (le_of_lt hnu0) hdt0 hq1 hq2 hstab2
      B hB1 hB2 hBq1 hBq2'
      (hin _ _ (by omega) hj).1 (hin _ _ (by omega) hj).1 (hin _ _ hi' (by omega)).1
      (hin _ _ hi' (by omega)).1 (hin _ _ hi' hj).1
      (habs _ _ (by omega) hj) (habs _ _ (by omega) hj) (habs _ _ hi' (by omega))
      (habs _ _ hi' (by omega)) (habs _ _ hi' hj)
    have hconv := convex5_bounds (s.nu.val * s.dt.val / (s.dx.val * s.dx.val))
      (field.getD (idx i j s.nx) Dbl.zero).val
      (field.getD (idx (i - 1) j s.nx) Dbl.zero).val
      (field.getD (idx (i + 1) j s.nx) Dbl.zero).val
      (field.getD (idx i (j - 1) s.nx) Dbl.zero).val
      (field.getD (idx i (j + 1) s.nx) Dbl.zero).val lo hi hr.1 hr.2
      (hin _ _ hi' hj).2 (hin _ _ (by omega) hj).2 (hin _ _ (by omega) hj).2
      (hin _ _ hi' (by omega)).2 (hin _ _ hi' (by omega)).2
    generalize Dbl.add (field.getD (idx i j s.nx) Dbl.zero)
      (Dbl.mul (Dbl.mul s.nu s.dt)
        (Dbl.div
          (Dbl.sub
            (Dbl.add
              (Dbl.add
                (Dbl.add (field.getD (idx (i - 1) j s.nx) Dbl.zero)
                  (field.getD (idx (i + 1) j s.nx) Dbl.zero))
                (field.getD (idx i (j - 1) s.nx) Dbl.zero))
              (field.getD (idx i (j + 1) s.nx) Dbl.zero))
            (Dbl.mul (Dbl.fin false 4) (field.getD (idx i j s.nx) Dbl.zero)))
          (Dbl.mul s.dx s.dx))) = r at hnear ⊢
    have e : (field.getD (idx i j s.nx) Dbl.zero).val +
        s.nu.val * s.dt.val / (s.dx.val * s.dx.val) *
          ((field.getD (idx (i - 1) j s.nx) Dbl.zero).val +
            (field.getD (idx (i + 1) j s.nx) Dbl.zero).val +
            (field.getD (idx i (j - 1) s.nx) Dbl.zero).val +
            (field.getD (idx i (j + 1) s.nx) Dbl.zero).val -
            4 * (field.getD (idx i j s.nx) Dbl.zero).val) =
        (1 - 4 * (s.nu.val * s.dt.val / (s.dx.val * s.dx.val))) *
            (field.getD (idx i j s.nx) Dbl.zero).val +
          s.nu.val * s.dt.val / (s.dx.val * s.dx.val) *
            ((field.getD (idx (i - 1) j s.nx) Dbl.zero).val +
              (field.getD (idx (i + 1) j s.nx) Dbl.zero).val +
              (field.getD (idx i (j - 1) s.nx) Dbl.zero).val +
              (field.getD (idx i (j + 1) s.nx) Dbl.zero).val) := by ring
    rw [e] at hnear
    have hd := abs_le.mp hnear.2
    refine ⟨hr, hnear.1, by linarith [hd.1, hconv.1], by linarith [hd.2, hconv.2],
      fun _ => hnear.2, fun hring => absurd hring (by omega)⟩
  · rw [if_neg hc]
    have h := Dbl.add_mul_zero (field.getD (idx i j s.nx) Dbl.zero) (Dbl.mul s.nu s.dt)
      (hin _ _ hi' hj).1 hK
    have hb := (hin _ _ hi' hj).2
    refine ⟨hr, h.2.1, by rw [h.2.2]; linarith [hb.1], by rw [h.2.2]; linarith [hb.2],
      fun hint => absurd hint (by omega), fun _ => h.1⟩

/-- Instance of C19: `dx = 0.25`, `nu = dt = 0.125`, the 3 × 3 field `0.1` with
centre `0.6`, the centre cell, with `B = 1`. -/
theorem diffuse_stable_f64_witness :
    (Dbl.ofRat (1 / 10)).val - pow2 (-47) * 1 ≤
      ((F64.diffuse (F64.construct 3 3 (Dbl.ofRat (1 / 4)) (Dbl.ofRat (1 / 8)) (Dbl.ofRat (1 / 8))
          Dbl.one)
        [Dbl.ofRat (1 / 10), Dbl.ofRat (1 / 10), Dbl.ofRat (1 / 10),
          Dbl.ofRat (1 / 10), Dbl.ofRat (6 / 10), Dbl.ofRat (1 / 10),
          Dbl.ofRat (1 / 10), Dbl.ofRat (1 / 10), Dbl.ofRat (1 / 10)]).getD (idx 1 1 3)
        Dbl.zero).val :=
  (diffuse_stable_f64
    (F64.construct 3 3 (Dbl.ofRat (1 / 4)) (Dbl.ofRat (1 / 8)) (Dbl.ofRat (1 / 8)) Dbl.one)
    [Dbl.ofRat (1 / 10), Dbl.ofRat (1 / 10), Dbl.ofRat (1 / 10),
      Dbl.ofRat (1 / 10), Dbl.ofRat (6 / 10), Dbl.ofRat (1 / 10),
      Dbl.ofRat (1 / 10), Dbl.ofRat (1 / 10), Dbl.ofRat (1 / 10)]
    (by decide) (by decide!) (by decide!) (by decide!) (by decide!) (by decide!) (by decide!)
    (by decide!) (by decide!) 1 (Dbl.ofRat (1 / 10)).val (Dbl.ofRat (6 / 10)).val
    (by decide!) (by decide!) (by decide!) (by decide!) (by decide!) (by decide!) (by decide!)
    1 1 (by decide) (by decide)).2.2.1

end FluidSim
